import Mathlib

/-!
# Zero-copy stream adapters (`ripple/overlay/impl/ZeroCopyStream.h`)

A shallow embedding of the two adapters of `ZeroCopyStream.h`:

* `ZeroCopyInputStream`, which walks a sequence of read-only regions, and
* `ZeroCopyOutputStream`, which hands out writable capacity of a sink and commits it lazily.

Conventions of the embedding.

* An address is a natural number and `nullptr` is address `0`.  Memory is a function from
  addresses to bytes; a buffer is an `(address, size)` pair, as in `boost::asio`.
* An iterator into a buffer sequence is the pair of the elements behind the position (nearest
  first) and the elements from the position on.  `begin()` has nothing behind it, `end()` has
  nothing ahead of it, `++` moves one element from `ahead` to `before`, `--` moves one back and is
  undefined at `begin()`, `*` reads the first element ahead and is undefined at `end()`.  Undefined
  operations make the embedded function return `none`.
* A size (`std::size_t`) is a natural number and a counter (`int64`) an integer.  The size of a
  region is taken to be below `2^63`, and sums of sizes and of counters are taken not to
  overflow 64 bits.  The conversions between integer types in the source are modelled where a
  value passes through a narrower or a signed type: `Next` reports a size through `int* size`,
  which keeps the low 32 bits as a signed number (`to_int`); an `int` that is stored in,
  subtracted from or compared with a `std::size_t` wraps around modulo `2^64` when it is
  negative (`to_size_t`), so the pending amount `commit_` of the writer can be `2^63` or more;
  where the writer adds the pending amount, or a part of it, to its counter, a value of `2^63`
  or more counts as the negative number it is in 64 bits (`to_int64`).
-/

namespace ripple

/-! ## Buffers and memory -/

/-- The null address. -/
def nullptr : Nat := 0

/-- One byte of memory. -/
abbrev Byte : Type := Fin 256

/-- Memory: the byte stored at every address. -/
abbrev Memory : Type := Nat → Byte

/-- The type `boost::asio::const_buffer`: a read-only region given by its address and size. -/
structure const_buffer where
  data : Nat
  size : Nat
deriving DecidableEq

/-- The type `boost::asio::mutable_buffer`: a writable region given by its address and size. -/
structure mutable_buffer where
  data : Nat
  size : Nat
deriving DecidableEq

/-- The value `const_buffer(nullptr, 0)`. -/
def const_buffer.null : const_buffer := ⟨nullptr, 0⟩

/-- The function `boost::asio::buffer_cast`: the address of a region. -/
def buffer_cast (b : const_buffer) : Nat := b.data

/-- The function `boost::asio::buffer_size`: the size of a region. -/
def buffer_size (b : const_buffer) : Nat := b.size

/-- The `boost::asio` operator `b + n`: the region without its first `n` bytes, or the empty
region at its end when `n` is not smaller than its size. -/
def const_buffer.plus (b : const_buffer) (n : Nat) : const_buffer :=
  let offset := if n < b.size then n else b.size
  ⟨b.data + offset, b.size - offset⟩

/-- The bytes a region denotes in a given memory. -/
def bytesOf (mem : Memory) (b : const_buffer) : List Byte :=
  (List.range b.size).map (fun i => mem (b.data + i))

/-- The bytes a sequence of regions denotes: the concatenation of the bytes of its regions. -/
def bytesOfAll (mem : Memory) (bs : List const_buffer) : List Byte :=
  (bs.map (bytesOf mem)).flatten

/-- The total size of a sequence of regions. -/
def totalSize (bs : List const_buffer) : Nat :=
  (bs.map const_buffer.size).sum

/-- Conversion of an integer to `std::size_t` (64 bits): a negative value wraps around modulo
`2^64`; a value that is not negative is taken to fit. -/
def to_size_t (z : Int) : Nat := if 0 ≤ z then z.toNat else (z % (2 : Int) ^ 64).toNat

/-- Conversion of a `std::size_t` to `int` (32 bits): the low 32 bits, read as a signed number. -/
def to_int (n : Nat) : Int :=
  if n % 4294967296 < 2147483648 then ((n % 4294967296 : Nat) : Int)
  else ((n % 4294967296 : Nat) : Int) - 4294967296

/-- Conversion of a `std::size_t` to `int64`: a value of `2^63` or more is the negative number
with the same 64 bits. -/
def to_int64 (n : Nat) : Int :=
  if n < 9223372036854775808 then (n : Int) else (n : Int) - 18446744073709551616

/-- The out-parameters `(*data, *size)` of `Next`: an address and an `int`. -/
structure chunk where
  data : Nat
  size : Int
deriving DecidableEq

/-- The bytes of a chunk handed out by `Next`: `size` bytes from `data` on, none when the size
is not positive. -/
def chunkBytes (mem : Memory) (c : chunk) : List Byte :=
  (List.range c.size.toNat).map (fun i => mem (c.data + i))

/-- The concatenation of the bytes of a sequence of chunks. -/
def chunksBytes (mem : Memory) (cs : List chunk) : List Byte :=
  (cs.map (chunkBytes mem)).flatten

/-! ## Iterators -/

/-- A bidirectional iterator into a sequence: the elements behind the position, nearest first,
and the elements from the position on. -/
structure iterator (α : Type) where
  before : List α
  ahead : List α
deriving DecidableEq

/-- The iterator `begin()` of a sequence. -/
def iterator.begin {α : Type} (xs : List α) : iterator α := ⟨[], xs⟩

/-- The sequence an iterator points into. -/
def iterator.sequence {α : Type} (it : iterator α) : List α := it.before.reverse ++ it.ahead

/-- Comparison with `end()`: nothing is ahead. -/
def iterator.atEnd {α : Type} (it : iterator α) : Bool := it.ahead.isEmpty

/-! ## `ZeroCopyInputStream` -/

/-- The members of `ZeroCopyInputStream<Buffers>`.  The member `last_` is the `end()` iterator of
the sequence `first_` points into, so `first_ == last_` holds exactly when nothing is ahead of
`first_`. -/
structure ZeroCopyInputStream where
  count_ : Int
  first_ : iterator const_buffer
  pos_ : const_buffer
deriving DecidableEq

namespace ZeroCopyInputStream

/-- The expression `(it != last_) ? *it : const_buffer(nullptr, 0)`, which the constructor and
`Next` assign to `pos_`. -/
def regionAt (it : iterator const_buffer) : const_buffer :=
  match it.ahead with
  | [] => const_buffer.null
  | b :: _ => b

/-- The constructor `ZeroCopyInputStream (Buffers const& buffers)`. -/
def new (buffers : List const_buffer) : ZeroCopyInputStream :=
  { count_ := 0
    first_ := iterator.begin buffers
    pos_ := regionAt (iterator.begin buffers) }

/-- The method `ByteCount`. -/
def ByteCount (s : ZeroCopyInputStream) : Int := s.count_

/-- The method `Next`: the returned flag, the reported region `(*data, *size)`, and the state
after the call.  The size is written through `int* size`, and that `int` is added to
`count_`. -/
def Next (s : ZeroCopyInputStream) : Bool × chunk × ZeroCopyInputStream :=
  let out : chunk := ⟨buffer_cast s.pos_, to_int (buffer_size s.pos_)⟩
  match s.first_.ahead with
  | [] => (false, out, s)
  | b :: rest =>
    (true, out,
      { count_ := s.count_ + out.size
        first_ := ⟨b :: s.first_.before, rest⟩
        pos_ := regionAt ⟨b :: s.first_.before, rest⟩ })

/-- The method `BackUp`.  Decrementing `first_` is undefined at `begin()`. -/
def BackUp (s : ZeroCopyInputStream) (count : Int) : Option ZeroCopyInputStream :=
  match s.first_.before with
  | [] => none
  | b :: before =>
    some
      { count_ := s.count_ - count
        first_ := ⟨before, b :: s.first_.ahead⟩
        pos_ := b.plus (to_size_t ((buffer_size b : Int) - count)) }

/-- The loop `while (count > 0)` of `Skip`, entered with `first_` on the region `cur`, which has
the regions `before` behind it and the regions `rest` after it, with the members `count_` and
`pos_` and the remaining `count`: the flag returned and the state at the return.  One iteration
either returns or moves `first_` on by one region; `++first_ == last_` holds when no region is
after `cur`. -/
def Skip.loop (before : List const_buffer) :
    List const_buffer → const_buffer → Int → const_buffer → Int → Bool × ZeroCopyInputStream
  | rest, cur, count_, pos_, count =>
    if 0 < count then
      let size := buffer_size pos_
      if count < (size : Int) then
        (true, { count_ := count_ + count, first_ := ⟨before, cur :: rest⟩,
                 pos_ := pos_.plus count.toNat })
      else
        match rest with
        | [] => (false, { count_ := count_ + size, first_ := ⟨cur :: before, []⟩, pos_ := pos_ })
        | nxt :: rest' => Skip.loop (cur :: before) rest' nxt (count_ + size) nxt (count - size)
    else
      (true, { count_ := count_, first_ := ⟨before, cur :: rest⟩, pos_ := pos_ })

/-- The method `Skip`: the flag returned and the state after the call. -/
def Skip (s : ZeroCopyInputStream) (count : Int) : Bool × ZeroCopyInputStream :=
  match s.first_.ahead with
  | [] => (false, s)
  | cur :: rest => Skip.loop s.first_.before rest cur s.count_ s.pos_ count

/-! ### Notions used to state the properties of the reader -/

/-- The regions a reader has not handed out yet: the rest of the current region, then the regions
after it; nothing once `first_` has reached the end. -/
def unreadBuffers (s : ZeroCopyInputStream) : List const_buffer :=
  match s.first_.ahead with
  | [] => []
  | _ :: rest => s.pos_ :: rest

/-- The number of unread bytes remaining. -/
def unread (s : ZeroCopyInputStream) : Nat := totalSize (unreadBuffers s)

/-- The unread byte stream. -/
def unreadBytes (mem : Memory) (s : ZeroCopyInputStream) : List Byte :=
  bytesOfAll mem (unreadBuffers s)

/-- The offset of the cursor in the logical byte stream: the sizes of the regions behind `first_`
plus the part of the current region that lies before `pos_`. -/
def offset (s : ZeroCopyInputStream) : Nat :=
  totalSize s.first_.before +
    match s.first_.ahead with
    | [] => 0
    | b :: _ => b.size - s.pos_.size

/-- Calls `Next` until it returns false, at most `fuel` times: the chunks handed out by the calls
that returned true, in order, and the state after the call that returned false; `none` when
`fuel` calls did not reach a false return. -/
def drain : Nat → ZeroCopyInputStream → Option (List chunk × ZeroCopyInputStream)
  | 0, _ => none
  | fuel + 1, s =>
    match Next s with
    | (false, _, s') => some ([], s')
    | (true, c, s') => (drain fuel s').map (fun r => (c :: r.1, r.2))

/-- Calls `Next` until it returns false; one call per region ahead and one more are enough. -/
def readAll (s : ZeroCopyInputStream) : Option (List chunk × ZeroCopyInputStream) :=
  drain (s.first_.ahead.length + 1) s

/-- The reader states reachable from construction over `buffers` by `Next`, by `Skip (n)` with
`0 ≤ n`, and by `BackUp (k)` called directly after a `Next` that returned true, with `k` at most
the size of the chunk that `Next` returned. -/
inductive Reachable (buffers : List const_buffer) : ZeroCopyInputStream → Prop
  | new : Reachable buffers (new buffers)
  | next {s : ZeroCopyInputStream} : Reachable buffers s → Reachable buffers (Next s).2.2
  | skip {s : ZeroCopyInputStream} (n : Nat) :
      Reachable buffers s → Reachable buffers (Skip s n).2
  | backUp {s t : ZeroCopyInputStream} (k : Nat) :
      Reachable buffers s → (Next s).1 = true → (k : Int) ≤ (Next s).2.1.size →
      BackUp (Next s).2.2 k = some t → Reachable buffers t

/-- The same reachable states together with three tallies kept beside the reader: the bytes
handed out by calls of `Next` that returned true (the sizes they reported), the bytes skipped by
`Skip` (the requested amount, or what was left when less was left), and the bytes given back by
`BackUp`. -/
inductive Trace (buffers : List const_buffer) : ZeroCopyInputStream → Nat → Nat → Nat → Prop
  | new : Trace buffers (new buffers) 0 0 0
  | next {s : ZeroCopyInputStream} {y k b : Nat} : Trace buffers s y k b →
      Trace buffers (Next s).2.2
        (y + if (Next s).1 then (Next s).2.1.size.toNat else 0) k b
  | skip {s : ZeroCopyInputStream} {y k b : Nat} (n : Nat) : Trace buffers s y k b →
      Trace buffers (Skip s n).2 y (k + min n (unread s)) b
  | backUp {s t : ZeroCopyInputStream} {y k b : Nat} (j : Nat) : Trace buffers s y k b →
      (Next s).1 = true → (j : Int) ≤ (Next s).2.1.size → BackUp (Next s).2.2 j = some t →
      Trace buffers t (y + (Next s).2.1.size.toNat) k (b + j)

/-- The chunk that is a region in full. -/
def whole (b : const_buffer) : chunk := ⟨b.data, b.size⟩

/-- The chunk through which `Next` reports the region `pos_`. -/
def report (b : const_buffer) : chunk := ⟨buffer_cast b, to_int (buffer_size b)⟩

/-- The part of the invariant of the reachable reader states that holds whatever the sizes of
the regions are: `first_` points into `buffers` and `pos_` is a tail of the region `first_` is
on. -/
structure Shape (buffers : List const_buffer) (s : ZeroCopyInputStream) : Prop where
  seq : s.first_.sequence = buffers
  pos : ∀ b rest, s.first_.ahead = b :: rest →
    ∃ off, off ≤ b.size ∧ s.pos_ = ⟨b.data + off, b.size - off⟩

/-- The invariant of the reachable reader states over regions smaller than `2^31` bytes:
`first_` points into `buffers`, `pos_` is a tail of the region `first_` is on, and `count_` is
the offset of the cursor. -/
structure Valid (buffers : List const_buffer) (s : ZeroCopyInputStream) : Prop where
  seq : s.first_.sequence = buffers
  pos : ∀ b rest, s.first_.ahead = b :: rest →
    ∃ off, off ≤ b.size ∧ s.pos_ = ⟨b.data + off, b.size - off⟩
  count : s.count_ = offset s

end ZeroCopyInputStream

/-! ## `ZeroCopyOutputStream` -/

/-- The operations of the template parameter `Streambuf` that the writer calls, over the states
`σ` of a sink: `prepare (size)` returns a sequence of writable regions, `commit (n)` returns
nothing.  Either may fault, which is the result `none`. -/
structure Streambuf (σ : Type) where
  prepare : σ → Nat → Option (List mutable_buffer × σ)
  commit : σ → Nat → Option σ

/-- The members of `ZeroCopyOutputStream<Streambuf>`.  The member `streambuf_` is a reference to
the sink, which the writer alone uses during its lifetime: the state of the sink is kept here. -/
structure ZeroCopyOutputStream (σ : Type) where
  streambuf_ : σ
  blockSize_ : Nat
  count_ : Int
  commit_ : Nat
  buffers_ : List mutable_buffer
  pos_ : iterator mutable_buffer
deriving DecidableEq

namespace ZeroCopyOutputStream

variable {σ : Type}

/-- The constructor `ZeroCopyOutputStream (Streambuf& streambuf, std::size_t blockSize)`. -/
def new (S : Streambuf σ) (streambuf : σ) (blockSize : Nat) :
    Option (ZeroCopyOutputStream σ) :=
  match S.prepare streambuf blockSize with
  | none => none
  | some (buffers, sb) =>
    some
      { streambuf_ := sb
        blockSize_ := blockSize
        count_ := 0
        commit_ := 0
        buffers_ := buffers
        pos_ := iterator.begin buffers }

/-- The destructor: the state in which it leaves the sink. -/
def destroy (S : Streambuf σ) (w : ZeroCopyOutputStream σ) : Option σ :=
  if w.commit_ ≠ 0 then S.commit w.streambuf_ w.commit_ else some w.streambuf_

/-- The method `ByteCount`. -/
def ByteCount (w : ZeroCopyOutputStream σ) : Int := w.count_

/-- The first statement of `Next`: `if (commit_ != 0) { streambuf_.commit(commit_);
count_ += commit_; }`. -/
def Next.flush (S : Streambuf σ) (w : ZeroCopyOutputStream σ) :
    Option (ZeroCopyOutputStream σ) :=
  if w.commit_ ≠ 0 then
    match S.commit w.streambuf_ w.commit_ with
    | none => none
    | some sb => some { w with streambuf_ := sb, count_ := w.count_ + to_int64 w.commit_ }
  else some w

/-- The second statement of `Next`: `if (pos_ == buffers_.end()) { buffers_ =
streambuf_.prepare (blockSize_); pos_ = buffers_.begin(); }`. -/
def Next.refill (S : Streambuf σ) (w : ZeroCopyOutputStream σ) :
    Option (ZeroCopyOutputStream σ) :=
  if w.pos_.atEnd then
    match S.prepare w.streambuf_ w.blockSize_ with
    | none => none
    | some (buffers, sb) =>
      some { w with streambuf_ := sb, buffers_ := buffers, pos_ := iterator.begin buffers }
  else some w

/-- The method `Next`: the returned flag, the region `(*data, *size)` handed out, and the state
after the call.  Reading `*pos_` is undefined when `pos_` is at the end of the batch.  The size
is written through `int* size`, and `commit_ = *size` stores that `int` in a `std::size_t`. -/
def Next (S : Streambuf σ) (w : ZeroCopyOutputStream σ) :
    Option (Bool × chunk × ZeroCopyOutputStream σ) :=
  match Next.flush S w with
  | none => none
  | some w1 =>
    match Next.refill S w1 with
    | none => none
    | some w2 =>
      match w2.pos_.ahead with
      | [] => none
      | b :: rest =>
        some (true, ⟨b.data, to_int b.size⟩,
          { w2 with commit_ := to_size_t (to_int b.size), pos_ := ⟨b :: w2.pos_.before, rest⟩ })

/-- The method `BackUp`.  The assertion `count <= commit_` compares in `std::size_t`; a failed
assertion is a fault.  The amount `n` is a `std::size_t`, and `count_ += n` adds it to the
`int64` counter. -/
def BackUp (S : Streambuf σ) (w : ZeroCopyOutputStream σ) (count : Int) :
    Option (ZeroCopyOutputStream σ) :=
  if to_size_t count ≤ w.commit_ then
    let n := w.commit_ - to_size_t count
    match S.commit w.streambuf_ n with
    | none => none
    | some sb =>
      some { w with streambuf_ := sb, count_ := w.count_ + to_int64 n, commit_ := 0 }
  else none

end ZeroCopyOutputStream

/-! ## The sink -/

/-- Modelled from the spec: the state of the sink behind the template parameter `Streambuf`,
which is not part of the source.  It holds the contents committed so far, as the regions
accepted, in the order of acceptance; the capacity of the most recent preparation that is
neither committed nor discarded; the first address it has not handed out yet; and the number of
preparations made. -/
structure Sink where
  committed : List const_buffer
  prepared : List mutable_buffer
  brk : Nat
  prepares : Nat
deriving DecidableEq

namespace Sink

/-- Modelled from the spec: the initially empty sink, whose memory starts at address `base`. -/
def empty (base : Nat) : Sink :=
  { committed := [], prepared := [], brk := base, prepares := 0 }

/-- Consecutive regions of the given sizes, starting at address `base`. -/
def carve (base : Nat) : List Nat → List mutable_buffer
  | [] => []
  | n :: ns => ⟨base, n⟩ :: carve (base + n) ns

/-- The total capacity of a sequence of writable regions. -/
def capacity (bs : List mutable_buffer) : Nat := (bs.map mutable_buffer.size).sum

/-- The first `n` bytes of a sequence of writable regions, as read-only regions. -/
def takeBytes : List mutable_buffer → Nat → List const_buffer
  | [], _ => []
  | b :: bs, n =>
    if n = 0 then []
    else if n ≤ b.size then [⟨b.data, n⟩]
    else ⟨b.data, b.size⟩ :: takeBytes bs (n - b.size)

/-- Modelled from the spec: `prepare (size)` of the sink, "reserves at least `size` bytes of new
capacity, possibly as several regions"; capacity of an earlier preparation that was not committed
is abandoned.  The sizes of the regions of the `i`-th preparation are `layout i size`; the
regions are fresh memory.  A sink that cannot supply `size` bytes faults. -/
def prepare (layout : Nat → Nat → List Nat) (k : Sink) (size : Nat) :
    Option (List mutable_buffer × Sink) :=
  let sizes := layout k.prepares size
  if size ≤ sizes.sum then
    some (carve k.brk sizes,
      { committed := k.committed
        prepared := carve k.brk sizes
        brk := k.brk + sizes.sum
        prepares := k.prepares + 1 })
  else none

/-- Modelled from the spec: `commit (n)` of the sink, "durably accepts the first `n` bytes of the
most recently prepared, not-yet-committed capacity, discarding the rest of that preparation";
"amounts beyond the actual capacity are caller error", a fault. -/
def commit (k : Sink) (n : Nat) : Option Sink :=
  if n ≤ capacity k.prepared then
    some { k with committed := k.committed ++ takeBytes k.prepared n, prepared := [] }
  else none

/-- Modelled from the spec: the sink as a `Streambuf`, for a given layout of its
preparations. -/
def ops (layout : Nat → Nat → List Nat) : Streambuf Sink :=
  { prepare := prepare layout, commit := commit }

end Sink

/-! ## Writing a byte sequence and reading it back -/

/-- The memory after the bytes `bytes` have been written from address `p` on. -/
def store (mem : Memory) (p : Nat) (bytes : List Byte) : Memory :=
  fun a => if p ≤ a then bytes.getD (a - p) (mem a) else mem a

/-- A codec writes the bytes `B` through a writer: while bytes are left it calls `Next` and fills
the region returned, as far as the size reported goes; when the bytes left fit into the region
it writes them and calls `BackUp` with the size of the unused tail of the region.  At most
`fuel` calls of `Next` are made; the result is the writer and the memory at the end, `none`
after a fault or when `fuel` calls of `Next` did not suffice. -/
def serialize {σ : Type} (S : Streambuf σ) :
    Nat → ZeroCopyOutputStream σ → Memory → List Byte →
      Option (ZeroCopyOutputStream σ × Memory)
  | _, w, mem, [] => some (w, mem)
  | 0, _, _, _ :: _ => none
  | fuel + 1, w, mem, b :: bs =>
    match ZeroCopyOutputStream.Next S w with
    | none => none
    | some (_, region, w1) =>
      let mem1 := store mem region.data ((b :: bs).take region.size.toNat)
      if ((b :: bs).length : Int) ≤ region.size then
        match ZeroCopyOutputStream.BackUp S w1 (region.size - ((b :: bs).length : Int)) with
        | none => none
        | some w2 => some (w2, mem1)
      else serialize S fuel w1 mem1 ((b :: bs).drop region.size.toNat)

/-- The round trip: the bytes `B` are written through a fresh writer with block size `blockSize`
over the initially empty sink with the given layout, the writer is released, and the committed
contents of the sink are read through a reader until `Next` returns false.  The result is the
bytes of the chunks read, the `ByteCount` of the writer before its release, and the `ByteCount`
of the reader at the end. -/
def roundTrip (layout : Nat → Nat → List Nat) (blockSize fuel : Nat) (mem : Memory)
    (B : List Byte) : Option (List Byte × Int × Int) :=
  match ZeroCopyOutputStream.new (Sink.ops layout) (Sink.empty 1) blockSize with
  | none => none
  | some w0 =>
    match serialize (Sink.ops layout) fuel w0 mem B with
    | none => none
    | some (w, mem1) =>
      match ZeroCopyOutputStream.destroy (Sink.ops layout) w with
      | none => none
      | some sink =>
        match ZeroCopyInputStream.readAll (ZeroCopyInputStream.new sink.committed) with
        | none => none
        | some (chunks, r) => some (chunksBytes mem1 chunks, w.ByteCount, r.ByteCount)

/-- The state of a writer with block size `blockSize` over the sink directly after `Next` has
handed out the region `r`, when the sink prepares one region at a time: `r` is the whole
outstanding preparation, the cursor is past it, the size that `Next` reported for it is positive
and is the pending amount, everything committed lies below it in memory and consists of regions
smaller than `2^31` bytes, and `count_` is the number of bytes committed. -/
structure Pending (blockSize : Nat) (w : ZeroCopyOutputStream Sink) (r : mutable_buffer) :
    Prop where
  prepared : w.streambuf_.prepared = [r]
  pos : w.pos_.ahead = []
  block : w.blockSize_ = blockSize
  size : 0 < to_int r.size
  commit : w.commit_ = (to_int r.size).toNat
  brk : r.data + r.size ≤ w.streambuf_.brk
  below : ∀ c ∈ w.streambuf_.committed, c.data + c.size ≤ r.data
  fits : ∀ c ∈ w.streambuf_.committed, c.size < 2147483648
  count : w.count_ = totalSize w.streambuf_.committed

/-- The state of a writer over the sink in which the codec may call `Next`, after it has written
the bytes `done`: the call hands out a region of fresh capacity and the committed contents are
then `done`. -/
def Ready (layout : Nat → Nat → List Nat) (blockSize : Nat) (w : ZeroCopyOutputStream Sink)
    (mem : Memory) (done : List Byte) : Prop :=
  ∃ r w1,
    ZeroCopyOutputStream.Next (Sink.ops layout) w = some (true, ⟨r.data, to_int r.size⟩, w1) ∧
    Pending blockSize w1 r ∧ bytesOfAll mem w1.streambuf_.committed = done

/-! ## The calls a writer makes to its sink -/

/-- A call of the sink: `prepare (size)` or `commit (n)`. -/
inductive SinkCall where
  | prepare (size : Nat)
  | commit (n : Nat)
deriving DecidableEq

/-- The amounts passed to `commit` in a record of calls, in order. -/
def commitAmounts : List SinkCall → List Nat
  | [] => []
  | SinkCall.prepare _ :: cs => commitAmounts cs
  | SinkCall.commit n :: cs => n :: commitAmounts cs

/-- The total number of bytes passed to `commit` in a record of calls. -/
def committedBytes (calls : List SinkCall) : Nat := (commitAmounts calls).sum

/-- The nonzero entries of a list of amounts, in order. -/
def nonzero (amounts : List Nat) : List Nat := amounts.filter (fun n => n ≠ 0)

/-- A sink together with the record of the calls made to it, oldest first: every call that the
sink answers is appended to the record. -/
def Streambuf.logged {σ : Type} (S : Streambuf σ) : Streambuf (σ × List SinkCall) :=
  { prepare := fun k size =>
      match S.prepare k.1 size with
      | none => none
      | some (buffers, sb) => some (buffers, (sb, k.2 ++ [SinkCall.prepare size]))
    commit := fun k n =>
      match S.commit k.1 n with
      | none => none
      | some sb => some (sb, k.2 ++ [SinkCall.commit n]) }

/-- A sink whose `prepare (size)` always returns regions of total capacity at least `size`. -/
def Streambuf.Growable {σ : Type} (S : Streambuf σ) : Prop :=
  ∀ sb size, ∃ buffers sb',
    S.prepare sb size = some (buffers, sb') ∧ size ≤ Sink.capacity buffers

/-- An example of a sink that never faults: its state is the first free address,
`prepare (size)` returns the one region of `size` bytes there, and `commit` accepts every
amount. -/
def Streambuf.bump : Streambuf Nat :=
  { prepare := fun brk size => some ([⟨brk, size⟩], brk + size)
    commit := fun brk _ => some brk }

namespace ZeroCopyOutputStream

/-- The part of a chunk that is kept: its size less the amount backed up for it.  A chunk is
recorded as the pair of the size `Next` reported for it and of the amount backed up. -/
def kept (c : Int × Nat) : Nat := c.1.toNat - c.2

/-- The record of chunks after `BackUp (k)`: the amount is added to the most recent chunk, which
comes first in the record. -/
def backedUp (k : Nat) : List (Int × Nat) → List (Int × Nat)
  | [] => []
  | c :: cs => (c.1, c.2 + k) :: cs

/-- The writer states reachable from construction, over the sink `S` in state `streambuf` with a
record of calls that starts empty, by `Next` and by `BackUp (k)` with `0 ≤ k ≤` the pending
amount, all calls returning; beside each state the record of the chunks handed out so far, most
recent first, each as the size `Next` reported for it with the amount backed up for it. -/
inductive Trace {σ : Type} (S : Streambuf σ) (streambuf : σ) (blockSize : Nat) :
    ZeroCopyOutputStream (σ × List SinkCall) → List (Int × Nat) → Prop
  | new {w : ZeroCopyOutputStream (σ × List SinkCall)} :
      new S.logged (streambuf, []) blockSize = some w → Trace S streambuf blockSize w []
  | next {w w' : ZeroCopyOutputStream (σ × List SinkCall)} {chunks : List (Int × Nat)}
      {ok : Bool} {r : chunk} :
      Trace S streambuf blockSize w chunks → Next S.logged w = some (ok, r, w') →
      Trace S streambuf blockSize w' ((r.size, 0) :: chunks)
  | backUp {w w' : ZeroCopyOutputStream (σ × List SinkCall)} {chunks : List (Int × Nat)}
      (k : Nat) :
      Trace S streambuf blockSize w chunks → k ≤ w.commit_ →
      BackUp S.logged w k = some w' → Trace S streambuf blockSize w' (backedUp k chunks)

end ZeroCopyOutputStream

namespace ZeroCopyOutputStream

/-- The part of the invariant of the reachable writer states that holds whatever sizes `Next`
reported: a nonzero pending amount is the size reported for the most recent chunk, stored in a
`std::size_t`, and nothing was backed up for that chunk; `blockSize_` is the configured block
size and every `prepare` asked for it; the cursor points into the batch. -/
structure Frame {σ : Type} (blockSize : Nat) (w : ZeroCopyOutputStream (σ × List SinkCall))
    (chunks : List (Int × Nat)) : Prop where
  pending : w.commit_ = 0 ∨ ∃ n cs, chunks = (n, 0) :: cs ∧ w.commit_ = to_size_t n
  block : w.blockSize_ = blockSize
  prepares : ∀ n, SinkCall.prepare n ∈ w.streambuf_.2 → n = blockSize
  cursor : w.pos_.sequence = w.buffers_

/-- The invariant of the reachable writer states in which no chunk was reported with a negative
size, with the record `chunks` of the chunks handed out: the nonzero amounts committed so far,
followed by the pending amount when it is not zero, are the nonzero kept parts of the chunks in
the order of their handing out; a nonzero pending amount is the size of the most recent chunk,
for which nothing was backed up; no more is backed up for a chunk than its size; the pending
amount is below `2^31`; `count_` is the number of bytes passed to `commit`; `blockSize_` is the
configured block size and every `prepare` asked for it; the cursor points into the batch. -/
structure Inv {σ : Type} (blockSize : Nat) (w : ZeroCopyOutputStream (σ × List SinkCall))
    (chunks : List (Int × Nat)) : Prop where
  commits : nonzero (commitAmounts w.streambuf_.2) ++ nonzero [w.commit_] =
    nonzero (chunks.reverse.map kept)
  pending : w.commit_ = 0 ∨ ∃ cs, chunks = ((w.commit_ : Int), 0) :: cs
  bounded : ∀ c ∈ chunks, (c.2 : Int) ≤ c.1
  small : w.commit_ < 2147483648
  count : w.count_ = committedBytes w.streambuf_.2
  block : w.blockSize_ = blockSize
  prepares : ∀ n, SinkCall.prepare n ∈ w.streambuf_.2 → n = blockSize
  cursor : w.pos_.sequence = w.buffers_

end ZeroCopyOutputStream

/-! ## Example states of a writer -/

namespace ZeroCopyOutputStream

/-- An example: the writer with block size 4 over the sink `Streambuf.bump` with first free
address 1 and an empty record of calls, directly after its construction. -/
def bump0 : ZeroCopyOutputStream (Nat × List SinkCall) :=
  { streambuf_ := (5, [SinkCall.prepare 4])
    blockSize_ := 4
    count_ := 0
    commit_ := 0
    buffers_ := [⟨1, 4⟩]
    pos_ := ⟨[], [⟨1, 4⟩]⟩ }

/-- An example: the writer `bump0` after its first `Next`, which hands out the region
`(1, 4)`. -/
def bump1 : ZeroCopyOutputStream (Nat × List SinkCall) :=
  { streambuf_ := (5, [SinkCall.prepare 4])
    blockSize_ := 4
    count_ := 0
    commit_ := 4
    buffers_ := [⟨1, 4⟩]
    pos_ := ⟨[⟨1, 4⟩], []⟩ }

/-- An example: the writer `bump1` after its second `Next`, which hands out the region
`(5, 4)`. -/
def bump2 : ZeroCopyOutputStream (Nat × List SinkCall) :=
  { streambuf_ := (9, [SinkCall.prepare 4, SinkCall.commit 4, SinkCall.prepare 4])
    blockSize_ := 4
    count_ := 4
    commit_ := 4
    buffers_ := [⟨5, 4⟩]
    pos_ := ⟨[⟨5, 4⟩], []⟩ }

end ZeroCopyOutputStream

namespace ZeroCopyOutputStream

end ZeroCopyOutputStream

/-! ## Theorems -/

section buffers

@[simp] theorem totalSize_nil : totalSize [] = 0 := rfl

@[simp] theorem totalSize_cons (b : const_buffer) (bs : List const_buffer) :
    totalSize (b :: bs) = b.size + totalSize bs := by
  simp [totalSize]

@[simp] theorem totalSize_append (as bs : List const_buffer) :
    totalSize (as ++ bs) = totalSize as + totalSize bs := by
  simp [totalSize]

@[simp] theorem bytesOfAll_nil (mem : Memory) : bytesOfAll mem [] = [] := rfl

@[simp] theorem bytesOfAll_cons (mem : Memory) (b : const_buffer) (bs : List const_buffer) :
    bytesOfAll mem (b :: bs) = bytesOf mem b ++ bytesOfAll mem bs := by
  simp [bytesOfAll]

@[simp] theorem bytesOfAll_append (mem : Memory) (as bs : List const_buffer) :
    bytesOfAll mem (as ++ bs) = bytesOfAll mem as ++ bytesOfAll mem bs := by
  simp [bytesOfAll]

@[simp] theorem length_bytesOf (mem : Memory) (b : const_buffer) :
    (bytesOf mem b).length = b.size := by
  simp [bytesOf]

@[simp] theorem length_bytesOfAll (mem : Memory) (bs : List const_buffer) :
    (bytesOfAll mem bs).length = totalSize bs := by
  induction bs with
  | nil => rfl
  | cons b bs ih => simp [ih]

theorem bytesOf_tail (mem : Memory) (d size off : Nat) :
    bytesOf mem ⟨d + off, size - off⟩ = (bytesOf mem ⟨d, size⟩).drop off := by
  apply List.ext_getElem
  · simp
  · intro i h1 h2
    simp [bytesOf, Nat.add_assoc]

theorem bytesOf_plus (mem : Memory) (b : const_buffer) (n : Nat) :
    bytesOf mem (b.plus n) = (bytesOf mem b).drop n := by
  unfold const_buffer.plus
  by_cases h : n < b.size
  · simp only [h, if_true]
    exact bytesOf_tail mem b.data b.size n
  · simp only [h, if_false]
    rw [bytesOf_tail mem b.data b.size b.size]
    rw [List.drop_of_length_le (by simp), List.drop_of_length_le (by simp; omega)]

theorem size_plus (b : const_buffer) (n : Nat) : (b.plus n).size = b.size - n := by
  unfold const_buffer.plus
  by_cases h : n < b.size
  · simp [h]
  · simp [h]; omega

end buffers

namespace ZeroCopyInputStream

theorem Skip_loop_done (before rest : List const_buffer) (cur : const_buffer) (c : Int)
    (pos : const_buffer) (count : Int) (h : ¬ 0 < count) :
    Skip.loop before rest cur c pos count = (true, ⟨c, ⟨before, cur :: rest⟩, pos⟩) := by
  rw [Skip.loop, if_neg h]

theorem Skip_loop_within (before rest : List const_buffer) (cur : const_buffer) (c : Int)
    (pos : const_buffer) (count : Int) (h0 : 0 < count) (h1 : count < pos.size) :
    Skip.loop before rest cur c pos count =
      (true, ⟨c + count, ⟨before, cur :: rest⟩, pos.plus count.toNat⟩) := by
  rw [Skip.loop, if_pos h0]
  simp only [buffer_size, if_pos h1]

theorem Skip_loop_end (before : List const_buffer) (cur : const_buffer) (c : Int)
    (pos : const_buffer) (count : Int) (h0 : 0 < count) (h1 : ¬ count < pos.size) :
    Skip.loop before [] cur c pos count =
      (false, ⟨c + pos.size, ⟨cur :: before, []⟩, pos⟩) := by
  rw [Skip.loop, if_pos h0]
  simp only [buffer_size, if_neg h1]

theorem Skip_loop_step (before rest : List const_buffer) (cur nxt : const_buffer) (c : Int)
    (pos : const_buffer) (count : Int) (h0 : 0 < count) (h1 : ¬ count < pos.size) :
    Skip.loop before (nxt :: rest) cur c pos count =
      Skip.loop (cur :: before) rest nxt (c + pos.size) nxt (count - pos.size) := by
  rw [Skip.loop, if_pos h0]
  simp only [buffer_size, if_neg h1]

/-- Induction along the iterations of the loop of `Skip`, for a count that is not negative. -/
theorem Skip_loop_induct
    (P : List const_buffer → List const_buffer → const_buffer → Int → const_buffer → Nat →
      Bool × ZeroCopyInputStream → Prop)
    (done : ∀ before rest cur c pos,
      P before rest cur c pos 0 (true, ⟨c, ⟨before, cur :: rest⟩, pos⟩))
    (within : ∀ before rest cur c pos n, 0 < n → n < pos.size →
      P before rest cur c pos n (true, ⟨c + n, ⟨before, cur :: rest⟩, pos.plus n⟩))
    (atEnd : ∀ before cur c pos n, 0 < n → pos.size ≤ n →
      P before [] cur c pos n (false, ⟨c + pos.size, ⟨cur :: before, []⟩, pos⟩))
    (step : ∀ before nxt rest cur c pos n r, 0 < n → pos.size ≤ n →
      P (cur :: before) rest nxt (c + pos.size) nxt (n - pos.size) r →
      P before (nxt :: rest) cur c pos n r) :
    ∀ rest before cur c pos (n : Nat),
      P before rest cur c pos n (Skip.loop before rest cur c pos n) := by
  intro rest
  induction rest with
  | nil =>
    intro before cur c pos n
    by_cases h0 : 0 < n
    · by_cases h1 : n < pos.size
      · rw [Skip_loop_within _ _ _ _ _ _ (by exact_mod_cast h0) (by exact_mod_cast h1)]
        simpa using within before [] cur c pos n h0 h1
      · rw [Skip_loop_end _ _ _ _ _ (by exact_mod_cast h0) (by exact_mod_cast h1)]
        exact atEnd before cur c pos n h0 (Nat.le_of_not_lt h1)
    · have hn : n = 0 := by omega
      subst hn
      rw [Skip_loop_done _ _ _ _ _ _ (by simp)]
      exact done before [] cur c pos
  | cons nxt rest ih =>
    intro before cur c pos n
    by_cases h0 : 0 < n
    · by_cases h1 : n < pos.size
      · rw [Skip_loop_within _ _ _ _ _ _ (by exact_mod_cast h0) (by exact_mod_cast h1)]
        simpa using within before (nxt :: rest) cur c pos n h0 h1
      · rw [Skip_loop_step _ _ _ _ _ _ _ (by exact_mod_cast h0) (by exact_mod_cast h1)]
        have hle : pos.size ≤ n := Nat.le_of_not_lt h1
        rw [← Nat.cast_sub hle]
        exact step before nxt rest cur c pos n _ h0 hle (ih (cur :: before) nxt (c + pos.size) nxt (n - pos.size))
    · have hn : n = 0 := by omega
      subst hn
      rw [Skip_loop_done _ _ _ _ _ _ (by simp)]
      exact done before (nxt :: rest) cur c pos

theorem Skip_loop_count (rest before : List const_buffer) (cur : const_buffer) (c : Int)
    (pos : const_buffer) (n : Nat) :
    (Skip.loop before rest cur c pos n).2.count_ = c + min n (pos.size + totalSize rest) := by
  refine Skip_loop_induct
    (fun _ rest _ c pos n r => r.2.count_ = c + ((min n (pos.size + totalSize rest) : Nat) : Int))
    ?_ ?_ ?_ ?_ rest before cur c pos n
  · intros; simp
  · intro _ rest _ c pos n h0 h1
    have : min n (pos.size + totalSize rest) = n := by omega
    simp [this]
  · intro _ _ c pos n h0 h1
    have : min n (pos.size + totalSize []) = pos.size := by simp; omega
    simp only [this]
  · intro _ nxt rest _ c pos n r h0 h1 ih
    rw [ih]
    have : min n (pos.size + totalSize (nxt :: rest)) =
        pos.size + min (n - pos.size) (nxt.size + totalSize rest) := by
      simp; omega
    rw [this]; push_cast; ring

end ZeroCopyInputStream

section buffers

theorem totalSize_reverse (bs : List const_buffer) : totalSize bs.reverse = totalSize bs := by
  simp [totalSize, List.sum_reverse]

theorem size_eq_zero_of_totalSize (bs : List const_buffer) (h : totalSize bs = 0)
    (b : const_buffer) (hb : b ∈ bs) : b.size = 0 := by
  induction bs with
  | nil => cases hb
  | cons a as ih =>
    rw [totalSize_cons] at h
    rcases List.mem_cons.mp hb with rfl | hmem
    · omega
    · exact ih (by omega) hmem

end buffers

namespace ZeroCopyInputStream

theorem unread_eq_length (mem : Memory) (s : ZeroCopyInputStream) :
    unread s = (unreadBytes mem s).length := by
  simp [unread, unreadBytes]

theorem Skip_loop_unreadBytes (mem : Memory) (rest before : List const_buffer)
    (cur : const_buffer) (c : Int) (pos : const_buffer) (n : Nat) :
    unreadBytes mem (Skip.loop before rest cur c pos n).2 =
      (bytesOf mem pos ++ bytesOfAll mem rest).drop n := by
  refine Skip_loop_induct
    (fun _ rest _ _ pos n r =>
      unreadBytes mem r.2 = (bytesOf mem pos ++ bytesOfAll mem rest).drop n)
    ?_ ?_ ?_ ?_ rest before cur c pos n
  · intros; simp [unreadBytes, unreadBuffers]
  · intro _ rest _ c pos n _ h1
    simp only [unreadBytes, unreadBuffers, bytesOfAll_cons, bytesOf_plus]
    rw [List.drop_append_of_le_length (by simp; omega)]
  · intro _ _ c pos n _ h1
    simp only [unreadBytes, unreadBuffers, bytesOfAll_nil, List.append_nil]
    rw [List.drop_of_length_le (by simpa using h1)]
  · intro _ nxt rest _ c pos n r _ h1 ih
    rw [ih, bytesOfAll_cons]
    have hn : n = (bytesOf mem pos).length + (n - pos.size) := by simp; omega
    conv_rhs => rw [hn, List.drop_append]

theorem Skip_loop_atEnd (rest before : List const_buffer) (cur : const_buffer) (c : Int)
    (pos : const_buffer) (n : Nat) :
    (Skip.loop before rest cur c pos n).1 = false ↔
      (Skip.loop before rest cur c pos n).2.first_.ahead = [] := by
  refine Skip_loop_induct (fun _ _ _ _ _ _ r => r.1 = false ↔ r.2.first_.ahead = [])
    ?_ ?_ ?_ ?_ rest before cur c pos n
  · intros; simp
  · intros; simp
  · intros; simp
  · intro _ _ _ _ _ _ _ _ _ _ ih; exact ih

theorem Skip_loop_flag (rest before : List const_buffer) (cur : const_buffer) (c : Int)
    (pos : const_buffer) (n : Nat) :
    (Skip.loop before rest cur c pos n).1 = true ↔
      (n < pos.size + totalSize rest ∨
        (n = pos.size + totalSize rest ∧
          ((pos :: rest).getLast (List.cons_ne_nil _ _)).size = 0)) := by
  refine Skip_loop_induct
    (fun _ rest _ _ pos n r => r.1 = true ↔
      (n < pos.size + totalSize rest ∨
        (n = pos.size + totalSize rest ∧
          ((pos :: rest).getLast (List.cons_ne_nil _ _)).size = 0)))
    ?_ ?_ ?_ ?_ rest before cur c pos n
  · intro _ rest _ _ pos
    simp only [true_iff]
    by_cases h : 0 < pos.size + totalSize rest
    · exact Or.inl h
    · refine Or.inr ⟨by omega, ?_⟩
      apply size_eq_zero_of_totalSize (pos :: rest) (by simp; omega)
      exact List.getLast_mem _
  · intro _ rest _ _ pos n _ h1
    simp only [true_iff]
    exact Or.inl (by omega)
  · intro _ _ _ pos n h0 h1
    simp only [Bool.false_eq_true, false_iff, totalSize_nil, List.getLast_singleton]
    omega
  · intro _ nxt rest _ _ pos n r _ h1 ih
    rw [ih, List.getLast_cons_cons, totalSize_cons]
    constructor
    · rintro (h | ⟨h, hl⟩)
      · exact Or.inl (by omega)
      · exact Or.inr ⟨by omega, hl⟩
    · rintro (h | ⟨h, hl⟩)
      · exact Or.inl (by omega)
      · exact Or.inr ⟨by omega, hl⟩

theorem Skip_loop_sequence (rest before : List const_buffer) (cur : const_buffer) (c : Int)
    (pos : const_buffer) (n : Nat) :
    (Skip.loop before rest cur c pos n).2.first_.sequence = before.reverse ++ cur :: rest := by
  refine Skip_loop_induct
    (fun before rest cur _ _ _ r => r.2.first_.sequence = before.reverse ++ cur :: rest)
    ?_ ?_ ?_ ?_ rest before cur c pos n
  · intros; rfl
  · intros; rfl
  · intros; simp [iterator.sequence]
  · intro _ _ _ _ _ _ _ r _ _ ih
    rw [ih]; simp

theorem Skip_loop_pos (rest before : List const_buffer) (cur : const_buffer) (c : Int)
    (pos : const_buffer) (n : Nat)
    (hpos : ∃ off, off ≤ cur.size ∧ pos = ⟨cur.data + off, cur.size - off⟩) :
    ∀ b rest', (Skip.loop before rest cur c pos n).2.first_.ahead = b :: rest' →
      ∃ off, off ≤ b.size ∧
        (Skip.loop before rest cur c pos n).2.pos_ = ⟨b.data + off, b.size - off⟩ := by
  revert hpos
  refine Skip_loop_induct
    (fun _ _ cur _ pos _ r =>
      (∃ off, off ≤ cur.size ∧ pos = ⟨cur.data + off, cur.size - off⟩) →
      ∀ b rest', r.2.first_.ahead = b :: rest' →
        ∃ off, off ≤ b.size ∧ r.2.pos_ = ⟨b.data + off, b.size - off⟩)
    ?_ ?_ ?_ ?_ rest before cur c pos n
  · intro _ _ _ _ _ hpos b rest' hb
    simp only [List.cons.injEq] at hb
    rw [← hb.1]; exact hpos
  · intro _ _ cur _ pos n _ h1 hpos b rest' hb
    simp only [List.cons.injEq] at hb
    rw [← hb.1]
    obtain ⟨off, hoff, rfl⟩ := hpos
    simp only at h1
    refine ⟨off + n, by omega, ?_⟩
    simp only [const_buffer.plus, if_pos h1, const_buffer.mk.injEq]
    omega
  · intro _ _ _ _ _ _ _ _ b rest' hb
    simp at hb
  · intro _ nxt _ _ _ _ _ r _ _ ih _
    exact ih ⟨0, Nat.zero_le _, by simp⟩

end ZeroCopyInputStream

section conversions

theorem to_int_of_lt (n : Nat) (h : n < 2147483648) : to_int n = n := by
  unfold to_int; split <;> omega

theorem to_int_le (n : Nat) : to_int n ≤ n := by
  unfold to_int; split <;> omega

theorem to_int_lt (n : Nat) : to_int n < 2147483648 := by
  unfold to_int; split <;> omega

theorem to_size_t_of_nonneg (z : Int) (h : 0 ≤ z) : to_size_t z = z.toNat := by
  simp [to_size_t, h]

theorem to_size_t_sub (a k : Nat) (h : k ≤ a) : to_size_t ((a : Int) - k) = a - k := by
  unfold to_size_t
  rw [if_pos (by omega)]
  omega

theorem to_int64_of_lt (n : Nat) (h : n < 2147483648) : to_int64 n = n := by
  unfold to_int64
  rw [if_pos (by omega)]

end conversions

namespace ZeroCopyInputStream

theorem report_of_lt (b : const_buffer) (h : b.size < 2147483648) : report b = whole b := by
  simp [report, whole, buffer_cast, buffer_size, to_int_of_lt b.size h]

theorem chunkBytes_whole (mem : Memory) (b : const_buffer) :
    chunkBytes mem (whole b) = bytesOf mem b := by
  simp [chunkBytes, whole, bytesOf]

theorem chunksBytes_whole (mem : Memory) (bs : List const_buffer) :
    chunksBytes mem (bs.map whole) = bytesOfAll mem bs := by
  induction bs with
  | nil => rfl
  | cons b bs ih =>
    simp only [chunksBytes, List.map_cons, List.flatten_cons, bytesOfAll] at ih ⊢
    rw [ih, chunkBytes_whole]

theorem map_report_of_lt (bs : List const_buffer) (h : ∀ b ∈ bs, b.size < 2147483648) :
    bs.map report = bs.map whole :=
  List.map_congr_left (fun b hb => report_of_lt b (h b hb))

theorem sum_to_int_of_lt (bs : List const_buffer) (h : ∀ b ∈ bs, b.size < 2147483648) :
    (bs.map (fun b => to_int b.size)).sum = totalSize bs := by
  induction bs with
  | nil => simp
  | cons b bs ih =>
    have h1 := ih (fun c hc => h c (List.mem_cons_of_mem _ hc))
    have h2 := to_int_of_lt b.size (h b (List.mem_cons_self _ _))
    simp only [List.map_cons, List.sum_cons, totalSize_cons, h1, h2, Nat.cast_add]

theorem offset_add_unread (buffers : List const_buffer) (s : ZeroCopyInputStream)
    (hseq : s.first_.sequence = buffers)
    (hpos : ∀ b rest, s.first_.ahead = b :: rest →
      ∃ off, off ≤ b.size ∧ s.pos_ = ⟨b.data + off, b.size - off⟩) :
    offset s + unread s = totalSize buffers := by
  rw [← hseq]
  unfold offset unread unreadBuffers iterator.sequence
  cases hah : s.first_.ahead with
  | nil => simp [totalSize_reverse]
  | cons b rest =>
    obtain ⟨off, hoff, hp⟩ := hpos b rest hah
    simp only [hp, totalSize_append, totalSize_reverse, totalSize_cons]
    omega

theorem Valid.to_shape {buffers : List const_buffer} {s : ZeroCopyInputStream}
    (h : Valid buffers s) : Shape buffers s :=
  ⟨h.seq, h.pos⟩

theorem Valid.total {buffers : List const_buffer} {s : ZeroCopyInputStream}
    (h : Valid buffers s) : s.count_ + unread s = totalSize buffers := by
  rw [h.count, ← offset_add_unread buffers s h.seq h.pos]
  push_cast; rfl

theorem Valid.of_total {buffers : List const_buffer} {s : ZeroCopyInputStream}
    (hshape : Shape buffers s)
    (hcount : s.count_ + unread s = totalSize buffers) : Valid buffers s := by
  refine ⟨hshape.seq, hshape.pos, ?_⟩
  have := offset_add_unread buffers s hshape.seq hshape.pos
  omega

theorem Shape_new (buffers : List const_buffer) : Shape buffers (new buffers) := by
  constructor
  · simp [new, iterator.begin, iterator.sequence]
  · intro b rest h
    refine ⟨0, Nat.zero_le _, ?_⟩
    simp only [new, iterator.begin] at h
    simp [new, regionAt, iterator.begin, h]

theorem Valid_new (buffers : List const_buffer) : Valid buffers (new buffers) := by
  apply Valid.of_total (Shape_new buffers)
  cases buffers <;> simp [new, regionAt, iterator.begin, unread, unreadBuffers]

theorem Next_nil (s : ZeroCopyInputStream) (h : s.first_.ahead = []) :
    Next s = (false, report s.pos_, s) := by
  simp [Next, h, report]

theorem Next_cons (s : ZeroCopyInputStream) (b : const_buffer) (rest : List const_buffer)
    (h : s.first_.ahead = b :: rest) :
    Next s = (true, report s.pos_,
      { count_ := s.count_ + to_int s.pos_.size
        first_ := ⟨b :: s.first_.before, rest⟩
        pos_ := regionAt ⟨b :: s.first_.before, rest⟩ }) := by
  simp [Next, h, report, buffer_size]

theorem Next_flag (s : ZeroCopyInputStream) :
    (Next s).1 = false ↔ s.first_.ahead = [] := by
  cases hah : s.first_.ahead with
  | nil => simp [Next_nil s hah]
  | cons b rest => simp [Next_cons s b rest hah]

theorem Next_report (s : ZeroCopyInputStream) : (Next s).2.1 = report s.pos_ := by
  cases hah : s.first_.ahead with
  | nil => simp [Next_nil s hah]
  | cons b rest => simp [Next_cons s b rest hah]

theorem unread_Next (s : ZeroCopyInputStream) :
    unreadBuffers s =
      (if (Next s).1 then [s.pos_] else []) ++ unreadBuffers (Next s).2.2 := by
  cases hah : s.first_.ahead with
  | nil => simp [Next_nil s hah, unreadBuffers, hah]
  | cons b rest =>
    rw [Next_cons s b rest hah]
    cases rest <;> simp [unreadBuffers, regionAt, hah]

theorem Shape_Next {buffers : List const_buffer} {s : ZeroCopyInputStream}
    (h : Shape buffers s) : Shape buffers (Next s).2.2 := by
  cases hah : s.first_.ahead with
  | nil =>
    rw [Next_nil s hah]
    exact h
  | cons b rest =>
    rw [Next_cons s b rest hah]
    constructor
    · rw [← h.seq]; simp [iterator.sequence, hah]
    · intro c rest' hc
      refine ⟨0, Nat.zero_le _, ?_⟩
      simp only at hc
      simp [regionAt, hc]

theorem Shape.fits {buffers : List const_buffer} {s : ZeroCopyInputStream}
    (h : Shape buffers s) (hfit : ∀ b ∈ buffers, b.size < 2147483648) :
    ∀ b ∈ unreadBuffers s, b.size < 2147483648 := by
  intro c hc
  have hseq := h.seq
  unfold unreadBuffers at hc
  cases hah : s.first_.ahead with
  | nil => simp [hah] at hc
  | cons b rest =>
    simp only [hah, List.mem_cons] at hc
    simp only [iterator.sequence, hah] at hseq
    rcases hc with rfl | hc
    · obtain ⟨off, _, hp⟩ := h.pos b rest hah
      have := hfit b (by rw [← hseq]; simp)
      rw [hp]
      simp only
      omega
    · exact hfit c (by rw [← hseq]; simp [hc])

theorem Valid_Next {buffers : List const_buffer} {s : ZeroCopyInputStream}
    (hfit : ∀ b ∈ buffers, b.size < 2147483648)
    (h : Valid buffers s) : Valid buffers (Next s).2.2 := by
  have htot := h.total
  have hshape := Shape_Next h.to_shape
  have hfits := h.to_shape.fits hfit
  rw [unread, unread_Next] at htot
  rw [unread_Next] at hfits
  cases hah : s.first_.ahead with
  | nil =>
    rw [Next_nil s hah]
    exact h
  | cons b rest =>
    rw [Next_cons s b rest hah] at htot hshape hfits ⊢
    apply Valid.of_total hshape
    simp only [if_true, totalSize_append, totalSize_cons, totalSize_nil] at htot
    have hp : s.pos_.size < 2147483648 := hfits s.pos_ (by simp)
    simp only [unread, unreadBuffers] at htot ⊢
    rw [to_int_of_lt _ hp]
    push_cast at htot ⊢
    omega

theorem Skip_unreadBytes (mem : Memory) (s : ZeroCopyInputStream) (n : Nat) :
    unreadBytes mem (Skip s n).2 = (unreadBytes mem s).drop n := by
  unfold Skip
  cases hah : s.first_.ahead with
  | nil => simp [unreadBytes, unreadBuffers, hah]
  | cons cur rest =>
    simp only
    rw [Skip_loop_unreadBytes]
    simp [unreadBytes, unreadBuffers, hah]

theorem Skip_unread (s : ZeroCopyInputStream) (n : Nat) :
    unread (Skip s n).2 = unread s - n := by
  rw [unread_eq_length (fun _ => 0), unread_eq_length (fun _ => 0), Skip_unreadBytes]
  simp

theorem Skip_count (s : ZeroCopyInputStream) (n : Nat) :
    (Skip s n).2.count_ = s.count_ + min n (unread s) := by
  unfold Skip
  cases hah : s.first_.ahead with
  | nil => simp [unread, unreadBuffers, hah]
  | cons cur rest =>
    simp only
    rw [Skip_loop_count]
    simp [unread, unreadBuffers, hah]

theorem Skip_atEnd (s : ZeroCopyInputStream) (n : Nat) :
    (Skip s n).1 = false ↔ (Skip s n).2.first_.ahead = [] := by
  unfold Skip
  cases hah : s.first_.ahead with
  | nil => simp [hah]
  | cons cur rest => exact Skip_loop_atEnd _ _ _ _ _ _

theorem Shape_Skip {buffers : List const_buffer} {s : ZeroCopyInputStream}
    (h : Shape buffers s) (n : Nat) : Shape buffers (Skip s n).2 := by
  constructor
  · unfold Skip
    cases hah : s.first_.ahead with
    | nil => exact h.seq
    | cons cur rest =>
      simp only
      rw [Skip_loop_sequence, ← h.seq]
      simp [iterator.sequence, hah]
  · unfold Skip
    cases hah : s.first_.ahead with
    | nil => exact fun b rest hb => absurd (hah.symm.trans hb) (by simp)
    | cons cur rest =>
      simp only
      exact Skip_loop_pos _ _ _ _ _ _ (h.pos cur rest hah)

theorem Valid_Skip {buffers : List const_buffer} {s : ZeroCopyInputStream}
    (h : Valid buffers s) (n : Nat) : Valid buffers (Skip s n).2 := by
  have htot := h.total
  have hcount := Skip_count s n
  have hunread := Skip_unread s n
  apply Valid.of_total (Shape_Skip h.to_shape n)
  rw [hcount, hunread]
  push_cast
  omega

theorem Skip_loop_fits (bound : Nat) (rest before : List const_buffer) (cur : const_buffer)
    (c : Int) (pos : const_buffer) (n : Nat) (hfit : ∀ b ∈ pos :: rest, b.size < bound) :
    ∀ b ∈ unreadBuffers (Skip.loop before rest cur c pos n).2, b.size < bound := by
  revert hfit
  refine Skip_loop_induct
    (fun _ rest _ _ pos _ r =>
      (∀ b ∈ pos :: rest, b.size < bound) → ∀ b ∈ unreadBuffers r.2, b.size < bound)
    ?_ ?_ ?_ ?_ rest before cur c pos n
  · intro _ _ _ _ _ hfit b hb
    exact hfit b (by simpa [unreadBuffers] using hb)
  · intro _ rest _ _ pos n _ _ hfit b hb
    simp only [unreadBuffers, List.mem_cons] at hb
    rcases hb with rfl | hb
    · have := hfit pos (List.mem_cons_self _ _)
      rw [size_plus]; omega
    · exact hfit b (List.mem_cons_of_mem _ hb)
  · intro _ _ _ _ _ _ _ _ b hb
    simp [unreadBuffers] at hb
  · intro _ nxt rest _ _ pos _ r _ _ ih hfit
    exact ih (fun b hb => hfit b (List.mem_cons_of_mem _ hb))

theorem Skip_fits (bound : Nat) (s : ZeroCopyInputStream) (n : Nat)
    (hfit : ∀ b ∈ unreadBuffers s, b.size < bound) :
    ∀ b ∈ unreadBuffers (Skip s n).2, b.size < bound := by
  unfold Skip
  cases hah : s.first_.ahead with
  | nil => simpa [hah] using hfit
  | cons cur rest =>
    simp only
    apply Skip_loop_fits
    simpa [unreadBuffers, hah] using hfit

theorem BackUp_after_Next {buffers : List const_buffer} {s : ZeroCopyInputStream}
    (h : Shape buffers s) (k : Nat) (hnext : (Next s).1 = true)
    (hk : (k : Int) ≤ (Next s).2.1.size) :
    ∃ t, BackUp (Next s).2.2 k = some t ∧ Shape buffers t ∧
      t.count_ = (Next s).2.2.count_ - k ∧
      unread t = unread (Next s).2.2 + k ∧
      Next t = (true, ⟨s.pos_.data + (s.pos_.size - k), k⟩, (Next s).2.2) := by
  have hseq := h.seq
  have hpos := h.pos
  cases hah : s.first_.ahead with
  | nil => simp [Next_nil s hah] at hnext
  | cons b rest =>
    obtain ⟨off, hoff, hp⟩ := hpos b rest hah
    rw [Next_cons s b rest hah] at hk ⊢
    simp only [report, buffer_size, hp] at hk ⊢
    have hle := to_int_le (b.size - off)
    have hlt := to_int_lt (b.size - off)
    have hkb : k ≤ b.size - off := by omega
    have hplus : b.plus (b.size - k) = ⟨b.data + (b.size - k), k⟩ := by
      unfold const_buffer.plus
      by_cases hk0 : b.size - k < b.size
      · simp only [if_pos hk0, const_buffer.mk.injEq, true_and]; omega
      · simp only [if_neg hk0, const_buffer.mk.injEq]; omega
    have hback : BackUp
        { count_ := s.count_ + to_int (b.size - off)
          first_ := ⟨b :: s.first_.before, rest⟩
          pos_ := regionAt ⟨b :: s.first_.before, rest⟩ } k =
        some { count_ := s.count_ + to_int (b.size - off) - k
               first_ := ⟨s.first_.before, b :: rest⟩
               pos_ := ⟨b.data + (b.size - k), k⟩ } := by
      simp only [BackUp, buffer_size, to_size_t_sub b.size k (by omega), hplus]
    refine ⟨_, hback, ?_, rfl, ?_, ?_⟩
    · constructor
      · rw [← hseq]; simp [iterator.sequence, hah]
      · intro c rest' hc
        simp only [List.cons.injEq] at hc
        rw [← hc.1]
        refine ⟨b.size - k, Nat.sub_le _ _, ?_⟩
        simp only [const_buffer.mk.injEq, true_and]
        omega
    · cases rest <;> simp [unread, unreadBuffers, regionAt]
      omega
    · rw [Next_cons _ b rest rfl]
      simp only [report, buffer_cast, buffer_size, Prod.mk.injEq, chunk.mk.injEq, true_and,
        ZeroCopyInputStream.mk.injEq, and_true, to_int_of_lt k (by omega)]
      refine ⟨by omega, by omega⟩

theorem Reachable.shape {buffers : List const_buffer} {s : ZeroCopyInputStream}
    (h : Reachable buffers s) : Shape buffers s := by
  induction h with
  | new => exact Shape_new buffers
  | next _ ih => exact Shape_Next ih
  | skip n _ ih => exact Shape_Skip ih n
  | backUp k _ hnext hk hb ih =>
    obtain ⟨t, ht, hv, _⟩ := BackUp_after_Next ih k hnext hk
    rw [hb] at ht
    cases ht
    exact hv

theorem Reachable.valid {buffers : List const_buffer} {s : ZeroCopyInputStream}
    (hfit : ∀ b ∈ buffers, b.size < 2147483648)
    (h : Reachable buffers s) : Valid buffers s := by
  induction h with
  | new => exact Valid_new buffers
  | next _ ih => exact Valid_Next hfit ih
  | skip n _ ih => exact Valid_Skip ih n
  | backUp k _ hnext hk hb ih =>
    obtain ⟨t, ht, hv, hc, hu, _⟩ := BackUp_after_Next ih.to_shape k hnext hk
    rw [hb] at ht
    cases ht
    apply Valid.of_total hv
    have := (Valid_Next hfit ih).total
    rw [hc, hu]
    push_cast
    omega

theorem drain_unread (extra : Nat) :
    ∀ (ahead : List const_buffer) (s : ZeroCopyInputStream), s.first_.ahead = ahead →
      ∃ t, drain (ahead.length + 1 + extra) s = some ((unreadBuffers s).map report, t) ∧
        t.first_.ahead = [] ∧
        t.count_ = s.count_ + ((unreadBuffers s).map (fun b => to_int b.size)).sum := by
  intro ahead
  induction ahead with
  | nil =>
    intro s hah
    refine ⟨s, ?_, hah, ?_⟩
    · rw [show ([] : List const_buffer).length + 1 + extra = extra + 1 by simp; omega]
      simp [drain, Next_nil s hah, unreadBuffers, hah]
    · simp [unreadBuffers, hah]
  | cons b rest ih =>
    intro s hah
    obtain ⟨t, ht, hend, hcount⟩ := ih (Next s).2.2 (by rw [Next_cons s b rest hah])
    refine ⟨t, ?_, hend, ?_⟩
    · rw [show (b :: rest).length + 1 + extra = (rest.length + 1 + extra) + 1 by simp; omega]
      rw [drain]
      have hu := unread_Next s
      rw [Next_cons s b rest hah] at ht hu ⊢
      simp only [if_true] at hu
      simp only [ht, Option.map_some', hu, List.singleton_append, List.map_cons]
    · rw [hcount]
      have hu := unread_Next s
      rw [Next_cons s b rest hah] at hu ⊢
      simp only [if_true, List.singleton_append] at hu
      rw [hu]
      simp only [List.map_cons, List.sum_cons]
      ring

theorem readAll_unread (s : ZeroCopyInputStream) :
    ∃ t, readAll s = some ((unreadBuffers s).map report, t) ∧
      t.first_.ahead = [] ∧
      t.count_ = s.count_ + ((unreadBuffers s).map (fun b => to_int b.size)).sum :=
  drain_unread 0 s.first_.ahead s rfl

theorem readAll_of_fit (s : ZeroCopyInputStream)
    (hfit : ∀ b ∈ unreadBuffers s, b.size < 2147483648) :
    ∃ t, readAll s = some ((unreadBuffers s).map whole, t) ∧
      t.first_.ahead = [] ∧ t.count_ = s.count_ + unread s := by
  obtain ⟨t, ht, hend, hcount⟩ := readAll_unread s
  refine ⟨t, ?_, hend, ?_⟩
  · rw [ht, map_report_of_lt _ hfit]
  · rw [hcount, sum_to_int_of_lt _ hfit, unread]

theorem Skip_flag (s : ZeroCopyInputStream) (n : Nat) (cur : const_buffer)
    (rest : List const_buffer) (hah : s.first_.ahead = cur :: rest) :
    (Skip s n).1 = true ↔
      (n < unread s ∨
        (n = unread s ∧ ∀ b ∈ (unreadBuffers s).getLast?, b.size = 0)) := by
  unfold Skip
  simp only [hah]
  rw [Skip_loop_flag]
  simp [unread, unreadBuffers, hah, List.getLast?_eq_getLast]

end ZeroCopyInputStream

/-! ### The claims about `ZeroCopyInputStream` -/

namespace ZeroCopyInputStream

/-- C2, counterexample: over the single region `(100, 2^31)` the first `Next` of a fresh reader
returns true and reports the size `-2^31`: the chunk handed out is not the region in full, it
carries no byte while the region has `2^31`, and `ByteCount` is `-2^31` after the call. -/
theorem reader_yields_whole_stream_counterexample :
    (Next (new [⟨100, 2147483648⟩])).1 = true ∧
    (Next (new [⟨100, 2147483648⟩])).2.1 = ⟨100, -2147483648⟩ ∧
    (Next (new [⟨100, 2147483648⟩])).2.1 ≠ whole ⟨100, 2147483648⟩ ∧
    (chunkBytes (fun _ => 0) (Next (new [⟨100, 2147483648⟩])).2.1).length = 0 ∧
    totalSize [⟨100, 2147483648⟩] = 2147483648 ∧
    (Next (new [⟨100, 2147483648⟩])).2.2.ByteCount = -2147483648 := by
  decide

/-- C2, amended: on a fresh reader over a region sequence in which every region is smaller than
`2^31` bytes, calling `Next` until it returns false hands out exactly the regions of the
sequence, in order and each in full, one per call that returned true (so the first call returns
the first region); `Next` returns false exactly when `first_` has reached the end (in every
state, whatever the sizes); the bytes of the chunks handed out are the bytes of all regions, and
the reader then stands at the end with `ByteCount` equal to the total size. -/
theorem reader_yields_whole_stream (buffers : List const_buffer) (mem : Memory)
    (hfit : ∀ b ∈ buffers, b.size < 2147483648) :
    (∀ b rest, buffers = b :: rest →
      (Next (new buffers)).1 = true ∧ (Next (new buffers)).2.1 = whole b) ∧
    (∀ s : ZeroCopyInputStream, (Next s).1 = false ↔ s.first_.atEnd = true) ∧
    ∃ chunks t, readAll (new buffers) = some (chunks, t) ∧ chunks = buffers.map whole ∧
      chunksBytes mem chunks = bytesOfAll mem buffers ∧
      t.first_.atEnd = true ∧ (Next t).1 = false ∧ t.ByteCount = totalSize buffers := by
  refine ⟨?_, ?_, ?_⟩
  · rintro b rest rfl
    rw [Next_cons (new (b :: rest)) b rest rfl]
    refine ⟨rfl, ?_⟩
    exact report_of_lt b (hfit b (List.mem_cons_self _ _))
  · intro s
    rw [Next_flag]
    simp [iterator.atEnd]
  · have hu : unreadBuffers (new buffers) = buffers := by
      cases buffers <;> simp [unreadBuffers, new, regionAt, iterator.begin]
    obtain ⟨t, ht, hend, hcount⟩ := readAll_of_fit (new buffers) (by rw [hu]; exact hfit)
    rw [hu] at ht
    refine ⟨buffers.map whole, t, ht, rfl, chunksBytes_whole mem buffers,
      by simp [iterator.atEnd, hend], ?_, ?_⟩
    · rw [Next_flag]; exact hend
    · rw [ByteCount, hcount, unread, hu]
      simp [new]

/-- Witness of C2, amended: the regions `(100, 3)` and `(200, 2)`. -/
theorem reader_yields_whole_stream_witness :
    (∀ b rest, ([⟨100, 3⟩, ⟨200, 2⟩] : List const_buffer) = b :: rest →
      (Next (new [⟨100, 3⟩, ⟨200, 2⟩])).1 = true ∧
        (Next (new [⟨100, 3⟩, ⟨200, 2⟩])).2.1 = whole b) ∧
    (∀ s : ZeroCopyInputStream, (Next s).1 = false ↔ s.first_.atEnd = true) ∧
    ∃ chunks t, readAll (new [⟨100, 3⟩, ⟨200, 2⟩]) = some (chunks, t) ∧
      chunks = ([⟨100, 3⟩, ⟨200, 2⟩] : List const_buffer).map whole ∧
      chunksBytes (fun a => Fin.ofNat a) chunks =
        bytesOfAll (fun a => Fin.ofNat a) [⟨100, 3⟩, ⟨200, 2⟩] ∧
      t.first_.atEnd = true ∧ (Next t).1 = false ∧
      t.ByteCount = totalSize [⟨100, 3⟩, ⟨200, 2⟩] :=
  reader_yields_whole_stream [⟨100, 3⟩, ⟨200, 2⟩] (fun a => Fin.ofNat a) (by decide)

/-- C3, counterexample: over the single region `(100, 2^32 + 5)` the first `Next` of a fresh
reader returns true with the chunk `(100, 5)`; after `BackUp (2)` the next `Next` returns a
chunk that starts at `100 + 2^32 + 3`, not at `100 + (5 - 2)`. -/
theorem reader_backup_exact_counterexample :
    Reachable [⟨100, 4294967301⟩] (new [⟨100, 4294967301⟩]) ∧
    (Next (new [⟨100, 4294967301⟩])).1 = true ∧
    (Next (new [⟨100, 4294967301⟩])).2.1 = ⟨100, 5⟩ ∧
    ∃ t, BackUp (Next (new [⟨100, 4294967301⟩])).2.2 2 = some t ∧
      (Next t).2.1 = ⟨100 + 4294967299, 2⟩ ∧
      (Next t).2.1.data ≠ 100 + (5 - 2) :=
  ⟨Reachable.new, by decide, by decide,
    ⟨3, ⟨[], [⟨100, 4294967301⟩]⟩, ⟨100 + 4294967299, 2⟩⟩,
      by decide, by decide, by decide⟩

/-- C3, amended: in a reachable reader state in which `Next` returns true with the chunk
`(p, n)`, and for `0 ≤ k ≤ n`, `BackUp (k)` is defined and lowers `ByteCount` by exactly `k`,
and the `Next` after it returns true with a chunk of exactly `k` bytes and leaves the reader
where the first `Next` had left it; when the part of the region that the first `Next` handed
out is smaller than `2^31` bytes, `(p, n)` is that part in full and the second chunk is
`(p + (n - k), k)`, whose bytes are the last `k` bytes of `(p, n)`. -/
theorem reader_backup_exact (buffers : List const_buffer) (s : ZeroCopyInputStream)
    (k : Nat) (mem : Memory) (hs : Reachable buffers s) (hnext : (Next s).1 = true)
    (hk : (k : Int) ≤ (Next s).2.1.size) :
    ∃ t, BackUp (Next s).2.2 k = some t ∧
      t.ByteCount = (Next s).2.2.ByteCount - k ∧
      (Next t).1 = true ∧
      (Next t).2.1.size = k ∧
      (chunkBytes mem (Next t).2.1).length = k ∧
      (Next t).2.2 = (Next s).2.2 ∧
      (s.pos_.size < 2147483648 →
        (Next s).2.1 = whole s.pos_ ∧
        (Next t).2.1 = ⟨(Next s).2.1.data + ((Next s).2.1.size.toNat - k), k⟩ ∧
        chunkBytes mem (Next t).2.1 =
          (chunkBytes mem (Next s).2.1).drop ((Next s).2.1.size.toNat - k)) := by
  obtain ⟨t, hb, _, hcount, _, hn⟩ := BackUp_after_Next hs.shape k hnext hk
  refine ⟨t, hb, hcount, by rw [hn], by rw [hn], by rw [hn]; simp [chunkBytes], by rw [hn], ?_⟩
  intro hfit
  have hrep : (Next s).2.1 = whole s.pos_ := by
    rw [Next_report, report_of_lt _ hfit]
  refine ⟨hrep, ?_, ?_⟩
  · rw [hn, hrep]; simp [whole]
  · rw [hn, hrep]
    have := bytesOf_tail mem s.pos_.data s.pos_.size (s.pos_.size - k)
    rw [Next_report, report_of_lt _ hfit] at hk
    simp only [whole] at hk
    simp only [chunkBytes, whole, bytesOf, Int.toNat_ofNat] at this ⊢
    rw [← this]
    congr 2
    omega

/-- Witness of C3, amended: the single region `(100, 3)`, a fresh reader, and `k = 2`. -/
theorem reader_backup_exact_witness :
    ∃ t, BackUp (Next (new [⟨100, 3⟩])).2.2 (2 : Nat) = some t ∧
      t.ByteCount = (Next (new [⟨100, 3⟩])).2.2.ByteCount - (2 : Nat) ∧
      (Next t).1 = true ∧
      (Next t).2.1.size = (2 : Nat) ∧
      (chunkBytes (fun a => Fin.ofNat a) (Next t).2.1).length = 2 ∧
      (Next t).2.2 = (Next (new [⟨100, 3⟩])).2.2 ∧
      ((new [⟨100, 3⟩]).pos_.size < 2147483648 →
        (Next (new [⟨100, 3⟩])).2.1 = whole (new [⟨100, 3⟩]).pos_ ∧
        (Next t).2.1 =
          ⟨(Next (new [⟨100, 3⟩])).2.1.data + ((Next (new [⟨100, 3⟩])).2.1.size.toNat - 2),
            (2 : Nat)⟩ ∧
        chunkBytes (fun a => Fin.ofNat a) (Next t).2.1 =
          (chunkBytes (fun a => Fin.ofNat a) (Next (new [⟨100, 3⟩])).2.1).drop
            ((Next (new [⟨100, 3⟩])).2.1.size.toNat - 2)) :=
  reader_backup_exact [⟨100, 3⟩] (new [⟨100, 3⟩]) 2 (fun a => Fin.ofNat a) Reachable.new
    (by decide) (by decide)

/-- C4, counterexample: over the single region `(100, 3)` a fresh reader is not exhausted and
has exactly 3 unread bytes, and `Skip (3)` returns false. -/
theorem skip_exact_boundary_counterexample :
    (new [⟨100, 3⟩]).first_.atEnd = false ∧ unread (new [⟨100, 3⟩]) = 3 ∧
      (Skip (new [⟨100, 3⟩]) 3).1 = false := by
  decide

/-- C4, amended: in a reachable reader state that is not exhausted, `Skip (n)` with `n` exactly
the number of unread bytes returns true if and only if the last unread region is empty (which
is so when `n = 0`); in particular it returns false when `n > 0` and the last region of the
sequence is not empty.  When it returns false the cursor is at the end of the stream.  In every
case `ByteCount` grows by exactly `n` and no unread byte is left. -/
theorem skip_exact_boundary (buffers : List const_buffer) (s : ZeroCopyInputStream)
    (hs : Reachable buffers s) (hne : s.first_.atEnd = false) :
    ((Skip s (unread s)).1 = true ↔ ∀ b ∈ (unreadBuffers s).getLast?, b.size = 0) ∧
    (unread s = 0 → (Skip s (unread s)).1 = true) ∧
    (0 < unread s → (∀ b ∈ buffers.getLast?, 0 < b.size) → (Skip s (unread s)).1 = false) ∧
    ((Skip s (unread s)).1 = false → (Skip s (unread s)).2.first_.atEnd = true) ∧
    (Skip s (unread s)).2.ByteCount = s.ByteCount + unread s ∧
    unread (Skip s (unread s)).2 = 0 := by
  have hv := hs.shape
  cases hah : s.first_.ahead with
  | nil => simp [iterator.atEnd, hah] at hne
  | cons cur rest =>
    have hflag := Skip_flag s (unread s) cur rest hah
    have hiff : (Skip s (unread s)).1 = true ↔
        ∀ b ∈ (unreadBuffers s).getLast?, b.size = 0 := by
      rw [hflag]; simp
    have hcount : (Skip s (unread s)).2.ByteCount = s.ByteCount + unread s := by
      rw [ByteCount, Skip_count]; simp [ByteCount]
    refine ⟨hiff, ?_, ?_, ?_, hcount, ?_⟩
    · intro h0
      rw [hiff]
      intro b hb
      exact size_eq_zero_of_totalSize (unreadBuffers s) h0 b (List.mem_of_getLast?_eq_some hb)
    · intro hpos hlast
      cases hf : (Skip s (unread s)).1 with
      | false => rfl
      | true =>
        exfalso
        have hz := hiff.mp hf
        have hseq := hv.seq
        simp only [iterator.sequence, hah] at hseq
        cases rest with
        | nil =>
          simp only [unreadBuffers, hah, List.getLast?_singleton, Option.mem_def,
            Option.some.injEq, forall_eq'] at hz
          simp only [unread, unreadBuffers, hah, totalSize_cons, totalSize_nil] at hpos
          omega
        | cons nxt rest' =>
          have h1 : (unreadBuffers s).getLast? = buffers.getLast? := by
            rw [← hseq, List.getLast?_append_cons, List.getLast?_cons_cons]
            simp [unreadBuffers, hah]
          rw [h1] at hz
          cases hl : buffers.getLast? with
          | none => rw [← hseq] at hl; simp at hl
          | some b =>
            have := hz b hl
            have := hlast b hl
            omega
    · intro hf
      have := (Skip_atEnd s (unread s)).mp hf
      simp [iterator.atEnd, this]
    · rw [Skip_unread]; simp

/-- Witness of C4, amended: a fresh reader over the single region `(100, 3)`. -/
theorem skip_exact_boundary_witness :
    ((Skip (new [⟨100, 3⟩]) (unread (new [⟨100, 3⟩]))).1 = true ↔
      ∀ b ∈ (unreadBuffers (new [⟨100, 3⟩])).getLast?, b.size = 0) ∧
    (unread (new [⟨100, 3⟩]) = 0 →
      (Skip (new [⟨100, 3⟩]) (unread (new [⟨100, 3⟩]))).1 = true) ∧
    (0 < unread (new [⟨100, 3⟩]) →
      (∀ b ∈ ([⟨100, 3⟩] : List const_buffer).getLast?, 0 < b.size) →
      (Skip (new [⟨100, 3⟩]) (unread (new [⟨100, 3⟩]))).1 = false) ∧
    ((Skip (new [⟨100, 3⟩]) (unread (new [⟨100, 3⟩]))).1 = false →
      (Skip (new [⟨100, 3⟩]) (unread (new [⟨100, 3⟩]))).2.first_.atEnd = true) ∧
    (Skip (new [⟨100, 3⟩]) (unread (new [⟨100, 3⟩]))).2.ByteCount =
      (new [⟨100, 3⟩]).ByteCount + unread (new [⟨100, 3⟩]) ∧
    unread (Skip (new [⟨100, 3⟩]) (unread (new [⟨100, 3⟩]))).2 = 0 :=
  skip_exact_boundary [⟨100, 3⟩] (new [⟨100, 3⟩]) Reachable.new (by decide)

end ZeroCopyInputStream

namespace ZeroCopyInputStream

/-- C5, counterexample: a fresh reader over the single region `(100, 2^32 + 5)` has `2^32 + 5`
unread bytes; after `Skip (0)`, reading to the end yields the single chunk `(100, 5)`, which
carries 5 bytes and not the `2^32 + 5` unread bytes. -/
theorem skip_hides_skipped_bytes_counterexample :
    unread (new [⟨100, 4294967301⟩]) = 4294967301 ∧
    (Skip (new [⟨100, 4294967301⟩]) 0).2.ByteCount = (new [⟨100, 4294967301⟩]).ByteCount + 0 ∧
    (∃ t, readAll (Skip (new [⟨100, 4294967301⟩]) 0).2 = some ([⟨100, 5⟩], t)) ∧
    (chunksBytes (fun _ => 0) [⟨100, 5⟩]).length = 5 ∧
    (chunksBytes (fun _ => 0) [⟨100, 5⟩]).length ≠ unread (new [⟨100, 4294967301⟩]) - 0 :=
  ⟨by decide, by decide, ⟨⟨5, ⟨[⟨100, 4294967301⟩], []⟩, const_buffer.null⟩, by decide⟩,
    by decide, by decide⟩

/-- C5, amended: in every reader state with at least `n` unread bytes in which every unread
region is smaller than `2^31` bytes, reading the stream to its end yields the unread byte
stream, reading it to its end after `Skip (n)` yields the previously unread byte stream without
its first `n` bytes, and `Skip (n)` has raised `ByteCount` by exactly `n`.  (`chunks` is what
reading to the end yields without the skip, `chunks'` what it yields after the skip.) -/
theorem skip_hides_skipped_bytes (s : ZeroCopyInputStream) (n : Nat) (mem : Memory)
    (hn : n ≤ unread s) (hfit : ∀ b ∈ unreadBuffers s, b.size < 2147483648) :
    ∃ chunks t chunks' t', readAll s = some (chunks, t) ∧
      chunksBytes mem chunks = unreadBytes mem s ∧
      readAll (Skip s n).2 = some (chunks', t') ∧
      chunksBytes mem chunks' = (unreadBytes mem s).drop n ∧
      chunksBytes mem chunks' = (chunksBytes mem chunks).drop n ∧
      (Skip s n).2.ByteCount = s.ByteCount + n := by
  obtain ⟨t, ht, _, _⟩ := readAll_of_fit s hfit
  obtain ⟨t', ht', _, _⟩ := readAll_of_fit (Skip s n).2 (Skip_fits _ s n hfit)
  have h1 : chunksBytes mem ((unreadBuffers s).map whole) = unreadBytes mem s :=
    chunksBytes_whole mem _
  have h2 : chunksBytes mem ((unreadBuffers (Skip s n).2).map whole) =
      (unreadBytes mem s).drop n := by
    rw [chunksBytes_whole]
    exact Skip_unreadBytes mem s n
  refine ⟨_, t, _, t', ht, h1, ht', h2, ?_, ?_⟩
  · rw [h2, h1]
  · rw [ByteCount, Skip_count, Nat.min_eq_left hn]; rfl

/-- Witness of C5, amended: the regions `(100, 3)` and `(200, 2)`, a fresh reader, `n = 4`. -/
theorem skip_hides_skipped_bytes_witness :
    ∃ chunks t chunks' t', readAll (new [⟨100, 3⟩, ⟨200, 2⟩]) = some (chunks, t) ∧
      chunksBytes (fun a => Fin.ofNat a) chunks =
        unreadBytes (fun a => Fin.ofNat a) (new [⟨100, 3⟩, ⟨200, 2⟩]) ∧
      readAll (Skip (new [⟨100, 3⟩, ⟨200, 2⟩]) (4 : Nat)).2 = some (chunks', t') ∧
      chunksBytes (fun a => Fin.ofNat a) chunks' =
        (unreadBytes (fun a => Fin.ofNat a) (new [⟨100, 3⟩, ⟨200, 2⟩])).drop 4 ∧
      chunksBytes (fun a => Fin.ofNat a) chunks' =
        (chunksBytes (fun a => Fin.ofNat a) chunks).drop 4 ∧
      (Skip (new [⟨100, 3⟩, ⟨200, 2⟩]) (4 : Nat)).2.ByteCount =
        (new [⟨100, 3⟩, ⟨200, 2⟩]).ByteCount + (4 : Nat) :=
  skip_hides_skipped_bytes (new [⟨100, 3⟩, ⟨200, 2⟩]) 4 (fun a => Fin.ofNat a) (by decide)
    (by decide)

/-- C6, counterexample: over the regions `(100, 2)`, `(200, 0)`, `(300, 4)` a fresh reader
returns true for `Skip (2 + 0)`, and the `Next` after it returns the empty second region
`(200, 0)`, not the third region.  Over the regions `(100, 2)`, `(200, 1)`, `(300, 2^31)` the
`Next` after `Skip (2 + 1)` reports the third region with the size `-2^31`, not in full. -/
theorem skip_two_regions_counterexample :
    ((Skip (new [⟨100, 2⟩, ⟨200, 0⟩, ⟨300, 4⟩]) (2 + 0)).1 = true ∧
      (Next (Skip (new [⟨100, 2⟩, ⟨200, 0⟩, ⟨300, 4⟩]) (2 + 0)).2).2.1 = ⟨200, 0⟩ ∧
      (Next (Skip (new [⟨100, 2⟩, ⟨200, 0⟩, ⟨300, 4⟩]) (2 + 0)).2).2.1 ≠ whole ⟨300, 4⟩) ∧
    ((Skip (new [⟨100, 2⟩, ⟨200, 1⟩, ⟨300, 2147483648⟩]) (2 + 1)).1 = true ∧
      (Next (Skip (new [⟨100, 2⟩, ⟨200, 1⟩, ⟨300, 2147483648⟩]) (2 + 1)).2).2.1 =
        ⟨300, -2147483648⟩ ∧
      (Next (Skip (new [⟨100, 2⟩, ⟨200, 1⟩, ⟨300, 2147483648⟩]) (2 + 1)).2).2.1 ≠
        whole ⟨300, 2147483648⟩) := by
  decide

/-- C6, amended: over a region sequence with at least three regions whose second region is not
empty and whose third region is smaller than `2^31` bytes, on a fresh reader `Skip (k)` with `k`
the sum of the sizes of the first two regions returns true, leaves the cursor at the start of
the third region (the next `Next` returns true with the third region in full), and raises
`ByteCount` from 0 to `k`. -/
theorem skip_two_regions (r0 r1 r2 : const_buffer) (rest : List const_buffer)
    (h1 : 0 < r1.size) (h2 : r2.size < 2147483648) :
    (Skip (new (r0 :: r1 :: r2 :: rest)) ((r0.size + r1.size : Nat) : Int)).1 = true ∧
    (Next (Skip (new (r0 :: r1 :: r2 :: rest)) ((r0.size + r1.size : Nat) : Int)).2).1 = true ∧
    (Next (Skip (new (r0 :: r1 :: r2 :: rest)) ((r0.size + r1.size : Nat) : Int)).2).2.1 =
      whole r2 ∧
    (new (r0 :: r1 :: r2 :: rest)).ByteCount = 0 ∧
    (Skip (new (r0 :: r1 :: r2 :: rest)) ((r0.size + r1.size : Nat) : Int)).2.ByteCount =
      (r0.size + r1.size : Nat) := by
  have hskip : Skip (new (r0 :: r1 :: r2 :: rest)) ((r0.size + r1.size : Nat) : Int) =
      (true, ⟨(r0.size + r1.size : Nat), ⟨[r1, r0], r2 :: rest⟩, r2⟩) := by
    simp only [Skip, new, regionAt, iterator.begin]
    rw [Skip_loop_step _ _ _ _ _ _ _ (by push_cast; omega) (by push_cast; omega)]
    rw [Skip_loop_step _ _ _ _ _ _ _ (by push_cast; omega) (by push_cast; omega)]
    rw [Skip_loop_done _ _ _ _ _ _ (by push_cast; omega)]
    simp
  rw [hskip]
  refine ⟨rfl, ?_, ?_, rfl, rfl⟩
  · rw [Next_cons _ r2 rest rfl]
  · rw [Next_cons _ r2 rest rfl]
    exact report_of_lt r2 h2

/-- Witness of C6, amended: the regions `(100, 2)`, `(200, 1)`, `(300, 4)`. -/
theorem skip_two_regions_witness :
    (Skip (new [⟨100, 2⟩, ⟨200, 1⟩, ⟨300, 4⟩]) ((2 + 1 : Nat) : Int)).1 = true ∧
    (Next (Skip (new [⟨100, 2⟩, ⟨200, 1⟩, ⟨300, 4⟩]) ((2 + 1 : Nat) : Int)).2).1 = true ∧
    (Next (Skip (new [⟨100, 2⟩, ⟨200, 1⟩, ⟨300, 4⟩]) ((2 + 1 : Nat) : Int)).2).2.1 =
      whole ⟨300, 4⟩ ∧
    (new [⟨100, 2⟩, ⟨200, 1⟩, ⟨300, 4⟩]).ByteCount = 0 ∧
    (Skip (new [⟨100, 2⟩, ⟨200, 1⟩, ⟨300, 4⟩]) ((2 + 1 : Nat) : Int)).2.ByteCount =
      (2 + 1 : Nat) :=
  skip_two_regions ⟨100, 2⟩ ⟨200, 1⟩ ⟨300, 4⟩ [] (by decide) (by decide)

/-- C7, counterexample: over the regions `(100, 2^31)` and `(200, 1)`, the state after the first
`Next` of a fresh reader is reachable and has one unread byte; `Skip (5)` returns false there
and raises `ByteCount` by 1, to `-2^31 + 1`, which is not the total size `2^31 + 1`. -/
theorem skip_past_end_counterexample :
    Reachable [⟨100, 2147483648⟩, ⟨200, 1⟩] (Next (new [⟨100, 2147483648⟩, ⟨200, 1⟩])).2.2 ∧
    unread (Next (new [⟨100, 2147483648⟩, ⟨200, 1⟩])).2.2 = 1 ∧
    (Skip (Next (new [⟨100, 2147483648⟩, ⟨200, 1⟩])).2.2 5).1 = false ∧
    (Skip (Next (new [⟨100, 2147483648⟩, ⟨200, 1⟩])).2.2 5).2.ByteCount = -2147483648 + 1 ∧
    totalSize [⟨100, 2147483648⟩, ⟨200, 1⟩] = 2147483648 + 1 :=
  ⟨Reachable.next Reachable.new, by decide, by decide, by decide, by decide⟩

/-- C7, amended: in every reachable reader state and for every `n` greater than the number of
unread bytes, `Skip (n)` returns false and leaves the cursor at the end of the stream, so that a
following `Next` returns false; `ByteCount` grows by exactly the number of bytes that were
unread; when every region of the sequence is smaller than `2^31` bytes, `ByteCount` then equals
the total size of the sequence. -/
theorem skip_past_end (buffers : List const_buffer) (s : ZeroCopyInputStream) (n : Nat)
    (hs : Reachable buffers s) (hn : unread s < n) :
    (Skip s n).1 = false ∧
    (Skip s n).2.first_.atEnd = true ∧
    (Next (Skip s n).2).1 = false ∧
    (Skip s n).2.ByteCount = s.ByteCount + unread s ∧
    ((∀ b ∈ buffers, b.size < 2147483648) → (Skip s n).2.ByteCount = totalSize buffers) := by
  have hflag : (Skip s n).1 = false := by
    cases hah : s.first_.ahead with
    | nil => simp [Skip, hah]
    | cons cur rest =>
      cases hf : (Skip s n).1 with
      | false => rfl
      | true =>
        rcases (Skip_flag s n cur rest hah).mp hf with h | ⟨h, _⟩ <;> omega
  have hend := (Skip_atEnd s n).mp hflag
  have hcount : (Skip s n).2.ByteCount = s.ByteCount + unread s := by
    rw [ByteCount, Skip_count, Nat.min_eq_right (Nat.le_of_lt hn)]; rfl
  refine ⟨hflag, by simp [iterator.atEnd, hend], (Next_flag _).mpr hend, hcount, ?_⟩
  intro hfit
  rw [hcount]
  exact (hs.valid hfit).total

/-- Witness of C7, amended: the regions `(100, 3)` and `(200, 2)`, a fresh reader, `n = 6`. -/
theorem skip_past_end_witness :
    (Skip (new [⟨100, 3⟩, ⟨200, 2⟩]) (6 : Nat)).1 = false ∧
    (Skip (new [⟨100, 3⟩, ⟨200, 2⟩]) (6 : Nat)).2.first_.atEnd = true ∧
    (Next (Skip (new [⟨100, 3⟩, ⟨200, 2⟩]) (6 : Nat)).2).1 = false ∧
    (Skip (new [⟨100, 3⟩, ⟨200, 2⟩]) (6 : Nat)).2.ByteCount =
      (new [⟨100, 3⟩, ⟨200, 2⟩]).ByteCount + unread (new [⟨100, 3⟩, ⟨200, 2⟩]) ∧
    ((∀ b ∈ ([⟨100, 3⟩, ⟨200, 2⟩] : List const_buffer), b.size < 2147483648) →
      (Skip (new [⟨100, 3⟩, ⟨200, 2⟩]) (6 : Nat)).2.ByteCount =
        totalSize [⟨100, 3⟩, ⟨200, 2⟩]) :=
  skip_past_end [⟨100, 3⟩, ⟨200, 2⟩] (new [⟨100, 3⟩, ⟨200, 2⟩]) 6 Reachable.new (by decide)

/-- C8, the code at the failing input: over the single region `(100, 3)`, the state after
`Skip (3)` on a fresh reader is reachable and has the cursor at the end of the sequence; `Next`
returns false there and reports the region `(100, 3)`, which is neither null nor empty. -/
theorem next_after_skip_to_end_reports_stale_region :
    Reachable [⟨100, 3⟩] (Skip (new [⟨100, 3⟩]) (3 : Nat)).2 ∧
    (Skip (new [⟨100, 3⟩]) (3 : Nat)).2.first_.atEnd = true ∧
    (Next (Skip (new [⟨100, 3⟩]) (3 : Nat)).2).1 = false ∧
    (Next (Skip (new [⟨100, 3⟩]) (3 : Nat)).2).2.1 = ⟨100, 3⟩ ∧
    (Next (Skip (new [⟨100, 3⟩]) (3 : Nat)).2).2.1 ≠ ⟨nullptr, 0⟩ :=
  ⟨Reachable.skip 3 Reachable.new, by decide, by decide, by decide, by decide⟩

/-- C9: a reader constructed over the empty region sequence has `ByteCount` 0; its first `Next`
returns false and reports the null region of size 0, and `ByteCount` is 0 after that call. -/
theorem empty_input :
    (new []).ByteCount = 0 ∧
    (Next (new [])).1 = false ∧
    (Next (new [])).2.1 = ⟨nullptr, 0⟩ ∧
    (Next (new [])).2.1.size = 0 ∧
    (Next (new [])).2.2.ByteCount = 0 := by
  decide

/-- C10, counterexample: over the single region `(100, 2^31)` the state after the first `Next`
of a fresh reader is reachable, with the one chunk handed out tallied; `ByteCount` is `-2^31`
there, which is below 0 and is not the offset `2^31` of the cursor. -/
theorem reader_byte_count_invariant_counterexample :
    Trace [⟨100, 2147483648⟩] (Next (new [⟨100, 2147483648⟩])).2.2
      (0 + if (Next (new [⟨100, 2147483648⟩])).1
        then (Next (new [⟨100, 2147483648⟩])).2.1.size.toNat else 0) 0 0 ∧
    (Next (new [⟨100, 2147483648⟩])).2.2.ByteCount = -2147483648 ∧
    (Next (new [⟨100, 2147483648⟩])).2.2.ByteCount < 0 ∧
    offset (Next (new [⟨100, 2147483648⟩])).2.2 = 2147483648 :=
  ⟨Trace.next Trace.new, by decide, by decide, by decide⟩

/-- C10, amended: over a region sequence in which every region is smaller than `2^31` bytes, in
every reader state reachable from construction by `Next`, `Skip (n)` with `0 ≤ n` and
`BackUp (k)` directly after a `Next` that returned true, with `k` at most the chunk size,
`ByteCount` equals the bytes handed out by `Next` plus the bytes skipped minus the bytes backed
up; it is the offset of the cursor in the byte stream, which together with the unread bytes
makes up the total size, so it lies between 0 and the total size of the sequence. -/
theorem reader_byte_count_invariant (buffers : List const_buffer)
    (s : ZeroCopyInputStream) (yielded skipped backedUp : Nat)
    (hfit : ∀ b ∈ buffers, b.size < 2147483648)
    (h : Trace buffers s yielded skipped backedUp) :
    s.ByteCount = (yielded : Int) + skipped - backedUp ∧
    s.ByteCount = offset s ∧
    offset s + unread s = totalSize buffers ∧
    0 ≤ s.ByteCount ∧ s.ByteCount ≤ totalSize buffers := by
  have key : Valid buffers s ∧ s.count_ = (yielded : Int) + skipped - backedUp := by
    induction h with
    | new => exact ⟨Valid_new buffers, by simp [new]⟩
    | @next s y k b _ ih =>
      refine ⟨Valid_Next hfit ih.1, ?_⟩
      cases hah : s.first_.ahead with
      | nil => rw [Next_nil s hah]; simpa using ih.2
      | cons c rest =>
        have hp : s.pos_.size < 2147483648 :=
          ih.1.to_shape.fits hfit s.pos_ (by simp [unreadBuffers, hah])
        rw [Next_cons s c rest hah]
        simp only [if_true, ih.2, report, buffer_size, to_int_of_lt _ hp, Int.toNat_ofNat]
        push_cast; ring
    | @skip s y k b n _ ih =>
      refine ⟨Valid_Skip ih.1 n, ?_⟩
      rw [Skip_count, ih.2]
      push_cast; ring
    | @backUp s t y k b j _ hnext hj hb ih =>
      obtain ⟨t', ht', hv, hcount, hu, _⟩ := BackUp_after_Next ih.1.to_shape j hnext hj
      rw [hb] at ht'
      cases ht'
      constructor
      · apply Valid.of_total hv
        have := (Valid_Next hfit ih.1).total
        rw [hcount, hu]
        push_cast
        omega
      · rw [hcount]
        cases hah : s.first_.ahead with
        | nil => simp [Next_nil s hah] at hnext
        | cons c rest =>
          have hp : s.pos_.size < 2147483648 :=
            ih.1.to_shape.fits hfit s.pos_ (by simp [unreadBuffers, hah])
          rw [Next_cons s c rest hah]
          simp only [ih.2, report, buffer_size, to_int_of_lt _ hp, Int.toNat_ofNat]
          push_cast; ring
  obtain ⟨hv, hc⟩ := key
  have hoff := offset_add_unread buffers s hv.seq hv.pos
  have hcount := hv.count
  refine ⟨hc, hcount, hoff, ?_, ?_⟩
  · rw [ByteCount, hcount]; exact Int.natCast_nonneg _
  · rw [ByteCount, hcount]; exact_mod_cast (by omega : offset s ≤ totalSize buffers)

/-- Witness of C10, amended: over the regions `(100, 3)` and `(200, 2)`: `Next`, `BackUp (2)`,
`Skip (3)`. -/
theorem reader_byte_count_invariant_witness :
    (Skip ⟨1, ⟨[], [⟨100, 3⟩, ⟨200, 2⟩]⟩, ⟨101, 2⟩⟩ (3 : Nat)).2.ByteCount =
      ((0 + 3 : Nat) : Int) + ((0 + min 3 4 : Nat) : Int) - ((0 + 2 : Nat) : Int) ∧
    (Skip ⟨1, ⟨[], [⟨100, 3⟩, ⟨200, 2⟩]⟩, ⟨101, 2⟩⟩ (3 : Nat)).2.ByteCount =
      offset (Skip ⟨1, ⟨[], [⟨100, 3⟩, ⟨200, 2⟩]⟩, ⟨101, 2⟩⟩ (3 : Nat)).2 ∧
    offset (Skip ⟨1, ⟨[], [⟨100, 3⟩, ⟨200, 2⟩]⟩, ⟨101, 2⟩⟩ (3 : Nat)).2 +
      unread (Skip ⟨1, ⟨[], [⟨100, 3⟩, ⟨200, 2⟩]⟩, ⟨101, 2⟩⟩ (3 : Nat)).2 =
      totalSize [⟨100, 3⟩, ⟨200, 2⟩] ∧
    0 ≤ (Skip ⟨1, ⟨[], [⟨100, 3⟩, ⟨200, 2⟩]⟩, ⟨101, 2⟩⟩ (3 : Nat)).2.ByteCount ∧
    (Skip ⟨1, ⟨[], [⟨100, 3⟩, ⟨200, 2⟩]⟩, ⟨101, 2⟩⟩ (3 : Nat)).2.ByteCount ≤
      totalSize [⟨100, 3⟩, ⟨200, 2⟩] :=
  reader_byte_count_invariant [⟨100, 3⟩, ⟨200, 2⟩] _ _ _ _ (by decide)
    (Trace.skip 3
      (Trace.backUp (s := new [⟨100, 3⟩, ⟨200, 2⟩])
        (t := ⟨1, ⟨[], [⟨100, 3⟩, ⟨200, 2⟩]⟩, ⟨101, 2⟩⟩) 2 Trace.new
        (by decide) (by decide) (by decide)))

end ZeroCopyInputStream

/-! ### Writing through the writer and reading back -/

section roundtrip

theorem bytesOf_store_below (mem : Memory) (p : Nat) (bytes : List Byte) (c : const_buffer)
    (h : c.data + c.size ≤ p) : bytesOf (store mem p bytes) c = bytesOf mem c := by
  unfold bytesOf
  apply List.map_congr_left
  intro i hi
  have hi' : i < c.size := List.mem_range.mp hi
  simp only [store]
  rw [if_neg (by omega)]

theorem bytesOfAll_store_below (mem : Memory) (p : Nat) (bytes : List Byte)
    (cs : List const_buffer) (h : ∀ c ∈ cs, c.data + c.size ≤ p) :
    bytesOfAll (store mem p bytes) cs = bytesOfAll mem cs := by
  induction cs with
  | nil => rfl
  | cons c cs ih =>
    rw [bytesOfAll_cons, bytesOfAll_cons, bytesOf_store_below mem p bytes c
      (h c (List.mem_cons_self _ _)), ih (fun d hd => h d (List.mem_cons_of_mem _ hd))]

theorem bytesOf_store_self (mem : Memory) (p : Nat) (bytes : List Byte) :
    bytesOf (store mem p bytes) ⟨p, bytes.length⟩ = bytes := by
  apply List.ext_getElem
  · simp
  · intro i h1 h2
    simp [bytesOf, store, List.getElem?_eq_getElem h2]

theorem readAll_new (buffers : List const_buffer)
    (hfit : ∀ b ∈ buffers, b.size < 2147483648) :
    ∃ t, ZeroCopyInputStream.readAll (ZeroCopyInputStream.new buffers) =
        some (buffers.map ZeroCopyInputStream.whole, t) ∧
      t.first_.ahead = [] ∧ t.count_ = totalSize buffers := by
  have hu : ZeroCopyInputStream.unreadBuffers (ZeroCopyInputStream.new buffers) = buffers := by
    cases buffers <;>
      simp [ZeroCopyInputStream.unreadBuffers, ZeroCopyInputStream.new,
        ZeroCopyInputStream.regionAt, iterator.begin]
  obtain ⟨t, ht, hend, hcount⟩ :=
    ZeroCopyInputStream.readAll_of_fit (ZeroCopyInputStream.new buffers)
      (by rw [hu]; exact hfit)
  rw [hu] at ht
  refine ⟨t, ht, hend, ?_⟩
  rw [hcount, ZeroCopyInputStream.unread, hu]
  simp [ZeroCopyInputStream.new]

end roundtrip

section roundtrip

theorem to_size_t_natCast (k : Nat) : to_size_t (k : Int) = k := by
  unfold to_size_t
  rw [if_pos (Int.natCast_nonneg k)]
  simp

theorem Next_of_pending (layout : Nat → Nat → List Nat) (blockSize : Nat)
    (hsingle : ∀ i, ∃ s, layout i blockSize = [s] ∧ blockSize ≤ s ∧ 0 < to_int s)
    (w : ZeroCopyOutputStream Sink) (r : mutable_buffer) (h : Pending blockSize w r) :
    ∃ r' w1,
      ZeroCopyOutputStream.Next (Sink.ops layout) w =
        some (true, ⟨r'.data, to_int r'.size⟩, w1) ∧
      Pending blockSize w1 r' ∧
      w1.streambuf_.committed =
        w.streambuf_.committed ++ [⟨r.data, (to_int r.size).toNat⟩] := by
  obtain ⟨hprep, hpos, hblock, hsize, hcommit, hbrk, hbelow, hfits, hcount⟩ := h
  obtain ⟨⟨committed, prepared, brk, prepares⟩, bs, count, commit, buffers,
    ⟨before, ahead⟩⟩ := w
  simp only at hprep hpos hblock hcommit hbrk hbelow hfits hcount
  subst hprep hpos hblock hcommit
  obtain ⟨s, hs, hle, hs0⟩ := hsingle prepares
  have hle1 := to_int_le r.size
  have hlt1 := to_int_lt r.size
  have hne : (to_int r.size).toNat ≠ 0 := by omega
  have hcap : (to_int r.size).toNat ≤ r.size := by omega
  have h64 : to_int64 (to_int r.size).toNat = ((to_int r.size).toNat : Int) :=
    to_int64_of_lt _ (by omega)
  refine ⟨⟨brk, s⟩,
    { streambuf_ :=
        { committed := committed ++ [⟨r.data, (to_int r.size).toNat⟩], prepared := [⟨brk, s⟩],
          brk := brk + s, prepares := prepares + 1 }
      blockSize_ := bs
      count_ := count + ((to_int r.size).toNat : Int)
      commit_ := (to_int s).toNat
      buffers_ := [⟨brk, s⟩]
      pos_ := ⟨[⟨brk, s⟩], []⟩ }, ?_, ?_, ?_⟩
  · simp only [ZeroCopyOutputStream.Next, ZeroCopyOutputStream.Next.flush,
      ZeroCopyOutputStream.Next.refill, Sink.ops, Sink.commit, Sink.prepare, Sink.capacity,
      Sink.takeBytes, Sink.carve, iterator.atEnd, iterator.begin, hs, hne, hle, hcap, h64,
      to_size_t_of_nonneg _ (Int.le_of_lt hs0),
      List.map_cons, List.map_nil, List.sum_cons, List.sum_nil, Nat.add_zero, Nat.le_refl,
      ne_eq, not_false_eq_true, if_true, if_false, List.isEmpty_nil]
  · refine ⟨rfl, rfl, rfl, hs0, rfl, by simp, ?_, ?_, ?_⟩
    · intro c hc
      simp only [List.mem_append, List.mem_singleton] at hc
      rcases hc with hc | rfl
      · have := hbelow c hc
        simp only; omega
      · simp only; omega
    · intro c hc
      simp only [List.mem_append, List.mem_singleton] at hc
      rcases hc with hc | rfl
      · exact hfits c hc
      · simp only; omega
    · simp only [totalSize_append, totalSize_cons, totalSize_nil, hcount]
      push_cast; ring
  · rfl

theorem BackUp_of_pending (layout : Nat → Nat → List Nat) (blockSize : Nat)
    (w : ZeroCopyOutputStream Sink) (r : mutable_buffer) (h : Pending blockSize w r) (m : Nat)
    (hm : (m : Int) ≤ to_int r.size) (hpos : 0 < m) :
    ∃ w2, ZeroCopyOutputStream.BackUp (Sink.ops layout) w (to_int r.size - (m : Int)) =
        some w2 ∧
      w2.commit_ = 0 ∧
      w2.streambuf_.committed = w.streambuf_.committed ++ [⟨r.data, m⟩] ∧
      w2.count_ = w.count_ + m := by
  obtain ⟨hprep, _, _, hsize, hcommit, _, _, _, _⟩ := h
  obtain ⟨⟨committed, prepared, brk, prepares⟩, bs, count, commit, buffers,
    ⟨before, ahead⟩⟩ := w
  simp only at hprep hcommit
  subst hprep hcommit
  have hle1 := to_int_le r.size
  have hts : to_size_t (to_int r.size - (m : Int)) = (to_int r.size).toNat - m := by
    rw [to_size_t_of_nonneg _ (by omega)]
    omega
  have hsub : (to_int r.size).toNat - ((to_int r.size).toNat - m) = m := by omega
  have hne : m ≠ 0 := by omega
  have hcap : m ≤ r.size := by omega
  have hlt1 := to_int_lt r.size
  have h64 : to_int64 m = (m : Int) := to_int64_of_lt _ (by omega)
  refine ⟨
    { streambuf_ :=
        { committed := committed ++ [⟨r.data, m⟩], prepared := [], brk := brk,
          prepares := prepares }
      blockSize_ := bs
      count_ := count + m
      commit_ := 0
      buffers_ := buffers
      pos_ := ⟨before, ahead⟩ }, ?_, ?_, ?_, ?_⟩
  · simp only [ZeroCopyOutputStream.BackUp, hts, Nat.sub_le, if_true, hsub, h64,
      Sink.ops, Sink.commit, Sink.capacity, Sink.takeBytes, hne, hcap, if_false,
      List.map_cons, List.map_nil, List.sum_cons, List.sum_nil, Nat.add_zero]
  · rfl
  · rfl
  · rfl

theorem Ready_new (layout : Nat → Nat → List Nat) (blockSize : Nat)
    (hsingle : ∀ i, ∃ s, layout i blockSize = [s] ∧ blockSize ≤ s ∧ 0 < to_int s)
    (mem : Memory) :
    ∃ w0, ZeroCopyOutputStream.new (Sink.ops layout) (Sink.empty 1) blockSize = some w0 ∧
      w0.commit_ = 0 ∧ w0.count_ = 0 ∧ w0.streambuf_.committed = [] ∧
      Ready layout blockSize w0 mem [] := by
  obtain ⟨s, hs, hle, hs0⟩ := hsingle 0
  refine ⟨
    { streambuf_ := { committed := [], prepared := [⟨1, s⟩], brk := 1 + s, prepares := 1 }
      blockSize_ := blockSize
      count_ := 0
      commit_ := 0
      buffers_ := [⟨1, s⟩]
      pos_ := ⟨[], [⟨1, s⟩]⟩ }, ?_, ?_, ?_, ?_, ⟨1, s⟩,
    { streambuf_ := { committed := [], prepared := [⟨1, s⟩], brk := 1 + s, prepares := 1 }
      blockSize_ := blockSize
      count_ := 0
      commit_ := (to_int s).toNat
      buffers_ := [⟨1, s⟩]
      pos_ := ⟨[⟨1, s⟩], []⟩ }, ?_, ?_, ?_⟩
  · simp only [ZeroCopyOutputStream.new, Sink.ops, Sink.prepare, Sink.empty, hs, hle,
      List.sum_cons, List.sum_nil, Nat.add_zero, if_true, Sink.carve]
    rfl
  · rfl
  · rfl
  · rfl
  · simp only [ZeroCopyOutputStream.Next, ZeroCopyOutputStream.Next.flush,
      ZeroCopyOutputStream.Next.refill, iterator.atEnd, iterator.begin, ne_eq,
      not_true_eq_false, if_false, List.isEmpty_cons, Bool.false_eq_true,
      to_size_t_of_nonneg _ (Int.le_of_lt hs0)]
  · exact ⟨rfl, rfl, rfl, hs0, rfl, by simp, by simp, by simp, by simp⟩
  · rfl

end roundtrip

section roundtrip

theorem serialize_spec (layout : Nat → Nat → List Nat) (blockSize : Nat)
    (hsingle : ∀ i, ∃ s, layout i blockSize = [s] ∧ blockSize ≤ s ∧ 0 < to_int s) :
    ∀ (fuel : Nat) (B : List Byte) (w : ZeroCopyOutputStream Sink) (mem : Memory)
      (done : List Byte), B ≠ [] → B.length ≤ fuel → Ready layout blockSize w mem done →
      ∃ w' mem', serialize (Sink.ops layout) fuel w mem B = some (w', mem') ∧
        w'.commit_ = 0 ∧ bytesOfAll mem' w'.streambuf_.committed = done ++ B ∧
        w'.count_ = totalSize w'.streambuf_.committed ∧
        ∀ c ∈ w'.streambuf_.committed, c.size < 2147483648 := by
  intro fuel
  induction fuel with
  | zero =>
    intro B w mem done hB hlen _
    exact absurd (List.length_eq_zero.mp (Nat.le_zero.mp hlen)) hB
  | succ fuel ih =>
    intro B w mem done hB hlen hready
    cases B with
    | nil => exact absurd rfl hB
    | cons b bs =>
      obtain ⟨r, w1, hN, hP, hbytes⟩ := hready
      have hsize := hP.size
      have hle1 := to_int_le r.size
      have hlt1 := to_int_lt r.size
      simp only [serialize, hN]
      by_cases hfit : ((b :: bs).length : Int) ≤ to_int r.size
      · obtain ⟨w2, hB2, hc2, hcm2, hcnt2⟩ :=
          BackUp_of_pending layout blockSize w1 r hP (b :: bs).length hfit (by simp)
        rw [if_pos hfit, hB2]
        have hfit' : (b :: bs).length ≤ (to_int r.size).toNat := by omega
        refine ⟨w2, _, rfl, hc2, ?_, ?_, ?_⟩
        · rw [hcm2, bytesOfAll_append, bytesOfAll_cons, bytesOfAll_nil, List.append_nil,
            List.take_of_length_le hfit',
            bytesOfAll_store_below _ _ _ _ hP.below, bytesOf_store_self, hbytes]
        · rw [hcnt2, hcm2, hP.count]
          simp
        · intro c hc
          rw [hcm2] at hc
          simp only [List.mem_append, List.mem_singleton] at hc
          rcases hc with hc | rfl
          · exact hP.fits c hc
          · simp only; omega
      · rw [if_neg hfit]
        have hlt : (to_int r.size).toNat < (b :: bs).length := by omega
        have htake : ((b :: bs).take (to_int r.size).toNat).length = (to_int r.size).toNat := by
          rw [List.length_take]; omega
        have hready' : Ready layout blockSize w1
            (store mem r.data ((b :: bs).take (to_int r.size).toNat))
            (done ++ (b :: bs).take (to_int r.size).toNat) := by
          obtain ⟨r', w1', hN', hP', hcm'⟩ := Next_of_pending layout blockSize hsingle w1 r hP
          refine ⟨r', w1', hN', hP', ?_⟩
          rw [hcm', bytesOfAll_append, bytesOfAll_cons, bytesOfAll_nil, List.append_nil,
            bytesOfAll_store_below _ _ _ _ hP.below, hbytes]
          congr 1
          have := bytesOf_store_self mem r.data ((b :: bs).take (to_int r.size).toNat)
          rw [htake] at this
          exact this
        obtain ⟨w', mem', hs, hc, hb, hcnt, hfits⟩ :=
          ih ((b :: bs).drop (to_int r.size).toNat) w1 _ _
            (by
              intro h
              have := congrArg List.length h
              simp only [List.length_drop, List.length_nil] at this
              omega)
            (by simp only [List.length_drop]; simp only [List.length_cons] at hlen hlt ⊢; omega)
            hready'
        refine ⟨w', mem', hs, hc, ?_, hcnt, hfits⟩
        rw [hb, List.append_assoc, List.take_append_drop]

/-- C1, counterexample: a sink whose every preparation consists of two regions of 2 bytes meets
the contract for block size 4, and the round trip of the three bytes `1, 2, 3` does not yield
them: the first `Next` hands out the region `(1, 2)`; the second `Next` commits 2 bytes, upon
which the sink discards the rest of the preparation, and hands out the region `(3, 2)` of the
same batch, which is no capacity of the sink any more; the closing `BackUp (1)` commits 1 byte
beyond the capacity of the sink, so the third byte never reaches the committed contents.  A sink
whose preparation for block size `2^31` is one region of `2^31` bytes meets the contract too,
and the round trip of one byte does not yield it: `Next` reports the size `-2^31` for the
region, and the amount `2^64 - 2^31` is left pending.  Over a sink whose preparations are one
empty region, for block size 0, the round trip of one byte does not yield it either. -/
theorem round_trip_counterexample :
    roundTrip (fun _ _ => [2, 2]) 4 10 (fun _ => 0) [1, 2, 3] = none ∧
    roundTrip (fun _ _ => [2, 2]) 4 10 (fun _ => 0) [1, 2, 3] ≠ some ([1, 2, 3], 3, 3) ∧
    (∃ w0 w1 w2,
      ZeroCopyOutputStream.new (Sink.ops (fun _ _ => [2, 2])) (Sink.empty 1) 4 = some w0 ∧
      w0.buffers_ = [⟨1, 2⟩, ⟨3, 2⟩] ∧
      ZeroCopyOutputStream.Next (Sink.ops (fun _ _ => [2, 2])) w0 = some (true, ⟨1, 2⟩, w1) ∧
      ZeroCopyOutputStream.Next (Sink.ops (fun _ _ => [2, 2])) w1 = some (true, ⟨3, 2⟩, w2) ∧
      w2.streambuf_.committed = [⟨1, 2⟩] ∧ w2.streambuf_.prepared = [] ∧
      ZeroCopyOutputStream.BackUp (Sink.ops (fun _ _ => [2, 2])) w2 1 = none) ∧
    roundTrip (fun _ n => [n]) 2147483648 10 (fun _ => 0) [1] = none ∧
    (∃ w0 w1,
      ZeroCopyOutputStream.new (Sink.ops (fun _ n => [n])) (Sink.empty 1) 2147483648 =
        some w0 ∧
      w0.buffers_ = [⟨1, 2147483648⟩] ∧
      ZeroCopyOutputStream.Next (Sink.ops (fun _ n => [n])) w0 =
        some (true, ⟨1, -2147483648⟩, w1) ∧
      w1.commit_ = 18446744071562067968) ∧
    roundTrip (fun _ _ => [0]) 0 10 (fun _ => 0) [1] = none := by
  refine ⟨by decide, by decide, ⟨_, _, _, rfl, rfl, rfl, rfl, rfl, rfl, by decide⟩, by decide,
    ⟨_, _, rfl, rfl, rfl, by decide⟩, by decide⟩

/-- C1, amended: over an initially empty sink each of whose preparations for the block size is a
single region that has at least the size asked for and for which `Next` reports a positive size
(as it does for every region that is not empty and is smaller than `2^31` bytes), and for every
byte sequence `B` and bound `fuel ≥ len (B)` on the number of calls of `Next`: writing `B`
through a fresh writer (`Next`, fill the region, and `BackUp` of the unused tail of the last
region), releasing the writer and reading the committed contents of the sink through a reader
until `Next` returns false yields exactly `B`, and `ByteCount` is `len (B)` on the writer and on
the reader. -/
theorem round_trip (layout : Nat → Nat → List Nat) (blockSize fuel : Nat) (mem : Memory)
    (B : List Byte)
    (hsingle : ∀ i, ∃ s, layout i blockSize = [s] ∧ blockSize ≤ s ∧ 0 < to_int s)
    (hfuel : B.length ≤ fuel) :
    roundTrip layout blockSize fuel mem B = some (B, (B.length : Int), (B.length : Int)) := by
  obtain ⟨w0, hnew, hc0, hcnt0, hcm0, hready⟩ := Ready_new layout blockSize hsingle mem
  unfold roundTrip
  rw [hnew]
  cases B with
  | nil =>
    obtain ⟨t, ht, _, htc⟩ := readAll_new [] (by simp)
    have hser : serialize (Sink.ops layout) fuel w0 mem [] = some (w0, mem) := by
      cases fuel <;> rfl
    simp only [hser, ZeroCopyOutputStream.destroy, hc0, ne_eq, not_true_eq_false, if_false,
      hcm0, ht, ZeroCopyOutputStream.ByteCount, ZeroCopyInputStream.ByteCount, hcnt0, htc]
    rfl
  | cons b bs =>
    obtain ⟨w', mem', hs, hc, hb, hcnt, hfits⟩ :=
      serialize_spec layout blockSize hsingle fuel (b :: bs) w0 mem [] (by simp) hfuel hready
    obtain ⟨t, ht, _, htc⟩ := readAll_new w'.streambuf_.committed hfits
    have hlen : totalSize w'.streambuf_.committed = (b :: bs).length := by
      rw [← length_bytesOfAll mem', hb]; rfl
    simp only [hs, ZeroCopyOutputStream.destroy, hc, ne_eq, not_true_eq_false, if_false, ht,
      ZeroCopyOutputStream.ByteCount, ZeroCopyInputStream.ByteCount, hcnt, htc, hlen,
      ZeroCopyInputStream.chunksBytes_whole, hb, List.nil_append]

/-- Witness of C1, amended: the sink whose preparations are one region, one byte larger than
asked for, block size 2 (so the chunks have 3 bytes), and the seven bytes `1, ..., 7`. -/
theorem round_trip_witness :
    roundTrip (fun _ n => [n + 1]) 2 7 (fun _ => 0) [1, 2, 3, 4, 5, 6, 7] =
      some ([1, 2, 3, 4, 5, 6, 7], ((([1, 2, 3, 4, 5, 6, 7] : List Byte).length : Nat) : Int),
        ((([1, 2, 3, 4, 5, 6, 7] : List Byte).length : Nat) : Int)) :=
  round_trip (fun _ n => [n + 1]) 2 7 (fun _ => 0) [1, 2, 3, 4, 5, 6, 7]
    (fun _ => ⟨3, rfl, by decide, by decide⟩) (by decide)

end roundtrip

/-! ### The calls of the writer -/

section calls

@[simp] theorem commitAmounts_nil : commitAmounts [] = [] := rfl

theorem commitAmounts_append (xs ys : List SinkCall) :
    commitAmounts (xs ++ ys) = commitAmounts xs ++ commitAmounts ys := by
  induction xs with
  | nil => rfl
  | cons c cs ih => cases c <;> simp [commitAmounts, ih]

theorem committedBytes_append (xs ys : List SinkCall) :
    committedBytes (xs ++ ys) = committedBytes xs + committedBytes ys := by
  simp [committedBytes, commitAmounts_append]

@[simp] theorem committedBytes_commit (n : Nat) : committedBytes [SinkCall.commit n] = n := by
  simp [committedBytes, commitAmounts]

@[simp] theorem committedBytes_prepare (n : Nat) : committedBytes [SinkCall.prepare n] = 0 := by
  simp [committedBytes, commitAmounts]

@[simp] theorem committedBytes_nil : committedBytes [] = 0 := rfl

theorem nonzero_append (xs ys : List Nat) : nonzero (xs ++ ys) = nonzero xs ++ nonzero ys := by
  simp [nonzero]

theorem sum_nonzero (xs : List Nat) : (nonzero xs).sum = xs.sum := by
  induction xs with
  | nil => rfl
  | cons x xs ih =>
    by_cases h : x = 0
    · simp [nonzero, h] at ih ⊢; exact ih
    · simp [nonzero, h] at ih ⊢; exact ih

end calls

namespace ZeroCopyOutputStream

variable {σ : Type}

/-- What a call of `Next` that returns has done, over a sink with a record of calls. -/
theorem Next_logged (S : Streambuf σ) (w w' : ZeroCopyOutputStream (σ × List SinkCall))
    (ok : Bool) (r : chunk) (h : Next S.logged w = some (ok, r, w')) :
    ok = true ∧ w'.commit_ = to_size_t r.size ∧ w'.blockSize_ = w.blockSize_ ∧
    w'.count_ = w.count_ + to_int64 w.commit_ ∧
    w'.streambuf_.2 = w.streambuf_.2 ++
      (if w.commit_ ≠ 0 then [SinkCall.commit w.commit_] else []) ++
      (if w.pos_.atEnd then [SinkCall.prepare w.blockSize_] else []) ∧
    ∃ b before rest, r = ⟨b.data, to_int b.size⟩ ∧ w'.pos_ = ⟨b :: before, rest⟩ ∧
      (w.pos_.atEnd = false → w.pos_ = ⟨before, b :: rest⟩ ∧ w'.buffers_ = w.buffers_) ∧
      (w.pos_.atEnd = true → before = [] ∧ w'.buffers_ = b :: rest ∧
        ∃ sb sb', S.prepare sb w.blockSize_ = some (b :: rest, sb')) := by
  obtain ⟨⟨sb, log⟩, bs, cnt, cm, bufs, ⟨before, ahead⟩⟩ := w
  simp only [Next, Next.flush, Next.refill, Streambuf.logged, iterator.atEnd] at h ⊢
  by_cases hcm : cm = 0
  · subst hcm
    simp only [ne_eq, not_true_eq_false, if_false] at h ⊢
    cases ahead with
    | nil =>
      simp only [List.isEmpty_nil, if_true] at h ⊢
      cases hp : S.prepare sb bs with
      | none => simp [hp] at h
      | some res =>
        obtain ⟨bufs', sb'⟩ := res
        simp only [hp, iterator.begin] at h
        cases bufs' with
        | nil => simp at h
        | cons b rest =>
          simp only [Option.some.injEq, Prod.mk.injEq] at h
          obtain ⟨rfl, rfl, rfl⟩ := h
          refine ⟨rfl, rfl, rfl, by simp [to_int64], by simp, b, [], rest, rfl, rfl,
            by simp, ?_⟩
          intro _
          exact ⟨rfl, rfl, sb, sb', hp⟩
    | cons a rest =>
      simp only [List.isEmpty_cons, Bool.false_eq_true, if_false, Option.some.injEq,
        Prod.mk.injEq] at h ⊢
      obtain ⟨rfl, rfl, rfl⟩ := h
      refine ⟨rfl, rfl, rfl, by simp [to_int64], by simp, a, before, rest, rfl, rfl, ?_,
        by simp⟩
      intro _
      exact ⟨rfl, rfl⟩
  · simp only [ne_eq, hcm, not_false_eq_true, if_true] at h ⊢
    cases hc : S.commit sb cm with
    | none => simp [hc] at h
    | some sb1 =>
      simp only [hc] at h
      cases ahead with
      | nil =>
        simp only [List.isEmpty_nil, if_true] at h ⊢
        cases hp : S.prepare sb1 bs with
        | none => simp [hp] at h
        | some res =>
          obtain ⟨bufs', sb'⟩ := res
          simp only [hp, iterator.begin] at h
          cases bufs' with
          | nil => simp at h
          | cons b rest =>
            simp only [Option.some.injEq, Prod.mk.injEq] at h
            obtain ⟨rfl, rfl, rfl⟩ := h
            refine ⟨rfl, rfl, rfl, rfl, by simp, b, [], rest, rfl, rfl, by simp, ?_⟩
            intro _
            exact ⟨rfl, rfl, sb1, sb', hp⟩
      | cons a rest =>
        simp only [List.isEmpty_cons, Bool.false_eq_true, if_false, Option.some.injEq,
          Prod.mk.injEq] at h ⊢
        obtain ⟨rfl, rfl, rfl⟩ := h
        refine ⟨rfl, rfl, rfl, rfl, by simp, a, before, rest, rfl, rfl, ?_, by simp⟩
        intro _
        exact ⟨rfl, rfl⟩

/-- A call of `Next` faults when the sink rejects the commit of the pending amount. -/
theorem Next_rejected (S : Streambuf σ) (w : ZeroCopyOutputStream (σ × List SinkCall))
    (h0 : w.commit_ ≠ 0) (hc : S.commit w.streambuf_.1 w.commit_ = none) :
    Next S.logged w = none := by
  simp only [Next, Next.flush, Streambuf.logged, ne_eq, h0, not_false_eq_true, if_true, hc]

/-- What a call of `BackUp` within its precondition does, over a sink with a record of
calls. -/
theorem BackUp_logged (S : Streambuf σ) (w : ZeroCopyOutputStream (σ × List SinkCall))
    (k : Nat) (hk : k ≤ w.commit_) :
    BackUp S.logged w k =
      match S.commit w.streambuf_.1 (w.commit_ - k) with
      | none => none
      | some sb =>
        some
          { streambuf_ := (sb, w.streambuf_.2 ++ [SinkCall.commit (w.commit_ - k)])
            blockSize_ := w.blockSize_
            count_ := w.count_ + to_int64 (w.commit_ - k)
            commit_ := 0
            buffers_ := w.buffers_
            pos_ := w.pos_ } := by
  simp only [BackUp, to_size_t_natCast, hk, if_true, Streambuf.logged]
  cases S.commit w.streambuf_.1 (w.commit_ - k) <;> rfl

/-- What the destructor does, over a sink with a record of calls. -/
theorem destroy_logged (S : Streambuf σ) (w : ZeroCopyOutputStream (σ × List SinkCall)) :
    destroy S.logged w =
      if w.commit_ = 0 then some w.streambuf_
      else
        match S.commit w.streambuf_.1 w.commit_ with
        | none => none
        | some sb => some (sb, w.streambuf_.2 ++ [SinkCall.commit w.commit_]) := by
  by_cases h : w.commit_ = 0
  · simp [destroy, h]
  · simp only [destroy, ne_eq, h, not_false_eq_true, if_true, if_false, Streambuf.logged]

/-- What the constructor does, over a sink with a record of calls. -/
theorem new_logged (S : Streambuf σ) (k : σ × List SinkCall) (blockSize : Nat)
    (w : ZeroCopyOutputStream (σ × List SinkCall))
    (h : new S.logged k blockSize = some w) :
    w.commit_ = 0 ∧ w.count_ = 0 ∧ w.blockSize_ = blockSize ∧
    w.streambuf_.2 = k.2 ++ [SinkCall.prepare blockSize] ∧
    w.pos_ = iterator.begin w.buffers_ ∧
    ∃ sb sb', S.prepare sb blockSize = some (w.buffers_, sb') := by
  simp only [new, Streambuf.logged] at h
  cases hp : S.prepare k.1 blockSize with
  | none => simp [hp] at h
  | some res =>
    obtain ⟨bufs, sb'⟩ := res
    simp only [hp, Option.some.injEq] at h
    subst h
    exact ⟨rfl, rfl, rfl, rfl, rfl, k.1, sb', hp⟩

end ZeroCopyOutputStream

namespace ZeroCopyOutputStream

variable {σ : Type}

theorem nonzero_singleton (n : Nat) :
    nonzero [n] = if n ≠ 0 then [n] else [] := by
  by_cases h : n = 0 <;> simp [nonzero, h]

theorem commitAmounts_step (log : List SinkCall) (cm bs : Nat) (p : Bool) :
    commitAmounts (log ++ (if cm ≠ 0 then [SinkCall.commit cm] else []) ++
      (if p then [SinkCall.prepare bs] else [])) = commitAmounts log ++ nonzero [cm] := by
  rw [commitAmounts_append, commitAmounts_append, nonzero_singleton]
  by_cases h : cm = 0 <;> cases p <;> simp [h, commitAmounts]

theorem nonzero_nonzero (xs : List Nat) : nonzero (nonzero xs) = nonzero xs := by
  simp [nonzero]

theorem Frame_new (S : Streambuf σ) (streambuf : σ) (blockSize : Nat)
    (w : ZeroCopyOutputStream (σ × List SinkCall))
    (h : new S.logged (streambuf, []) blockSize = some w) : Frame blockSize w [] := by
  obtain ⟨hc, _, hb, hlog, hpos, _⟩ := new_logged S (streambuf, []) blockSize w h
  simp only [List.nil_append] at hlog
  refine ⟨Or.inl hc, hb, ?_, ?_⟩
  · intro n hn
    rw [hlog] at hn
    simpa using hn
  · rw [hpos]; simp [iterator.begin, iterator.sequence]

theorem Frame_Next (S : Streambuf σ) (blockSize : Nat)
    (w w' : ZeroCopyOutputStream (σ × List SinkCall)) (chunks : List (Int × Nat))
    (ok : Bool) (r : chunk) (hinv : Frame blockSize w chunks)
    (h : Next S.logged w = some (ok, r, w')) : Frame blockSize w' ((r.size, 0) :: chunks) := by
  obtain ⟨_, hc, hb, _, hlog, b, before, rest, _, hpos, hstay, hrefill⟩ :=
    Next_logged S w w' ok r h
  refine ⟨Or.inr ⟨r.size, chunks, rfl, hc⟩, hb.trans hinv.block, ?_, ?_⟩
  · intro n hn
    rw [hlog] at hn
    simp only [List.mem_append] at hn
    rcases hn with (hn | hn) | hn
    · exact hinv.prepares n hn
    · by_cases h0 : w.commit_ = 0 <;> simp [h0] at hn
    · cases hat : w.pos_.atEnd with
      | false => simp [hat] at hn
      | true =>
        simp only [hat, if_true, List.mem_singleton, SinkCall.prepare.injEq] at hn
        rw [hn, hinv.block]
  · cases hat : w.pos_.atEnd with
    | false =>
      obtain ⟨hw, hbufs⟩ := hstay hat
      have := hinv.cursor
      rw [hw] at this
      rw [hpos, hbufs, ← this]
      simp [iterator.sequence]
    | true =>
      obtain ⟨hbefore, hbufs, _⟩ := hrefill hat
      rw [hpos, hbufs, hbefore]
      simp [iterator.sequence]

theorem Frame_BackUp (S : Streambuf σ) (blockSize : Nat)
    (w w' : ZeroCopyOutputStream (σ × List SinkCall)) (chunks : List (Int × Nat))
    (k : Nat) (hinv : Frame blockSize w chunks) (hk : k ≤ w.commit_)
    (h : BackUp S.logged w k = some w') : Frame blockSize w' (backedUp k chunks) := by
  rw [BackUp_logged S w k hk] at h
  cases hc : S.commit w.streambuf_.1 (w.commit_ - k) with
  | none => simp [hc] at h
  | some sb =>
    simp only [hc, Option.some.injEq] at h
    subst h
    refine ⟨Or.inl rfl, hinv.block, ?_, hinv.cursor⟩
    intro n hn
    simp only [List.mem_append, List.mem_singleton] at hn
    rcases hn with hn | hn
    · exact hinv.prepares n hn
    · cases hn

theorem Trace.frame {S : Streambuf σ} {streambuf : σ} {blockSize : Nat}
    {w : ZeroCopyOutputStream (σ × List SinkCall)} {chunks : List (Int × Nat)}
    (h : Trace S streambuf blockSize w chunks) : Frame blockSize w chunks := by
  induction h with
  | new hnew => exact Frame_new S streambuf blockSize _ hnew
  | next _ hnext ih => exact Frame_Next S blockSize _ _ _ _ _ ih hnext
  | backUp k _ hk hb ih => exact Frame_BackUp S blockSize _ _ _ k ih hk hb

theorem Inv.to_frame {blockSize : Nat} {w : ZeroCopyOutputStream (σ × List SinkCall)}
    {chunks : List (Int × Nat)} (h : Inv blockSize w chunks) : Frame blockSize w chunks := by
  refine ⟨?_, h.block, h.prepares, h.cursor⟩
  rcases h.pending with h0 | ⟨cs, hcs⟩
  · exact Or.inl h0
  · exact Or.inr ⟨_, cs, hcs, (to_size_t_natCast _).symm⟩

theorem Inv_new (S : Streambuf σ) (streambuf : σ) (blockSize : Nat)
    (w : ZeroCopyOutputStream (σ × List SinkCall))
    (h : new S.logged (streambuf, []) blockSize = some w) : Inv blockSize w [] := by
  obtain ⟨hc, hcount, hb, hlog, hpos, _⟩ := new_logged S (streambuf, []) blockSize w h
  have hf := Frame_new S streambuf blockSize w h
  simp only [List.nil_append] at hlog
  refine ⟨?_, Or.inl hc, by simp, by omega, ?_, hb, hf.prepares, hf.cursor⟩
  · simp [hlog, hc, commitAmounts, nonzero]
  · simp [hcount, hlog]

theorem Inv_Next (S : Streambuf σ) (blockSize : Nat)
    (w w' : ZeroCopyOutputStream (σ × List SinkCall)) (chunks : List (Int × Nat))
    (ok : Bool) (r : chunk) (hinv : Inv blockSize w chunks)
    (h : Next S.logged w = some (ok, r, w')) (hnn : 0 ≤ r.size) :
    Inv blockSize w' ((r.size, 0) :: chunks) := by
  obtain ⟨_, hc, hb, hcount, hlog, b, before, rest, hr, hpos, hstay, hrefill⟩ :=
    Next_logged S w w' ok r h
  have hf := Frame_Next S blockSize w w' chunks ok r hinv.to_frame h
  rw [to_size_t_of_nonneg _ hnn] at hc
  have hlt : r.size < 2147483648 := by rw [hr]; exact to_int_lt b.size
  refine ⟨?_, Or.inr ⟨chunks, ?_⟩, ?_, by omega, ?_, hf.block, hf.prepares, hf.cursor⟩
  · rw [hlog, commitAmounts_step, nonzero_append, nonzero_nonzero, hinv.commits, hc]
    simp [nonzero_append, kept]
  · rw [hc, Int.toNat_of_nonneg hnn]
  · intro c hcmem
    rcases List.mem_cons.mp hcmem with rfl | hmem
    · simpa using hnn
    · exact hinv.bounded c hmem
  · rw [hcount, hinv.count, hlog, committedBytes, committedBytes, commitAmounts_step,
      List.sum_append, sum_nonzero, to_int64_of_lt _ hinv.small]
    simp

theorem Inv_BackUp (S : Streambuf σ) (blockSize : Nat)
    (w w' : ZeroCopyOutputStream (σ × List SinkCall)) (chunks : List (Int × Nat))
    (k : Nat) (hinv : Inv blockSize w chunks) (hk : k ≤ w.commit_)
    (h : BackUp S.logged w k = some w') : Inv blockSize w' (backedUp k chunks) := by
  have hf := Frame_BackUp S blockSize w w' chunks k hinv.to_frame hk h
  rw [BackUp_logged S w k hk] at h
  cases hc : S.commit w.streambuf_.1 (w.commit_ - k) with
  | none => simp [hc] at h
  | some sb =>
    simp only [hc, Option.some.injEq] at h
    subst h
    have hcommits := hinv.commits
    refine ⟨?_, Or.inl rfl, ?_, by simp, ?_, hf.block, hf.prepares, hf.cursor⟩
    · simp only [commitAmounts_append, nonzero_append]
      rcases hinv.pending with h0 | ⟨cs, hcs⟩
      · have hk0 : k = 0 := by omega
        subst hk0
        have hb : backedUp 0 chunks = chunks := by
          cases chunks with
          | nil => rfl
          | cons c cs => simp [backedUp]
        rw [hb, ← hcommits, h0]
        simp [commitAmounts, nonzero]
      · subst hcs
        simp only [List.reverse_cons, List.map_append, List.map_cons, List.map_nil,
          nonzero_append, kept, Int.toNat_ofNat] at hcommits
        have hlog := List.append_cancel_right hcommits
        simp only [backedUp, List.reverse_cons, List.map_append, List.map_cons, List.map_nil,
          nonzero_append, kept, hlog, commitAmounts, Nat.zero_add, Int.toNat_ofNat]
        simp [nonzero]
    · intro c hcmem
      rcases hinv.pending with h0 | ⟨cs, hcs⟩
      · have hk0 : k = 0 := by omega
        subst hk0
        cases chunks with
        | nil => simp [backedUp] at hcmem
        | cons d ds =>
          simp only [backedUp, Nat.add_zero, List.mem_cons] at hcmem
          rcases hcmem with rfl | hmem
          · exact hinv.bounded d (List.mem_cons_self _ _)
          · exact hinv.bounded c (List.mem_cons_of_mem _ hmem)
      · subst hcs
        simp only [backedUp, List.mem_cons] at hcmem
        rcases hcmem with rfl | hmem
        · simpa using hk
        · exact hinv.bounded c (List.mem_cons_of_mem _ hmem)
    · simp only [hinv.count, committedBytes_append, committedBytes_commit,
        to_int64_of_lt _ (Nat.lt_of_le_of_lt (Nat.sub_le _ k) hinv.small)]
      push_cast; rfl

theorem nonneg_of_backedUp (k : Nat) (chunks : List (Int × Nat))
    (h : ∀ c ∈ backedUp k chunks, 0 ≤ c.1) : ∀ c ∈ chunks, 0 ≤ c.1 := by
  cases chunks with
  | nil => simp
  | cons d ds =>
    intro c hc
    rcases List.mem_cons.mp hc with rfl | hmem
    · exact h (c.1, c.2 + k) (by simp [backedUp])
    · exact h c (by simp [backedUp, hmem])

theorem Trace.inv {S : Streambuf σ} {streambuf : σ} {blockSize : Nat}
    {w : ZeroCopyOutputStream (σ × List SinkCall)} {chunks : List (Int × Nat)}
    (h : Trace S streambuf blockSize w chunks) (hnn : ∀ c ∈ chunks, 0 ≤ c.1) :
    Inv blockSize w chunks := by
  induction h with
  | new hnew => exact Inv_new S streambuf blockSize _ hnew
  | @next w w' chunks ok r _ hnext ih =>
    exact Inv_Next S blockSize _ _ _ _ _
      (ih (fun c hc => hnn c (List.mem_cons_of_mem _ hc))) hnext
      (hnn (r.size, 0) (List.mem_cons_self _ _))
  | @backUp w w' chunks k _ hk hb ih =>
    exact Inv_BackUp S blockSize _ _ _ k (ih (nonneg_of_backedUp k chunks hnn)) hk hb

theorem sum_kept (chunks : List (Int × Nat)) (h : ∀ c ∈ chunks, (c.2 : Int) ≤ c.1) :
    (((chunks.map kept).sum : Nat) : Int) + ((chunks.map Prod.snd).sum : Nat) =
      (chunks.map Prod.fst).sum := by
  induction chunks with
  | nil => rfl
  | cons c cs ih =>
    have h1 := h c (List.mem_cons_self _ _)
    have h2 := ih (fun d hd => h d (List.mem_cons_of_mem _ hd))
    simp only [List.map_cons, List.sum_cons, kept] at h2 ⊢
    omega

theorem Inv.committed_total {blockSize : Nat} {w : ZeroCopyOutputStream (σ × List SinkCall)}
    {chunks : List (Int × Nat)} (h : Inv blockSize w chunks) :
    committedBytes w.streambuf_.2 + w.commit_ = (chunks.map kept).sum := by
  have := congrArg List.sum h.commits
  rw [List.sum_append, sum_nonzero, sum_nonzero, sum_nonzero, List.map_reverse,
    List.sum_reverse] at this
  simpa [committedBytes] using this

end ZeroCopyOutputStream

/-! ### The claims about `ZeroCopyOutputStream` -/

namespace ZeroCopyOutputStream

variable {σ : Type}

theorem bump0_new : new Streambuf.bump.logged (1, []) 4 = some bump0 := rfl

theorem bump0_Next : Next Streambuf.bump.logged bump0 = some (true, ⟨1, 4⟩, bump1) := rfl

theorem bump1_Next : Next Streambuf.bump.logged bump1 = some (true, ⟨5, 4⟩, bump2) := rfl

theorem committedBytes_Next (S : Streambuf σ) (w w' : ZeroCopyOutputStream (σ × List SinkCall))
    (ok : Bool) (r : chunk) (h : Next S.logged w = some (ok, r, w')) :
    committedBytes w'.streambuf_.2 = committedBytes w.streambuf_.2 + w.commit_ := by
  obtain ⟨_, _, _, _, hlog, _⟩ := Next_logged S w w' ok r h
  rw [hlog, committedBytes, committedBytes, commitAmounts_step, List.sum_append, sum_nonzero]
  simp

theorem flush_logged (S : Streambuf σ) (w : ZeroCopyOutputStream (σ × List SinkCall))
    (hcommit : w.commit_ ≠ 0 → ∃ sb, S.commit w.streambuf_.1 w.commit_ = some sb) :
    ∃ w1, Next.flush S.logged w = some w1 ∧ w1.blockSize_ = w.blockSize_ ∧
      w1.pos_ = w.pos_ ∧ w1.buffers_ = w.buffers_ ∧
      committedBytes w1.streambuf_.2 = committedBytes w.streambuf_.2 + w.commit_ := by
  by_cases hcm : w.commit_ = 0
  · exact ⟨w, by simp [Next.flush, hcm], rfl, rfl, rfl, by simp [hcm]⟩
  · obtain ⟨sb', hc⟩ := hcommit hcm
    refine ⟨{ w with streambuf_ := (sb', w.streambuf_.2 ++ [SinkCall.commit w.commit_]),
                     count_ := w.count_ + to_int64 w.commit_ }, ?_, rfl, rfl, rfl, ?_⟩
    · simp only [Next.flush, ne_eq, hcm, not_false_eq_true, if_true, Streambuf.logged, hc]
    · simp [committedBytes_append]

/-- C11, counterexample: over the sink of the spec with preparations of two regions of 2 bytes
and block size 4, the second `Next` returns the chunk `(3, 2)` and leaves 2 bytes pending; the
sink has discarded the rest of the preparation, so the following `Next` faults and so does the
release: neither commits a byte for that chunk.  Over the sink `Streambuf.bump` with block size
`2^31` the first `Next` returns a chunk of size `-2^31`, and the following `Next` commits
`2^64 - 2^31` bytes. -/
theorem deferred_commit_counterexample :
    (∃ w0 w1 w2,
      new (Sink.ops (fun _ _ => [2, 2])).logged (Sink.empty 1, []) 4 = some w0 ∧
      Next (Sink.ops (fun _ _ => [2, 2])).logged w0 = some (true, ⟨1, 2⟩, w1) ∧
      Next (Sink.ops (fun _ _ => [2, 2])).logged w1 = some (true, ⟨3, 2⟩, w2) ∧
      w2.commit_ = 2 ∧
      Next (Sink.ops (fun _ _ => [2, 2])).logged w2 = none ∧
      destroy (Sink.ops (fun _ _ => [2, 2])).logged w2 = none) ∧
    (∃ w0 w1 w2,
      new Streambuf.bump.logged (1, []) 2147483648 = some w0 ∧
      Next Streambuf.bump.logged w0 = some (true, ⟨1, -2147483648⟩, w1) ∧
      w1.commit_ = 18446744071562067968 ∧
      Next Streambuf.bump.logged w1 = some (true, ⟨2147483649, -2147483648⟩, w2) ∧
      committedBytes w2.streambuf_.2 =
        committedBytes w1.streambuf_.2 + 18446744071562067968) :=
  ⟨⟨_, _, _, rfl, rfl, rfl, rfl, rfl, rfl⟩, ⟨_, _, _, rfl, rfl, rfl, rfl, by decide⟩⟩

/-- C11, amended: when `Next` returns a chunk whose reported size `n` is not negative, the only
`commit` that call issues is that of the pending amount of the chunk before, so it commits no
byte of the new chunk, whose size is now pending.  If the sink accepts the commit of `n` bytes,
the first statement of the following `Next`, and likewise the release, commits exactly `n` bytes
more, and so has every following `Next` that returns; if the sink rejects it (and `n` is not
zero), the following `Next` and the release fault.  If instead `BackUp (k)` with `k ≤ n` is
called, it issues one `commit`, of `n - k` bytes, and returns if and only if the sink accepts
it; the `Next` or the release that follows commits nothing more, and that release always
returns. -/
theorem deferred_commit (S : Streambuf σ) (w w1 : ZeroCopyOutputStream (σ × List SinkCall))
    (ok : Bool) (r : chunk) (h : Next S.logged w = some (ok, r, w1)) (hnn : 0 ≤ r.size) :
    w1.streambuf_.2 = w.streambuf_.2 ++
      (if w.commit_ ≠ 0 then [SinkCall.commit w.commit_] else []) ++
      (if w.pos_.atEnd then [SinkCall.prepare w.blockSize_] else []) ∧
    committedBytes w1.streambuf_.2 = committedBytes w.streambuf_.2 + w.commit_ ∧
    w1.commit_ = r.size.toNat ∧
    (∀ ok2 r2 w2, Next S.logged w1 = some (ok2, r2, w2) →
      committedBytes w2.streambuf_.2 = committedBytes w1.streambuf_.2 + r.size.toNat) ∧
    (∀ sb, S.commit w1.streambuf_.1 r.size.toNat = some sb →
      ∃ w1', Next.flush S.logged w1 = some w1' ∧
        committedBytes w1'.streambuf_.2 = committedBytes w1.streambuf_.2 + r.size.toNat) ∧
    (∀ k, destroy S.logged w1 = some k →
      committedBytes k.2 = committedBytes w1.streambuf_.2 + r.size.toNat) ∧
    (∀ sb, S.commit w1.streambuf_.1 r.size.toNat = some sb →
      ∃ k, destroy S.logged w1 = some k) ∧
    (r.size ≠ 0 → S.commit w1.streambuf_.1 r.size.toNat = none →
      Next S.logged w1 = none ∧ destroy S.logged w1 = none) ∧
    (∀ k : Nat, (k : Int) ≤ r.size →
      (∀ sb, S.commit w1.streambuf_.1 (r.size.toNat - k) = some sb →
        ∃ w2, BackUp S.logged w1 k = some w2) ∧
      (S.commit w1.streambuf_.1 (r.size.toNat - k) = none → BackUp S.logged w1 k = none) ∧
      ∀ w2, BackUp S.logged w1 k = some w2 →
        w2.streambuf_.2 = w1.streambuf_.2 ++ [SinkCall.commit (r.size.toNat - k)] ∧
        committedBytes w2.streambuf_.2 =
          committedBytes w1.streambuf_.2 + (r.size.toNat - k) ∧
        (∀ ok3 r3 w3, Next S.logged w2 = some (ok3, r3, w3) →
          committedBytes w3.streambuf_.2 = committedBytes w2.streambuf_.2) ∧
        destroy S.logged w2 = some w2.streambuf_) := by
  obtain ⟨_, hc, _, _, hlog, _⟩ := Next_logged S w w1 ok r h
  rw [to_size_t_of_nonneg _ hnn] at hc
  refine ⟨hlog, committedBytes_Next S w w1 ok r h, hc, ?_, ?_, ?_, ?_, ?_, ?_⟩
  · intro ok2 r2 w2 h2
    rw [committedBytes_Next S w1 w2 ok2 r2 h2, hc]
  · intro sb hsb
    obtain ⟨w1', hf, _, _, _, hcb⟩ := flush_logged S w1 (fun _ => ⟨sb, by rw [hc]; exact hsb⟩)
    exact ⟨w1', hf, by rw [hcb, hc]⟩
  · intro k hk
    rw [destroy_logged] at hk
    by_cases h0 : w1.commit_ = 0
    · rw [if_pos h0] at hk
      cases hk
      omega
    · rw [if_neg h0] at hk
      cases hcm : S.commit w1.streambuf_.1 w1.commit_ with
      | none => simp [hcm] at hk
      | some sb =>
        simp only [hcm, Option.some.injEq] at hk
        subst hk
        simp [committedBytes_append, hc]
  · intro sb hsb
    rw [destroy_logged]
    by_cases h0 : w1.commit_ = 0
    · exact ⟨_, if_pos h0⟩
    · rw [if_neg h0, hc, hsb]
      exact ⟨_, rfl⟩
  · intro h0 hrej
    have h0' : w1.commit_ ≠ 0 := by omega
    rw [← hc] at hrej
    refine ⟨Next_rejected S w1 h0' hrej, ?_⟩
    rw [destroy_logged, if_neg h0', hrej]
  · intro k hk
    have hk' : k ≤ w1.commit_ := by omega
    refine ⟨?_, ?_, ?_⟩
    · intro sb hsb
      rw [BackUp_logged S w1 k hk', hc, hsb]
      exact ⟨_, rfl⟩
    · intro hrej
      rw [BackUp_logged S w1 k hk', hc, hrej]
    · intro w2 h2
      rw [BackUp_logged S w1 k hk'] at h2
      cases hcm : S.commit w1.streambuf_.1 (w1.commit_ - k) with
      | none => simp [hcm] at h2
      | some sb =>
        simp only [hcm, Option.some.injEq] at h2
        subst h2
        refine ⟨by simp [hc], by simp [committedBytes_append, hc], ?_, ?_⟩
        · intro ok3 r3 w3 h3
          rw [committedBytes_Next S _ w3 ok3 r3 h3]
          rfl
        · rw [destroy_logged]
          rfl

/-- Witness of C11, amended: over the sink `Streambuf.bump`, the `Next` that takes the writer
`bump1`, with 4 bytes pending, to `bump2` and hands out the region `(5, 4)`. -/
theorem deferred_commit_witness :
    Next Streambuf.bump.logged bump1 = some (true, ⟨5, 4⟩, bump2) ∧
    bump2.streambuf_.2 = bump1.streambuf_.2 ++
      (if bump1.commit_ ≠ 0 then [SinkCall.commit bump1.commit_] else []) ++
      (if bump1.pos_.atEnd then [SinkCall.prepare bump1.blockSize_] else []) ∧
    committedBytes bump2.streambuf_.2 = committedBytes bump1.streambuf_.2 + bump1.commit_ ∧
    bump2.commit_ = 4 ∧
    (∀ ok2 r2 w2, Next Streambuf.bump.logged bump2 = some (ok2, r2, w2) →
      committedBytes w2.streambuf_.2 = committedBytes bump2.streambuf_.2 + 4) ∧
    (∀ sb, Streambuf.bump.commit bump2.streambuf_.1 4 = some sb →
      ∃ w1', Next.flush Streambuf.bump.logged bump2 = some w1' ∧
        committedBytes w1'.streambuf_.2 = committedBytes bump2.streambuf_.2 + 4) ∧
    (∀ k, destroy Streambuf.bump.logged bump2 = some k →
      committedBytes k.2 = committedBytes bump2.streambuf_.2 + 4) ∧
    (∀ sb, Streambuf.bump.commit bump2.streambuf_.1 4 = some sb →
      ∃ k, destroy Streambuf.bump.logged bump2 = some k) ∧
    ((4 : Int) ≠ 0 → Streambuf.bump.commit bump2.streambuf_.1 4 = none →
      Next Streambuf.bump.logged bump2 = none ∧ destroy Streambuf.bump.logged bump2 = none) ∧
    (∀ k : Nat, (k : Int) ≤ 4 →
      (∀ sb, Streambuf.bump.commit bump2.streambuf_.1 (4 - k) = some sb →
        ∃ w2, BackUp Streambuf.bump.logged bump2 k = some w2) ∧
      (Streambuf.bump.commit bump2.streambuf_.1 (4 - k) = none →
        BackUp Streambuf.bump.logged bump2 k = none) ∧
      ∀ w2, BackUp Streambuf.bump.logged bump2 k = some w2 →
        w2.streambuf_.2 = bump2.streambuf_.2 ++ [SinkCall.commit (4 - k)] ∧
        committedBytes w2.streambuf_.2 = committedBytes bump2.streambuf_.2 + (4 - k) ∧
        (∀ ok3 r3 w3, Next Streambuf.bump.logged w2 = some (ok3, r3, w3) →
          committedBytes w3.streambuf_.2 = committedBytes w2.streambuf_.2) ∧
        destroy Streambuf.bump.logged w2 = some w2.streambuf_) :=
  ⟨bump1_Next, deferred_commit Streambuf.bump bump1 bump2 true ⟨5, 4⟩ bump1_Next (by decide)⟩

end ZeroCopyOutputStream

namespace ZeroCopyOutputStream

variable {σ : Type}

theorem Sink_first_chunk (layout : Nat → Nat → List Nat) (base blockSize : Nat)
    (w0 w1 : ZeroCopyOutputStream Sink) (ok : Bool) (r : chunk)
    (hnew : new (Sink.ops layout) (Sink.empty base) blockSize = some w0)
    (hnext : Next (Sink.ops layout) w0 = some (ok, r, w1)) :
    w1.streambuf_.committed = [] ∧ w1.commit_ = to_size_t r.size ∧
      ∃ b rest, w1.streambuf_.prepared = b :: rest ∧ r = ⟨b.data, to_int b.size⟩ := by
  simp only [new, Sink.ops, Sink.prepare, Sink.empty] at hnew
  by_cases h0 : blockSize ≤ (layout 0 blockSize).sum
  · simp only [h0, if_true, Option.some.injEq] at hnew
    subst hnew
    simp only [Next, Next.flush, Next.refill, Sink.ops, Sink.prepare, iterator.atEnd,
      iterator.begin, ne_eq, not_true_eq_false, if_false] at hnext
    cases hl : layout 0 blockSize with
    | nil =>
      simp only [hl, Sink.carve, List.isEmpty_nil, if_true, List.sum_nil, Nat.add_zero,
        Nat.zero_add] at hnext
      by_cases h1 : blockSize ≤ (layout 1 blockSize).sum
      · simp only [h1, if_true] at hnext
        cases hl1 : layout 1 blockSize with
        | nil => simp [hl1, Sink.carve] at hnext
        | cons s ss =>
          simp only [hl1, Sink.carve, Option.some.injEq, Prod.mk.injEq] at hnext
          obtain ⟨_, rfl, rfl⟩ := hnext
          exact ⟨rfl, rfl, _, _, rfl, rfl⟩
      · simp [h1] at hnext
    | cons s ss =>
      simp only [hl, Sink.carve, List.isEmpty_cons, Bool.false_eq_true, if_false,
        Option.some.injEq, Prod.mk.injEq] at hnext
      obtain ⟨_, rfl, rfl⟩ := hnext
      exact ⟨rfl, rfl, _, _, rfl, rfl⟩
  · simp [h0] at hnew

/-- C12, counterexample: over the sink of the spec whose preparation for block size `2^31` is
one region of `2^31` bytes, a writer is constructed and its first `Next` returns the chunk
`(1, -2^31)` and leaves `2^64 - 2^31` pending; the release then faults, and nothing is
committed.  Over the sink `Streambuf.bump` the same release passes `2^64 - 2^31` bytes to
`commit`. -/
theorem release_flush_counterexample :
    (∃ w0 w1, new (Sink.ops (fun _ n => [n])) (Sink.empty 1) 2147483648 = some w0 ∧
      Next (Sink.ops (fun _ n => [n])) w0 = some (true, ⟨1, -2147483648⟩, w1) ∧
      w1.commit_ = 18446744071562067968 ∧
      destroy (Sink.ops (fun _ n => [n])) w1 = none) ∧
    (∃ w0 w1 k, new Streambuf.bump.logged (1, []) 2147483648 = some w0 ∧
      Next Streambuf.bump.logged w0 = some (true, ⟨1, -2147483648⟩, w1) ∧
      destroy Streambuf.bump.logged w1 = some k ∧
      committedBytes k.2 = 18446744071562067968) :=
  ⟨⟨_, _, rfl, rfl, rfl, rfl⟩, ⟨_, _, _, rfl, rfl, rfl, by decide⟩⟩

/-- C12, amended: releasing a writer whose pending amount is not zero calls `commit` of the sink
once, with exactly the pending amount, and faults only if that call does; releasing a writer
whose pending amount is zero calls nothing.  A writer that is constructed, hands out by `Next`
one chunk whose reported size `n` is not negative, and is released has passed exactly `n` bytes
to `commit`; over the sink of the spec that release is accepted and leaves exactly the `n` bytes
of the chunk committed. -/
theorem release_flush (S : Streambuf σ) (w : ZeroCopyOutputStream (σ × List SinkCall)) :
    (w.commit_ ≠ 0 → ∀ sb, S.commit w.streambuf_.1 w.commit_ = some sb →
      destroy S.logged w = some (sb, w.streambuf_.2 ++ [SinkCall.commit w.commit_])) ∧
    (w.commit_ ≠ 0 → S.commit w.streambuf_.1 w.commit_ = none → destroy S.logged w = none) ∧
    (w.commit_ = 0 → destroy S.logged w = some w.streambuf_) ∧
    (∀ streambuf blockSize w0 ok r w1 k,
      new S.logged (streambuf, []) blockSize = some w0 →
      Next S.logged w0 = some (ok, r, w1) → 0 ≤ r.size → destroy S.logged w1 = some k →
      commitAmounts k.2 = nonzero [r.size.toNat] ∧ committedBytes k.2 = r.size.toNat) ∧
    (∀ layout base blockSize w0 ok r w1 mem,
      new (Sink.ops layout) (Sink.empty base) blockSize = some w0 →
      Next (Sink.ops layout) w0 = some (ok, r, w1) → 0 ≤ r.size →
      ∃ sink, destroy (Sink.ops layout) w1 = some sink ∧
        totalSize sink.committed = r.size.toNat ∧
        bytesOfAll mem sink.committed = chunkBytes mem r) := by
  refine ⟨?_, ?_, ?_, ?_, ?_⟩
  · intro h0 sb hsb
    rw [destroy_logged, if_neg h0, hsb]
  · intro h0 hsb
    rw [destroy_logged, if_neg h0, hsb]
  · intro h0
    rw [destroy_logged, if_pos h0]
  · intro streambuf blockSize w0 ok r w1 k hnew hnext hnn hrel
    obtain ⟨hc0, _, _, hlog0, _⟩ := new_logged S (streambuf, []) blockSize w0 hnew
    obtain ⟨_, hc1, _, _, hlog1, _⟩ := Next_logged S w0 w1 ok r hnext
    rw [to_size_t_of_nonneg _ hnn] at hc1
    have hca : commitAmounts w1.streambuf_.2 = [] := by
      rw [hlog1, commitAmounts_step, hlog0, hc0]
      simp [commitAmounts, nonzero]
    rw [destroy_logged] at hrel
    by_cases h0 : w1.commit_ = 0
    · rw [if_pos h0] at hrel
      cases hrel
      rw [committedBytes, hca, ← hc1, h0]
      simp [nonzero]
    · rw [if_neg h0] at hrel
      cases hcm : S.commit w1.streambuf_.1 w1.commit_ with
      | none => simp [hcm] at hrel
      | some sb =>
        simp only [hcm, Option.some.injEq] at hrel
        subst hrel
        rw [committedBytes, commitAmounts_append, hca, ← hc1]
        simp [commitAmounts, nonzero, h0]
  · intro layout base blockSize w0 ok r w1 mem hnew hnext hnn
    obtain ⟨hcm, hc, b, rest, hprep, hr⟩ :=
      Sink_first_chunk layout base blockSize w0 w1 ok r hnew hnext
    rw [to_size_t_of_nonneg _ hnn] at hc
    have hle : r.size.toNat ≤ b.size := by
      have := to_int_le b.size
      rw [hr]; simp only; omega
    by_cases h0 : r.size.toNat = 0
    · refine ⟨w1.streambuf_, ?_, ?_, ?_⟩
      · simp [destroy, hc, h0]
      · rw [hcm, h0]; rfl
      · rw [hcm]; simp [chunkBytes, h0]
    · refine ⟨{ w1.streambuf_ with committed := [⟨b.data, r.size.toNat⟩], prepared := [] },
        ?_, ?_, ?_⟩
      · simp only [destroy, Sink.ops, Sink.commit, hc, ne_eq, h0, not_false_eq_true, if_true,
          hprep, Sink.capacity, List.map_cons, List.sum_cons, hcm,
          List.nil_append, Sink.takeBytes, if_false, hle, Nat.le_add_right_of_le]
      · simp
      · rw [hr]; simp [chunkBytes, bytesOf]

/-- Witness of C12, amended: over the sink `Streambuf.bump`, the writer `bump0` is fresh, its
`Next` hands out the region `(1, 4)` and leads to `bump1`, whose release calls `commit (4)`
once. -/
theorem release_flush_witness :
    new Streambuf.bump.logged (1, []) 4 = some bump0 ∧
    Next Streambuf.bump.logged bump0 = some (true, ⟨1, 4⟩, bump1) ∧
    destroy Streambuf.bump.logged bump1 =
      some (5, [SinkCall.prepare 4] ++ [SinkCall.commit 4]) ∧
    destroy Streambuf.bump.logged bump0 = some bump0.streambuf_ ∧
    commitAmounts ([SinkCall.prepare 4] ++ [SinkCall.commit 4]) = nonzero [4] ∧
    committedBytes ([SinkCall.prepare 4] ++ [SinkCall.commit 4]) = 4 :=
  ⟨bump0_new, bump0_Next,
    (release_flush Streambuf.bump bump1).1 (by decide) 5 rfl,
    (release_flush Streambuf.bump bump0).2.2.1 rfl,
    ((release_flush Streambuf.bump bump0).2.2.2.1 1 4 bump0 true ⟨1, 4⟩ bump1 _
      bump0_new bump0_Next (by decide)
      ((release_flush Streambuf.bump bump1).1 (by decide) 5 rfl)).1,
    ((release_flush Streambuf.bump bump0).2.2.2.1 1 4 bump0 true ⟨1, 4⟩ bump1 _
      bump0_new bump0_Next (by decide)
      ((release_flush Streambuf.bump bump1).1 (by decide) 5 rfl)).2⟩

/-- C13, counterexample: over the sink of the spec with preparations of two regions of 2 bytes
and block size 4, the calls construction, `Next`, `Next` all return and hand out the chunks
`(1, 2)` and `(3, 2)`; the release then faults, and over the lifetime of the writer 2 bytes were
committed, not the 4 bytes of the two chunks.  Over the sink `Streambuf.bump` with block size
`2^31`, construction, `Next` and the release all return; the one chunk handed out has the size
`-2^31`, and `2^64 - 2^31` bytes are committed. -/
theorem committed_exactly_once_counterexample :
    (∃ w2, Trace (Sink.ops (fun _ _ => [2, 2])) (Sink.empty 1) 4 w2 [(2, 0), (2, 0)] ∧
      destroy (Sink.ops (fun _ _ => [2, 2])).logged w2 = none ∧
      committedBytes w2.streambuf_.2 = 2) ∧
    (∃ w1 k, Trace Streambuf.bump 1 2147483648 w1 [(-2147483648, 0)] ∧
      destroy Streambuf.bump.logged w1 = some k ∧
      committedBytes k.2 = 18446744071562067968) := by
  refine ⟨⟨_, Trace.next (r := ⟨3, 2⟩) (Trace.next (r := ⟨1, 2⟩) (Trace.new rfl) rfl) rfl,
    rfl, by decide⟩,
    ⟨_, _, Trace.next (r := ⟨1, -2147483648⟩) (Trace.new rfl) rfl, rfl, by decide⟩⟩

/-- C13, amended: for every sequence of calls of `Next` and of `BackUp (k)` with `0 ≤ k ≤` the
pending amount on a fresh writer, followed by the release, in which every call returns (the sink
accepts every commit) and no chunk is reported with a negative size: the nonzero amounts passed
to `commit` over the lifetime of the writer are, in order, the nonzero kept parts `n_i - k_i` of
the chunks handed out, one call for each; no more is backed up for a chunk than its size; and
the total number of bytes committed is the sum of the `n_i - k_i`, which is the sum of the sizes
less the sum of the amounts backed up. -/
theorem committed_exactly_once (S : Streambuf σ) (streambuf : σ) (blockSize : Nat)
    (w : ZeroCopyOutputStream (σ × List SinkCall)) (chunks : List (Int × Nat))
    (k : σ × List SinkCall) (h : Trace S streambuf blockSize w chunks)
    (hnn : ∀ c ∈ chunks, 0 ≤ c.1) (hrel : destroy S.logged w = some k) :
    nonzero (commitAmounts k.2) = nonzero (chunks.reverse.map kept) ∧
    (∀ c ∈ chunks, (c.2 : Int) ≤ c.1) ∧
    committedBytes k.2 = (chunks.map kept).sum ∧
    ((committedBytes k.2 : Nat) : Int) + ((chunks.map Prod.snd).sum : Nat) =
      (chunks.map Prod.fst).sum := by
  have hinv := h.inv hnn
  have hlog : nonzero (commitAmounts k.2) = nonzero (chunks.reverse.map kept) := by
    rw [← hinv.commits]
    rw [destroy_logged] at hrel
    by_cases h0 : w.commit_ = 0
    · rw [if_pos h0] at hrel
      cases hrel
      simp [h0, nonzero]
    · rw [if_neg h0] at hrel
      cases hcm : S.commit w.streambuf_.1 w.commit_ with
      | none => simp [hcm] at hrel
      | some sb =>
        simp only [hcm, Option.some.injEq] at hrel
        subst hrel
        simp [commitAmounts_append, nonzero_append, commitAmounts]
  have hsum : committedBytes k.2 = (chunks.map kept).sum := by
    have := congrArg List.sum hlog
    rw [sum_nonzero, sum_nonzero, List.map_reverse, List.sum_reverse] at this
    exact this
  refine ⟨hlog, hinv.bounded, hsum, ?_⟩
  rw [hsum]
  exact sum_kept chunks hinv.bounded

/-- Witness of C13, amended: over the sink `Streambuf.bump`: construction, `Next`, `Next`,
`BackUp (1)`, release; the chunks have sizes 4 and 4, 1 byte is backed up for the second, and
the amounts committed are 4 and 3. -/
theorem committed_exactly_once_witness :
    nonzero (commitAmounts
        [SinkCall.prepare 4, SinkCall.commit 4, SinkCall.prepare 4, SinkCall.commit 3]) =
      nonzero ((backedUp 1 [(4, 0), (4, 0)]).reverse.map kept) ∧
    (∀ c ∈ backedUp 1 [(4, 0), (4, 0)], (c.2 : Int) ≤ c.1) ∧
    committedBytes
        [SinkCall.prepare 4, SinkCall.commit 4, SinkCall.prepare 4, SinkCall.commit 3] =
      ((backedUp 1 [(4, 0), (4, 0)]).map kept).sum ∧
    ((committedBytes
        [SinkCall.prepare 4, SinkCall.commit 4, SinkCall.prepare 4, SinkCall.commit 3] : Nat) :
          Int) + ((((backedUp 1 [(4, 0), (4, 0)]).map Prod.snd).sum : Nat) : Int) =
      ((backedUp 1 [(4, 0), (4, 0)]).map Prod.fst).sum :=
  committed_exactly_once Streambuf.bump 1 4
    { bump2 with
      streambuf_ :=
        (9, [SinkCall.prepare 4, SinkCall.commit 4, SinkCall.prepare 4, SinkCall.commit 3])
      count_ := 7
      commit_ := 0 }
    (backedUp 1 [(4, 0), (4, 0)])
    (9, [SinkCall.prepare 4, SinkCall.commit 4, SinkCall.prepare 4, SinkCall.commit 3])
    (Trace.backUp 1
      (Trace.next (r := ⟨5, 4⟩) (Trace.next (r := ⟨1, 4⟩) (Trace.new bump0_new) bump0_Next)
        bump1_Next)
      (by decide) rfl)
    (by decide) rfl

end ZeroCopyOutputStream

namespace ZeroCopyOutputStream

variable {σ : Type}

/-- C14, counterexample: over the sink `Streambuf.bump` with block size `2^31`, the state after
construction and one `Next` is reachable and has the pending amount `c = 2^64 - 2^31` and
`ByteCount` 0; `BackUp (0)` commits `c - 0` bytes in one call and leaves `ByteCount` at `-2^31`:
it has not grown by `c - 0`. -/
theorem writer_backup_postcondition_counterexample :
    ∃ w1 w2, Trace Streambuf.bump 1 2147483648 w1 [(-2147483648, 0)] ∧
      w1.commit_ = 18446744071562067968 ∧ w1.ByteCount = 0 ∧
      BackUp Streambuf.bump.logged w1 (0 : Nat) = some w2 ∧
      w2.streambuf_.2 = w1.streambuf_.2 ++ [SinkCall.commit (18446744071562067968 - 0)] ∧
      w2.ByteCount = -2147483648 ∧
      w2.ByteCount ≠ w1.ByteCount + ((18446744071562067968 - 0 : Nat) : Int) := by
  refine ⟨_, _, Trace.next (r := ⟨1, -2147483648⟩) (Trace.new rfl) rfl, rfl, rfl, rfl, rfl,
    by decide, by decide⟩

/-- C14, amended: for a writer with pending amount `c` and for `0 ≤ n ≤ c`, `BackUp (n)` calls
`commit` of the sink once, with the amount `c - n`; when the sink accepts it, `ByteCount`
changes by `c - n` taken as a signed number of 64 bits, which is a growth by exactly `c - n`
when `c - n` is below `2^63`, the pending amount becomes zero, and the prepared batch, the
cursor into it and the block size are unchanged; the call faults only if the sink does. -/
theorem writer_backup_postcondition (S : Streambuf σ)
    (w : ZeroCopyOutputStream (σ × List SinkCall)) (n : Nat) (hn : n ≤ w.commit_) :
    (∀ sb, S.commit w.streambuf_.1 (w.commit_ - n) = some sb →
      ∃ w', BackUp S.logged w n = some w' ∧
        w'.streambuf_ = (sb, w.streambuf_.2 ++ [SinkCall.commit (w.commit_ - n)]) ∧
        w'.ByteCount = w.ByteCount + to_int64 (w.commit_ - n) ∧
        (w.commit_ - n < 9223372036854775808 →
          w'.ByteCount = w.ByteCount + ((w.commit_ - n : Nat) : Int)) ∧
        w'.commit_ = 0 ∧ w'.buffers_ = w.buffers_ ∧ w'.pos_ = w.pos_ ∧
        w'.blockSize_ = w.blockSize_) ∧
    (S.commit w.streambuf_.1 (w.commit_ - n) = none → BackUp S.logged w n = none) := by
  constructor
  · intro sb hsb
    rw [BackUp_logged S w n hn, hsb]
    refine ⟨_, rfl, rfl, rfl, ?_, rfl, rfl, rfl, rfl⟩
    intro hlt
    simp only [ByteCount, to_int64, if_pos hlt]
  · intro hsb
    rw [BackUp_logged S w n hn, hsb]

/-- Witness of C14, amended: over the sink `Streambuf.bump`, the writer `bump2`, with 4 bytes
pending, and `BackUp (1)`. -/
theorem writer_backup_postcondition_witness :
    (1 : Nat) ≤ bump2.commit_ ∧
    (∀ sb, Streambuf.bump.commit bump2.streambuf_.1 (bump2.commit_ - 1) = some sb →
      ∃ w', BackUp Streambuf.bump.logged bump2 (1 : Nat) = some w' ∧
        w'.streambuf_ = (sb, bump2.streambuf_.2 ++ [SinkCall.commit (bump2.commit_ - 1)]) ∧
        w'.ByteCount = bump2.ByteCount + to_int64 (bump2.commit_ - 1) ∧
        (bump2.commit_ - 1 < 9223372036854775808 →
          w'.ByteCount = bump2.ByteCount + ((bump2.commit_ - 1 : Nat) : Int)) ∧
        w'.commit_ = 0 ∧ w'.buffers_ = bump2.buffers_ ∧ w'.pos_ = bump2.pos_ ∧
        w'.blockSize_ = bump2.blockSize_) ∧
    (Streambuf.bump.commit bump2.streambuf_.1 (bump2.commit_ - 1) = none →
      BackUp Streambuf.bump.logged bump2 (1 : Nat) = none) :=
  ⟨by decide, writer_backup_postcondition Streambuf.bump bump2 1 (by decide)⟩

/-- C15, counterexample: over the sink `Streambuf.bump` with block size `2^31`, construction and
two calls of `Next` all return; each `Next` reports the size `-2^31` for its chunk; the second
has passed `2^64 - 2^31` bytes to `commit`, and `ByteCount` is `-2^31` after it. -/
theorem writer_byte_count_invariant_counterexample :
    ∃ w2, Trace Streambuf.bump 1 2147483648 w2 [(-2147483648, 0), (-2147483648, 0)] ∧
      w2.ByteCount = -2147483648 ∧
      committedBytes w2.streambuf_.2 = 18446744071562067968 := by
  refine ⟨_, Trace.next (r := ⟨2147483649, -2147483648⟩)
    (Trace.next (r := ⟨1, -2147483648⟩) (Trace.new rfl) rfl) rfl, by decide, by decide⟩

/-- C15, amended: in every writer state reachable from construction by `Next` and by `BackUp`
within its precondition, all calls returning and no chunk being reported with a negative size,
`ByteCount` is the total number of bytes the writer has passed to `commit` of the sink so far;
together with the pending amount it makes up the kept parts of all chunks handed out, so the
pending amount of the most recent chunk is not counted in it. -/
theorem writer_byte_count_invariant (S : Streambuf σ) (streambuf : σ) (blockSize : Nat)
    (w : ZeroCopyOutputStream (σ × List SinkCall)) (chunks : List (Int × Nat))
    (h : Trace S streambuf blockSize w chunks) (hnn : ∀ c ∈ chunks, 0 ≤ c.1) :
    w.ByteCount = committedBytes w.streambuf_.2 ∧
    w.ByteCount + w.commit_ = ((chunks.map kept).sum : Nat) ∧
    (w.commit_ ≠ 0 → ∃ cs, chunks = ((w.commit_ : Int), 0) :: cs ∧
      w.ByteCount = ((cs.map kept).sum : Nat)) := by
  have hinv := h.inv hnn
  have htotal := hinv.committed_total
  have hcount : w.ByteCount = committedBytes w.streambuf_.2 := hinv.count
  refine ⟨hcount, ?_, ?_⟩
  · rw [hcount, ← htotal]; push_cast; rfl
  · intro h0
    rcases hinv.pending with h1 | ⟨cs, hcs⟩
    · exact absurd h1 h0
    · refine ⟨cs, hcs, ?_⟩
      rw [hcs] at htotal
      simp only [List.map_cons, List.sum_cons, kept, Nat.sub_zero, Int.toNat_ofNat] at htotal
      rw [hcount]
      exact_mod_cast (by omega : committedBytes w.streambuf_.2 = (cs.map kept).sum)

/-- Witness of C15, amended: over the sink `Streambuf.bump`, the writer `bump2`, reached by
construction and two calls of `Next`. -/
theorem writer_byte_count_invariant_witness :
    bump2.ByteCount = committedBytes bump2.streambuf_.2 ∧
    bump2.ByteCount + bump2.commit_ =
      ((([(4, 0), (4, 0)] : List (Int × Nat)).map kept).sum : Nat) ∧
    (bump2.commit_ ≠ 0 →
      ∃ cs, ([(4, 0), (4, 0)] : List (Int × Nat)) = ((bump2.commit_ : Int), 0) :: cs ∧
        bump2.ByteCount = ((cs.map kept).sum : Nat)) :=
  writer_byte_count_invariant Streambuf.bump 1 4 bump2 [(4, 0), (4, 0)]
    (Trace.next (r := ⟨5, 4⟩) (Trace.next (r := ⟨1, 4⟩) (Trace.new bump0_new) bump0_Next)
      bump1_Next)
    (by decide)

theorem refill_growable (S : Streambuf σ) (hS : S.Growable)
    (w1 : ZeroCopyOutputStream (σ × List SinkCall)) (hb : 0 < w1.blockSize_) :
    ∃ w2 b rest, Next.refill S.logged w1 = some w2 ∧ w2.pos_.ahead = b :: rest := by
  obtain ⟨⟨sb1, log1⟩, bs1, cnt1, cm1, bufs1, ⟨before1, ahead1⟩⟩ := w1
  simp only at hb
  cases ahead1 with
  | nil =>
    obtain ⟨bufs', sb', hp, hcap⟩ := hS sb1 bs1
    cases bufs' with
    | nil => simp [Sink.capacity] at hcap; omega
    | cons b rest =>
      refine ⟨
        { streambuf_ := (sb', log1 ++ [SinkCall.prepare bs1])
          blockSize_ := bs1
          count_ := cnt1
          commit_ := cm1
          buffers_ := b :: rest
          pos_ := iterator.begin (b :: rest) }, b, rest, ?_, rfl⟩
      simp only [Next.refill, iterator.atEnd, List.isEmpty_nil, if_true, Streambuf.logged, hp]
  | cons a rest =>
    refine ⟨⟨(sb1, log1), bs1, cnt1, cm1, bufs1, ⟨before1, a :: rest⟩⟩, a, rest, ?_, rfl⟩
    simp [Next.refill, iterator.atEnd]

theorem Next_growable (S : Streambuf σ) (hS : S.Growable)
    (w : ZeroCopyOutputStream (σ × List SinkCall)) (hb : 0 < w.blockSize_)
    (hcommit : w.commit_ ≠ 0 → ∃ sb, S.commit w.streambuf_.1 w.commit_ = some sb) :
    ∃ r w', Next S.logged w = some (true, r, w') := by
  obtain ⟨w1, hf, hbs, _⟩ := flush_logged S w hcommit
  obtain ⟨w2, b, rest, hr, hah⟩ := refill_growable S hS w1 (by rw [hbs]; exact hb)
  exact ⟨⟨b.data, to_int b.size⟩,
    { w2 with commit_ := to_size_t (to_int b.size), pos_ := ⟨b :: w2.pos_.before, rest⟩ },
    by simp only [Next, hf, hr, hah]⟩

theorem bump_growable : Streambuf.bump.Growable :=
  fun sb size => ⟨[⟨sb, size⟩], sb + size, rfl, by simp [Sink.capacity]⟩

/-- C16, counterexample: the sink with the layout "nothing for size 0, else one region of the
size asked for" returns regions of total capacity at least `size` for every `prepare (size)`;
a writer with block size 0 over it is constructed with an empty batch, and its first `Next`
prepares another empty batch and reads `*pos_` at the end of it, which is undefined: it does not
return true with a region.  The sink of the spec whose preparations are a region of 2 bytes
followed by a region of the size asked for has the capacity asked for too; with block size 4 the
second `Next` commits against the batch and hands out its second region, and in the state after
it, which is reachable, `Next` faults, because the sink rejects the commit of the pending
amount.  Over the sink `Streambuf.bump`, which has the capacity asked for and accepts every
commit, with block size `2^31` the first `Next` hands out the region of `2^31` bytes and
records `2^64 - 2^31` as the pending amount, not the size of the region. -/
theorem next_always_succeeds_counterexample :
    ((Sink.ops (fun _ n => if n = 0 then [] else [n])).Growable ∧
      ∃ w0, new (Sink.ops (fun _ n => if n = 0 then [] else [n])) (Sink.empty 1) 0 = some w0 ∧
        w0.buffers_ = [] ∧
        Next (Sink.ops (fun _ n => if n = 0 then [] else [n])) w0 = none) ∧
    ((Sink.ops (fun _ n => [2, n])).Growable ∧
      ∃ w2, Trace (Sink.ops (fun _ n => [2, n])) (Sink.empty 1) 4 w2 [(4, 0), (2, 0)] ∧
        Next (Sink.ops (fun _ n => [2, n])).logged w2 = none) ∧
    (Streambuf.bump.Growable ∧
      ∃ w0 w1, Trace Streambuf.bump 1 2147483648 w0 [] ∧
        w0.buffers_ = [⟨1, 2147483648⟩] ∧
        Next Streambuf.bump.logged w0 = some (true, ⟨1, -2147483648⟩, w1) ∧
        w1.commit_ = 18446744071562067968) := by
  refine ⟨⟨?_, _, rfl, rfl, rfl⟩, ⟨?_, _, Trace.next (r := ⟨3, 4⟩)
    (Trace.next (r := ⟨1, 2⟩) (Trace.new rfl) rfl) rfl, rfl⟩,
    ⟨bump_growable, _, _, Trace.new rfl, rfl, rfl, rfl⟩⟩
  · intro k size
    by_cases h : size = 0
    · subst h
      exact ⟨[], { k with prepared := [], prepares := k.prepares + 1 },
        by simp [Sink.ops, Sink.prepare, Sink.carve], by simp⟩
    · exact ⟨[⟨k.brk, size⟩],
        { k with prepared := [⟨k.brk, size⟩], brk := k.brk + size, prepares := k.prepares + 1 },
        by simp [Sink.ops, Sink.prepare, Sink.carve, h], by simp [Sink.capacity]⟩
  · intro k size
    exact ⟨[⟨k.brk, 2⟩, ⟨k.brk + 2, size⟩],
      { k with prepared := [⟨k.brk, 2⟩, ⟨k.brk + 2, size⟩], brk := k.brk + (2 + size),
               prepares := k.prepares + 1 },
      by simp [Sink.ops, Sink.prepare, Sink.carve], by simp [Sink.capacity]⟩

/-- C16, amended: for every block size that is not zero, every sink whose `prepare (size)`
always returns regions of total capacity at least `size`, and every reachable writer state whose
pending amount, if any, the sink accepts, `Next` returns true and hands out a region of the
current prepared batch, the one at the cursor (of the batch it has just prepared when the cursor
was at the end), and moves the cursor past that region; it reports the size of the region
through an `int` and records the size reported as the pending amount, which is the size of the
region when that is below `2^31`. -/
theorem next_always_succeeds (S : Streambuf σ) (streambuf : σ) (blockSize : Nat)
    (w : ZeroCopyOutputStream (σ × List SinkCall)) (chunks : List (Int × Nat))
    (hS : S.Growable) (hb : 0 < blockSize) (h : Trace S streambuf blockSize w chunks)
    (hcommit : w.commit_ ≠ 0 → ∃ sb, S.commit w.streambuf_.1 w.commit_ = some sb) :
    ∃ (b : mutable_buffer) (w' : ZeroCopyOutputStream (σ × List SinkCall))
        (before rest : List mutable_buffer),
      Next S.logged w = some (true, ⟨b.data, to_int b.size⟩, w') ∧
      b ∈ w'.buffers_ ∧ w'.buffers_ = before.reverse ++ b :: rest ∧
      w'.pos_ = ⟨b :: before, rest⟩ ∧ w'.commit_ = to_size_t (to_int b.size) ∧
      (b.size < 2147483648 → to_int b.size = b.size ∧ w'.commit_ = b.size) ∧
      (w.pos_.atEnd = false → w.pos_ = ⟨before, b :: rest⟩ ∧ w'.buffers_ = w.buffers_) := by
  have hinv := h.frame
  obtain ⟨r, w', hnext⟩ := Next_growable S hS w (by rw [hinv.block]; exact hb) hcommit
  obtain ⟨_, hc, _, _, _, b, before, rest, hr, hpos, hstay, _⟩ :=
    Next_logged S w w' true r hnext
  have hcur := (Frame_Next S blockSize w w' chunks true r hinv hnext).cursor
  rw [hpos] at hcur
  simp only [iterator.sequence, List.reverse_cons, List.append_assoc, List.singleton_append]
    at hcur
  subst hr
  refine ⟨b, w', before, rest, hnext, ?_, hcur.symm, hpos, hc, ?_, hstay⟩
  · rw [← hcur]
    simp
  · intro hlt
    have h1 := to_int_of_lt b.size hlt
    refine ⟨h1, ?_⟩
    rw [hc]
    simp only [h1, to_size_t_natCast]

/-- Witness of C16, amended: the sink `Streambuf.bump` prepares the size asked for and accepts
every commit; the writer `bump1` with block size 4 over it is reachable. -/
theorem next_always_succeeds_witness :
    ∃ (b : mutable_buffer) (w' : ZeroCopyOutputStream (Nat × List SinkCall))
        (before rest : List mutable_buffer),
      Next Streambuf.bump.logged bump1 = some (true, ⟨b.data, to_int b.size⟩, w') ∧
      b ∈ w'.buffers_ ∧ w'.buffers_ = before.reverse ++ b :: rest ∧
      w'.pos_ = ⟨b :: before, rest⟩ ∧ w'.commit_ = to_size_t (to_int b.size) ∧
      (b.size < 2147483648 → to_int b.size = b.size ∧ w'.commit_ = b.size) ∧
      (bump1.pos_.atEnd = false →
        bump1.pos_ = ⟨before, b :: rest⟩ ∧ w'.buffers_ = bump1.buffers_) :=
  next_always_succeeds Streambuf.bump 1 4 bump1 [(4, 0)]
    (fun sb size => ⟨[⟨sb, size⟩], sb + size, rfl, by simp [Sink.capacity]⟩)
    (by decide) (Trace.next (r := ⟨1, 4⟩) (Trace.new bump0_new) bump0_Next)
    (fun _ => ⟨5, rfl⟩)

end ZeroCopyOutputStream

namespace ZeroCopyOutputStream

variable {σ : Type}

theorem to_int_ne_zero (n : Nat) : to_int n ≠ 0 ↔ n % 4294967296 ≠ 0 := by
  unfold to_int
  split <;> omega

theorem to_size_t_ne_zero (z : Int) (h1 : -2147483648 ≤ z) : to_size_t z ≠ 0 ↔ z ≠ 0 := by
  unfold to_size_t
  have h64 : (2 : Int) ^ 64 = 18446744073709551616 := by norm_num
  rw [h64]
  split <;> omega

theorem to_int_ge (n : Nat) : -2147483648 ≤ to_int n := by
  unfold to_int
  split <;> omega

theorem Trace.ahead_of {S : Streambuf σ} {streambuf : σ} {blockSize : Nat}
    {w : ZeroCopyOutputStream (σ × List SinkCall)} {chunks : List (Int × Nat)}
    (P : mutable_buffer → Prop)
    (hS : ∀ sb n buffers sb', S.prepare sb n = some (buffers, sb') → ∀ b ∈ buffers, P b)
    (h : Trace S streambuf blockSize w chunks) : ∀ b ∈ w.pos_.ahead, P b := by
  induction h with
  | @new w hnew =>
    obtain ⟨_, _, _, _, hpos, sb, sb', hp⟩ := new_logged S (streambuf, []) blockSize w hnew
    intro b hb
    rw [hpos] at hb
    exact hS sb blockSize _ sb' hp b hb
  | @next w w' chunks ok r _ hnext ih =>
    obtain ⟨_, _, _, _, _, c, before, rest, _, hpos, hstay, hrefill⟩ :=
      Next_logged S w w' ok r hnext
    intro b hb
    rw [hpos] at hb
    cases hat : w.pos_.atEnd with
    | false =>
      obtain ⟨hw, _⟩ := hstay hat
      apply ih b
      rw [hw]
      exact List.mem_cons_of_mem _ hb
    | true =>
      obtain ⟨_, _, sb, sb', hp⟩ := hrefill hat
      exact hS sb w.blockSize_ _ sb' hp b (List.mem_cons_of_mem _ hb)
  | @backUp w w' chunks k _ hk hb ih =>
    rw [BackUp_logged S w k hk] at hb
    cases hc : S.commit w.streambuf_.1 (w.commit_ - k) with
    | none => simp [hc] at hb
    | some sb =>
      simp only [hc, Option.some.injEq] at hb
      subst hb
      exact ih

/-- C17, counterexample: over the sink whose preparations are an empty region followed by a
region of 4 bytes, which has the capacity asked for by block size 4, the first `Next` of a fresh
writer returns true with the empty region `(1, 0)`, and the pending amount directly after that
call is zero.  The same happens with block size 0 over the sink `Streambuf.bump`, whose
preparation is then one empty region, and with block size `2^32` over that sink, whose
preparation is then one region of `2^32` bytes, for which `Next` reports the size 0. -/
theorem pending_after_next_counterexample :
    (∃ w0 w1, new (Sink.ops (fun _ _ => [0, 4])) (Sink.empty 1) 4 = some w0 ∧
      w0.buffers_ = [⟨1, 0⟩, ⟨1, 4⟩] ∧
      Next (Sink.ops (fun _ _ => [0, 4])) w0 = some (true, ⟨1, 0⟩, w1) ∧ w1.commit_ = 0) ∧
    (∃ w0 w1, new Streambuf.bump.logged (1, []) 0 = some w0 ∧
      Next Streambuf.bump.logged w0 = some (true, ⟨1, 0⟩, w1) ∧ w1.commit_ = 0) ∧
    (∃ w0 w1, new Streambuf.bump.logged (1, []) 4294967296 = some w0 ∧
      w0.buffers_ = [⟨1, 4294967296⟩] ∧
      Next Streambuf.bump.logged w0 = some (true, ⟨1, 0⟩, w1) ∧ w1.commit_ = 0) :=
  ⟨⟨_, _, rfl, rfl, rfl, rfl⟩, ⟨_, _, rfl, rfl, rfl⟩, ⟨_, _, rfl, rfl, rfl, rfl⟩⟩

/-- C17, amended: in the writer state reached immediately after a call of `Next` on a reachable
state, the pending amount is the size that `Next` reported for the region handed out, stored in
a `std::size_t`, so it is nonzero exactly when the size reported is not zero, which is when the
size of the region is not a multiple of `2^32` (an empty region has such a size); it is the size
of the region when that is below `2^31`; and it is nonzero after every such call when no
preparation of the sink contains a region whose size is a multiple of `2^32`. -/
theorem pending_after_next (S : Streambuf σ) (streambuf : σ) (blockSize : Nat)
    (w w' : ZeroCopyOutputStream (σ × List SinkCall)) (chunks : List (Int × Nat))
    (ok : Bool) (r : chunk) (h : Trace S streambuf blockSize w chunks)
    (hnext : Next S.logged w = some (ok, r, w')) :
    w'.commit_ = to_size_t r.size ∧ (w'.commit_ ≠ 0 ↔ r.size ≠ 0) ∧
    (∃ b : mutable_buffer, r = ⟨b.data, to_int b.size⟩ ∧
      (w'.commit_ ≠ 0 ↔ b.size % 4294967296 ≠ 0) ∧
      (b.size < 2147483648 → w'.commit_ = b.size)) ∧
    ((∀ sb n (buffers : List mutable_buffer) sb', S.prepare sb n = some (buffers, sb') →
        ∀ b ∈ buffers, b.size % 4294967296 ≠ 0) →
      w'.commit_ ≠ 0) := by
  obtain ⟨_, hc, _, _, _, b, before, rest, hr, hpos, hstay, hrefill⟩ :=
    Next_logged S w w' ok r hnext
  have hiff : w'.commit_ ≠ 0 ↔ r.size ≠ 0 := by
    rw [hc]
    apply to_size_t_ne_zero
    rw [hr]
    exact to_int_ge b.size
  have hiff' : w'.commit_ ≠ 0 ↔ b.size % 4294967296 ≠ 0 := by
    rw [hiff, hr]
    exact to_int_ne_zero b.size
  refine ⟨hc, hiff, ⟨b, hr, hiff', ?_⟩, ?_⟩
  · intro hlt
    rw [hc, hr]
    simp only [to_int_of_lt b.size hlt, to_size_t_natCast]
  · intro hS
    rw [hiff']
    cases hat : w.pos_.atEnd with
    | false =>
      obtain ⟨hw, _⟩ := hstay hat
      apply Trace.ahead_of (fun b => b.size % 4294967296 ≠ 0) hS h b
      rw [hw]
      exact List.mem_cons_self _ _
    | true =>
      obtain ⟨_, _, sb, sb', hp⟩ := hrefill hat
      exact hS sb w.blockSize_ _ sb' hp b (List.mem_cons_self _ _)

/-- Witness of C17, amended: over the sink `Streambuf.bump`, the `Next` that takes the reachable
writer `bump1` to `bump2`. -/
theorem pending_after_next_witness :
    Next Streambuf.bump.logged bump1 = some (true, ⟨5, 4⟩, bump2) ∧
    bump2.commit_ = to_size_t (⟨5, 4⟩ : chunk).size ∧
    (bump2.commit_ ≠ 0 ↔ (⟨5, 4⟩ : chunk).size ≠ 0) ∧
    (∃ b : mutable_buffer, (⟨5, 4⟩ : chunk) = ⟨b.data, to_int b.size⟩ ∧
      (bump2.commit_ ≠ 0 ↔ b.size % 4294967296 ≠ 0) ∧
      (b.size < 2147483648 → bump2.commit_ = b.size)) ∧
    ((∀ sb n (buffers : List mutable_buffer) sb',
        Streambuf.bump.prepare sb n = some (buffers, sb') →
        ∀ b ∈ buffers, b.size % 4294967296 ≠ 0) →
      bump2.commit_ ≠ 0) :=
  ⟨bump1_Next,
    pending_after_next Streambuf.bump 1 4 bump1 bump2 [(4, 0)] true ⟨5, 4⟩
      (Trace.next (r := ⟨1, 4⟩) (Trace.new bump0_new) bump0_Next) bump1_Next⟩

/-- C18, counterexample: over the sink `Streambuf.bump` with block size `2^31`, the state after
construction and one `Next` is reachable; the chunk most recently returned has the reported size
`-2^31`, and the pending amount is `2^64 - 2^31`, which is not at most that size. -/
theorem pending_commit_invariant_counterexample :
    ∃ w1, Trace Streambuf.bump 1 2147483648 w1 [(-2147483648, 0)] ∧
      w1.commit_ = 18446744071562067968 ∧
      ¬ ((w1.commit_ : Int) ≤ -2147483648) := by
  refine ⟨_, Trace.next (r := ⟨1, -2147483648⟩) (Trace.new rfl) rfl, rfl, by decide⟩

/-- C18, amended: in every reachable writer state the pending amount is zero when no chunk was
returned yet; otherwise it is zero or it is the size reported for the chunk most recently
returned by `Next`, stored in a `std::size_t`, with nothing backed up for that chunk, so it is
at most that size when that size is not negative; every `prepare` the writer has issued asked
for the configured block size.  A `Next` from that state leaves the size reported for the chunk
it returns pending, and the calls it makes to the sink are, in this order, a `commit` of the
pending amount if that is not zero, and a `prepare` of the block size if and only if the cursor
was at the end of the batch.  A `BackUp` within its precondition leaves zero pending and issues
one `commit` and no `prepare`. -/
theorem pending_commit_invariant (S : Streambuf σ) (streambuf : σ) (blockSize : Nat)
    (w : ZeroCopyOutputStream (σ × List SinkCall)) (chunks : List (Int × Nat))
    (h : Trace S streambuf blockSize w chunks) :
    (chunks = [] → w.commit_ = 0) ∧
    (∀ n k cs, chunks = (n, k) :: cs →
      w.commit_ = 0 ∨ (k = 0 ∧ w.commit_ = to_size_t n)) ∧
    (∀ n k cs, chunks = (n, k) :: cs → 0 ≤ n → (w.commit_ : Int) ≤ n) ∧
    (∀ n, SinkCall.prepare n ∈ w.streambuf_.2 → n = blockSize) ∧
    w.blockSize_ = blockSize ∧
    (∀ ok r w', Next S.logged w = some (ok, r, w') →
      w'.commit_ = to_size_t r.size ∧ (0 ≤ r.size → (w'.commit_ : Int) = r.size) ∧
      w'.streambuf_.2 = w.streambuf_.2 ++
        (if w.commit_ ≠ 0 then [SinkCall.commit w.commit_] else []) ++
        (if w.pos_.atEnd then [SinkCall.prepare blockSize] else [])) ∧
    (∀ k : Nat, k ≤ w.commit_ → ∀ w', BackUp S.logged w k = some w' →
      w'.commit_ = 0 ∧
      w'.streambuf_.2 = w.streambuf_.2 ++ [SinkCall.commit (w.commit_ - k)]) := by
  have hinv := h.frame
  have hpend : ∀ n k cs, chunks = (n, k) :: cs →
      w.commit_ = 0 ∨ (k = 0 ∧ w.commit_ = to_size_t n) := by
    intro n k cs hcs
    rcases hinv.pending with h0 | ⟨n', cs', hcs', hc'⟩
    · exact Or.inl h0
    · rw [hcs] at hcs'
      simp only [List.cons.injEq, Prod.mk.injEq] at hcs'
      obtain ⟨⟨rfl, rfl⟩, _⟩ := hcs'
      exact Or.inr ⟨rfl, hc'⟩
  refine ⟨?_, hpend, ?_, hinv.prepares, hinv.block, ?_, ?_⟩
  · intro hnil
    rcases hinv.pending with h0 | ⟨n, cs, hcs, _⟩
    · exact h0
    · rw [hnil] at hcs; cases hcs
  · intro n k cs hcs hnn
    rcases hpend n k cs hcs with h0 | ⟨_, hc⟩
    · omega
    · rw [hc, to_size_t_of_nonneg _ hnn]
      omega
  · intro ok r w' hnext
    obtain ⟨_, hc, _, _, hlog, _⟩ := Next_logged S w w' ok r hnext
    rw [hinv.block] at hlog
    refine ⟨hc, ?_, hlog⟩
    intro hnn
    rw [hc, to_size_t_of_nonneg _ hnn]
    omega
  · intro k hk w' hb
    rw [BackUp_logged S w k hk] at hb
    cases hc : S.commit w.streambuf_.1 (w.commit_ - k) with
    | none => simp [hc] at hb
    | some sb =>
      simp only [hc, Option.some.injEq] at hb
      subst hb
      exact ⟨rfl, rfl⟩

/-- Witness of C18, amended: over the sink `Streambuf.bump`, the writer `bump2`, reached by
construction and two calls of `Next`. -/
theorem pending_commit_invariant_witness :
    (([(4, 0), (4, 0)] : List (Int × Nat)) = [] → bump2.commit_ = 0) ∧
    (∀ n k cs, ([(4, 0), (4, 0)] : List (Int × Nat)) = (n, k) :: cs →
      bump2.commit_ = 0 ∨ (k = 0 ∧ bump2.commit_ = to_size_t n)) ∧
    (∀ n k cs, ([(4, 0), (4, 0)] : List (Int × Nat)) = (n, k) :: cs → 0 ≤ n →
      (bump2.commit_ : Int) ≤ n) ∧
    (∀ n, SinkCall.prepare n ∈ bump2.streambuf_.2 → n = 4) ∧
    bump2.blockSize_ = 4 ∧
    (∀ ok r w', Next Streambuf.bump.logged bump2 = some (ok, r, w') →
      w'.commit_ = to_size_t r.size ∧ (0 ≤ r.size → (w'.commit_ : Int) = r.size) ∧
      w'.streambuf_.2 = bump2.streambuf_.2 ++
        (if bump2.commit_ ≠ 0 then [SinkCall.commit bump2.commit_] else []) ++
        (if bump2.pos_.atEnd then [SinkCall.prepare 4] else [])) ∧
    (∀ k : Nat, k ≤ bump2.commit_ → ∀ w', BackUp Streambuf.bump.logged bump2 k = some w' →
      w'.commit_ = 0 ∧
      w'.streambuf_.2 = bump2.streambuf_.2 ++ [SinkCall.commit (bump2.commit_ - k)]) :=
  pending_commit_invariant Streambuf.bump 1 4 bump2 [(4, 0), (4, 0)]
    (Trace.next (r := ⟨5, 4⟩) (Trace.next (r := ⟨1, 4⟩) (Trace.new bump0_new) bump0_Next)
      bump1_Next)

end ZeroCopyOutputStream

namespace ZeroCopyOutputStream

/-- What a call of `Next` that returns does to the outstanding preparation of the sink of the
spec. -/
theorem Next_prepared (layout : Nat → Nat → List Nat)
    (w w' : ZeroCopyOutputStream (Sink × List SinkCall)) (ok : Bool) (r : chunk)
    (h : Next (Sink.ops layout).logged w = some (ok, r, w')) :
    (w.pos_.atEnd = true → w'.streambuf_.1.prepared = w'.buffers_) ∧
    (w.pos_.atEnd = false → w.commit_ ≠ 0 → w'.streambuf_.1.prepared = []) ∧
    (w.pos_.atEnd = false → w.commit_ = 0 →
      w'.streambuf_.1.prepared = w.streambuf_.1.prepared) := by
  obtain ⟨⟨sb, log⟩, bs, cnt, cm, bufs, ⟨before, ahead⟩⟩ := w
  simp only [Next, Next.flush, Next.refill, Streambuf.logged, Sink.ops, Sink.commit,
    Sink.prepare, iterator.atEnd, iterator.begin] at h ⊢
  by_cases hcm : cm = 0
  · subst hcm
    simp only [ne_eq, not_true_eq_false, if_false] at h ⊢
    cases ahead with
    | nil =>
      simp only [List.isEmpty_nil, if_true] at h ⊢
      by_cases hp : bs ≤ (layout sb.prepares bs).sum
      · simp only [hp, if_true] at h
        cases hl : Sink.carve sb.brk (layout sb.prepares bs) with
        | nil => simp [hl] at h
        | cons b rest =>
          simp only [hl, Option.some.injEq, Prod.mk.injEq] at h
          obtain ⟨_, _, rfl⟩ := h
          simp
      · simp [hp] at h
    | cons a rest =>
      simp only [List.isEmpty_cons, Bool.false_eq_true, if_false, Option.some.injEq,
        Prod.mk.injEq] at h ⊢
      obtain ⟨_, _, rfl⟩ := h
      simp
  · simp only [ne_eq, hcm, not_false_eq_true, if_true] at h ⊢
    by_cases hc : cm ≤ Sink.capacity sb.prepared
    · simp only [hc, if_true] at h
      cases ahead with
      | nil =>
        simp only [List.isEmpty_nil, if_true] at h ⊢
        by_cases hp : bs ≤ (layout sb.prepares bs).sum
        · simp only [hp, if_true] at h
          cases hl : Sink.carve sb.brk (layout sb.prepares bs) with
          | nil => simp [hl] at h
          | cons b rest =>
            simp only [hl, Option.some.injEq, Prod.mk.injEq] at h
            obtain ⟨_, _, rfl⟩ := h
            simp
        · simp [hp] at h
      | cons a rest =>
        simp only [List.isEmpty_cons, Bool.false_eq_true, if_false, Option.some.injEq,
          Prod.mk.injEq] at h ⊢
        obtain ⟨_, _, rfl⟩ := h
        simp
    · simp [hc] at h

theorem new_prepared (layout : Nat → Nat → List Nat) (sink : Sink) (blockSize : Nat)
    (w : ZeroCopyOutputStream (Sink × List SinkCall))
    (h : new (Sink.ops layout).logged (sink, []) blockSize = some w) :
    w.streambuf_.1.prepared = w.buffers_ := by
  simp only [new, Streambuf.logged, Sink.ops, Sink.prepare] at h
  by_cases hp : blockSize ≤ (layout sink.prepares blockSize).sum
  · simp only [hp, if_true, Option.some.injEq] at h
    subst h
    rfl
  · simp [hp] at h

theorem BackUp_prepared (layout : Nat → Nat → List Nat)
    (w w' : ZeroCopyOutputStream (Sink × List SinkCall)) (k : Nat) (hk : k ≤ w.commit_)
    (h : BackUp (Sink.ops layout).logged w k = some w') :
    w'.streambuf_.1.prepared = [] ∧ w'.buffers_ = w.buffers_ := by
  rw [BackUp_logged _ w k hk] at h
  simp only [Sink.ops, Sink.commit] at h
  by_cases hc : w.commit_ - k ≤ Sink.capacity w.streambuf_.1.prepared
  · simp only [hc, if_true, Option.some.injEq] at h
    subst h
    exact ⟨rfl, rfl⟩
  · simp [hc] at h

/-- Over the sink of the spec, the outstanding preparation of the sink is the batch of the
writer, or nothing once a commit was made against it. -/
theorem Trace.prepared {layout : Nat → Nat → List Nat} {sink : Sink} {blockSize : Nat}
    {w : ZeroCopyOutputStream (Sink × List SinkCall)} {chunks : List (Int × Nat)}
    (h : Trace (Sink.ops layout) sink blockSize w chunks) :
    w.streambuf_.1.prepared = w.buffers_ ∨ w.streambuf_.1.prepared = [] := by
  induction h with
  | new hnew => exact Or.inl (new_prepared layout sink blockSize _ hnew)
  | @next w w' chunks ok r _ hnext ih =>
    obtain ⟨h1, h2, h3⟩ := Next_prepared layout w w' ok r hnext
    obtain ⟨_, _, _, _, _, b, before, rest, _, _, hstay, _⟩ :=
      Next_logged (Sink.ops layout) w w' ok r hnext
    cases hat : w.pos_.atEnd with
    | true => exact Or.inl (h1 hat)
    | false =>
      by_cases h0 : w.commit_ = 0
      · rw [h3 hat h0, (hstay hat).2]
        exact ih
      · exact Or.inr (h2 hat h0)
  | @backUp w w' chunks k _ hk hb ih =>
    exact Or.inr (BackUp_prepared layout w w' k hk hb).1

end ZeroCopyOutputStream

namespace ZeroCopyInputStream

/-- C19: in every reader state `Skip (0)` leaves the reader, and so the cursor and `ByteCount`,
unchanged; it returns true when the stream is not exhausted and false when it is. -/
theorem skip_zero (s : ZeroCopyInputStream) :
    (Skip s 0).2 = s ∧ (Skip s 0).2.first_ = s.first_ ∧ (Skip s 0).2.pos_ = s.pos_ ∧
    (Skip s 0).2.ByteCount = s.ByteCount ∧
    (s.first_.atEnd = false → (Skip s 0).1 = true) ∧
    (s.first_.atEnd = true → (Skip s 0).1 = false) := by
  have key : Skip s 0 = (!s.first_.atEnd, s) := by
    obtain ⟨count, ⟨before, ahead⟩, pos⟩ := s
    cases ahead with
    | nil => rfl
    | cons c rest =>
      simp only [Skip, iterator.atEnd, List.isEmpty_cons, Bool.not_false]
      rw [Skip_loop_done _ _ _ _ _ _ (by simp)]
  rw [key]
  refine ⟨rfl, rfl, rfl, rfl, ?_, ?_⟩ <;> intro h <;> simp [h]

end ZeroCopyInputStream

end ripple
